import Mathlib

/-!
# go-cose: integer codec, ECDSA signature codec and algorithm binding

A shallow embedding of `ecdsa.go` and `headers.go`.

* `*big.Int` values are mathematical integers (`Int`).
* Byte slices are `List Nat` (one entry per byte); a nil slice, where the source
  tells it apart from an empty one, is `none`.
* A Go call that may return an error or abort with a run-time panic yields an
  `Outcome`.
* `big.Word` is the machine word of the platform; its width in bits (`_W` in
  `math/big`, 32 or 64) is the parameter `W` of the definitions that depend on
  `(*big.Int).Bits`.
* A `map[interface{}]interface{}` is an association list of dynamically typed
  values; a nil map is `none`.
-/

namespace Cose

/-! ## Algorithms -/

/-- Modelled from the spec: the declaration `type Algorithm int64` lives in
`algorithm.go`; the spec describes an algorithm as "a signed integer identifier",
compared by value. -/
abbrev Algorithm := Int

/-! ## Dynamically typed values -/

/-- Go integer types that a header label or value can have. -/
inductive IntKind where
  | int | int8 | int16 | int32 | int64 | uint | uint8 | uint16 | uint32 | uint64
  deriving DecidableEq

/-- Dynamically typed value held in an `interface{}`: its dynamic type together
with its value. `integer k v` is the value `v` of the Go integer type `k`,
`algorithm a` is a value of type `Algorithm`, `array` is a `[]interface{}`,
`bigInt` is a `big.Int` (what the CBOR decoder yields for a negative integer
below the `int64` range and for a bignum), `null` is the nil interface value,
`float size bits` is the `float64` decoded from a floating-point number of
`size` bytes with the bit pattern `bits` (the arithmetic of the conversion is
not modelled), `simple n` is a `cbor.SimpleValue`, `tag number content` is a
`cbor.Tag`, and `map keys vals` is a `map[interface{}]interface{}` with its keys
and, in matching order, its values. -/
inductive Value where
  | integer (kind : IntKind) (v : Int)
  | algorithm (a : Algorithm)
  | string (s : String)
  | bool (b : Bool)
  | bytes (b : List Nat)
  | array (items : List Value)
  | bigInt (v : Int)
  | null
  | float (size bits : Nat)
  | simple (n : Nat)
  | tag (number : Nat) (content : Value)
  | map (keys vals : List Value)

mutual
/-- Structural equality of dynamically typed values: same dynamic type and same
value. -/
def Value.beq : Value → Value → Bool
  | .integer k v, .integer k2 v2 => decide (k = k2) && decide (v = v2)
  | .algorithm a, .algorithm b => decide (a = b)
  | .string a, .string b => decide (a = b)
  | .bool a, .bool b => decide (a = b)
  | .bytes a, .bytes b => decide (a = b)
  | .array a, .array b => Value.beqList a b
  | .bigInt a, .bigInt b => decide (a = b)
  | .null, .null => true
  | .float s a, .float t b => decide (s = t) && decide (a = b)
  | .simple a, .simple b => decide (a = b)
  | .tag n a, .tag m b => decide (n = m) && Value.beq a b
  | .map k a, .map l b => Value.beqList k l && Value.beqList a b
  | _, _ => false
/-- Pointwise `Value.beq` on lists. -/
def Value.beqList : List Value → List Value → Bool
  | [], [] => true
  | x :: xs, y :: ys => Value.beq x y && Value.beqList xs ys
  | _, _ => false
end

mutual
theorem Value.beq_iff : ∀ (a b : Value), Value.beq a b = true ↔ a = b
  | .integer k v, b => by cases b <;> simp [Value.beq]
  | .algorithm a, b => by cases b <;> simp [Value.beq]
  | .string a, b => by cases b <;> simp [Value.beq]
  | .bool a, b => by cases b <;> simp [Value.beq]
  | .bytes a, b => by cases b <;> simp [Value.beq]
  | .array a, b => by
    cases b <;> simp [Value.beq]
    exact Value.beqList_iff a _
  | .bigInt a, b => by cases b <;> simp [Value.beq]
  | .null, b => by cases b <;> simp [Value.beq]
  | .float s a, b => by cases b <;> simp [Value.beq]
  | .simple a, b => by cases b <;> simp [Value.beq]
  | .tag n a, b => by
    cases b <;> simp [Value.beq]
    intro _
    exact Value.beq_iff a _
  | .map k a, b => by
    cases b <;> simp [Value.beq]
    rw [Value.beqList_iff k _, Value.beqList_iff a _]
theorem Value.beqList_iff : ∀ (a b : List Value), Value.beqList a b = true ↔ a = b
  | [], b => by cases b <;> simp [Value.beqList]
  | x :: xs, b => by
    cases b with
    | nil => simp [Value.beqList]
    | cons y ys => simp [Value.beqList, Value.beq_iff x y, Value.beqList_iff xs ys]
end

instance : DecidableEq Value := fun a b =>
  if h : Value.beq a b = true then isTrue ((Value.beq_iff a b).mp h)
  else isFalse (fun e => h ((Value.beq_iff a b).mpr e))

/-! ## Errors -/

/-- Go `error` values. The first four constructors are package-level sentinels
(compared by identity in the source), `new` is an `errors.New` made at a call
site, `lengthError` is `fmt.Errorf("invalid signature length: %d", n)` and
`errorf format wrapped a b` is `fmt.Errorf(format, wrapped, a, b)` whose format
has one `%w` verb, wrapping `wrapped`, followed by two `%v` verbs that print the
algorithms `a` and `b`. `labelf format label` is `fmt.Errorf(format, label)`
with one `%v` verb printing a header label, and `wrapf format wrapped` is
`fmt.Errorf(format, wrapped)` with one `%w` verb. -/
inductive Error where
  | ErrAlgorithmNotFound
  | ErrInvalidAlgorithm
  | ErrAlgorithmMismatch
  | ErrVerification
  | new (msg : String)
  | lengthError (n : Nat)
  | errorf (format : String) (wrapped : Error) (a b : Algorithm)
  | labelf (format : String) (label : Value)
  | wrapf (format : String) (wrapped : Error)
  deriving DecidableEq

/-- Chain test of `errors.Is`: `e` is `target` or wraps it. -/
def Error.Is : Error → Error → Bool
  | .errorf f w a b, target =>
      decide (Error.errorf f w a b = target) || Error.Is w target
  | .wrapf f w, target =>
      decide (Error.wrapf f w = target) || Error.Is w target
  | e, target => decide (e = target)

/-- Values printed by the `%v` verbs of an error built with `fmt.Errorf`, in the
order in which its message names them. -/
def Error.operands : Error → List Algorithm
  | .errorf _ _ a b => [a, b]
  | _ => []

/-! ## Outcomes -/

/-- Result of a Go call: normal return with a value, normal return with a
non-nil error, or a run-time panic. -/
inductive Outcome (α : Type) where
  | ok (a : α)
  | error (e : Error)
  | panic
  deriving DecidableEq

/-- Decidable equality of `Except` results. -/
instance instDecidableEqExcept {ε α : Type} [DecidableEq ε] [DecidableEq α] :
    DecidableEq (Except ε α)
  | .ok a, .ok b =>
    if h : a = b then isTrue (by rw [h]) else isFalse (by intro e; cases e; exact h rfl)
  | .error a, .error b =>
    if h : a = b then isTrue (by rw [h]) else isFalse (by intro e; cases e; exact h rfl)
  | .ok _, .error _ => isFalse (by intro e; cases e)
  | .error _, .ok _ => isFalse (by intro e; cases e)

/-- Result of a Go method with a pointer receiver of type `σ` that returns an
`error`: the receiver after the call together with the returned error (`none`
for nil), or a run-time panic. -/
inductive Effect (σ : Type) where
  | returns (state : σ) (err : Option Error)
  | panics
  deriving DecidableEq

/-! ## `math/big` primitives used by the integer codec -/

/-- Little-endian base-`2^W` limbs of `x`, most significant limb non-zero; the
first argument bounds the number of limbs. -/
def limbs (W : Nat) : Nat → Nat → List Nat
  | 0, _ => []
  | fuel + 1, x => if x = 0 then [] else (x % 2 ^ W) :: limbs W fuel (x / 2 ^ W)

/-- Method `(*big.Int).Bits`: the normalised little-endian word slice of `|x|`
(empty for zero). -/
def Bits (W : Nat) (x : Int) : List Nat :=
  limbs W x.natAbs x.natAbs

/-- Method `(*big.Int).Sign`. -/
def Sign (x : Int) : Int :=
  if x < 0 then -1 else if x = 0 then 0 else 1

/-- The `n` low-order base-256 digits of `x`, most significant first. -/
def bytesBE : Nat → Nat → List Nat
  | 0, _ => []
  | n + 1, x => bytesBE n (x / 256) ++ [x % 256]

/-- Method `(*big.Int).FillBytes`: stores `|x|` in `buf` as a zero-extended
big-endian byte slice; panics (`none`) when `|x|` does not fit in `buf`. -/
def FillBytes (x : Int) (buf : List Nat) : Option (List Nat) :=
  if x.natAbs < 256 ^ buf.length then some (bytesBE buf.length x.natAbs) else none

/-- Method `(*big.Int).SetBytes`: the big-endian unsigned integer held by `buf`. -/
def SetBytes (buf : List Nat) : Int :=
  Int.ofNat (buf.foldl (fun acc b => acc * 256 + b) 0)

/-! ## `ecdsa.go` -/

/-- Function `I2OSP(x, buf)`: the outcome, carrying the contents of `buf` after a
successful call. -/
def I2OSP (W : Nat) (x : Int) (buf : List Nat) : Outcome (List Nat) :=
  if Sign x < 0 then
    .error (.new "I2OSP: negative integer")
  else if (Bits W x).length > buf.length then
    .error (.new "I2OSP: integer too large")
  else
    match FillBytes x buf with
    | some filled => .ok filled
    | none => .panic

/-- Function `OS2IP(x)`. -/
def OS2IP (x : List Nat) : Int :=
  SetBytes x

/-- Builtin `make([]byte, n)`. -/
def makeBytes (n : Nat) : List Nat :=
  List.replicate n 0

/-- Function `encodeECDSASignature(curve, r, s)`, with
`bitSize = curve.Params().BitSize`, the number of bits of the curve's field, a
natural number. The two `I2OSP` calls write through the
sub-slices `sig[:n]` and `sig[n:]`. -/
def encodeECDSASignature (W : Nat) (bitSize : Nat) (r s : Int) : Outcome (List Nat) :=
  let n := (bitSize + 7) / 8
  let sig := makeBytes (n * 2)
  match I2OSP W r (sig.take n) with
  | .error e => .error e
  | .panic => .panic
  | .ok lo =>
    let sig := lo ++ sig.drop n
    match I2OSP W s (sig.drop n) with
    | .error e => .error e
    | .panic => .panic
    | .ok hi => .ok (sig.take n ++ hi)

/-- Function `decodeECDSASignature(curve, sig)`, with
`bitSize = curve.Params().BitSize`. -/
def decodeECDSASignature (bitSize : Nat) (sig : List Nat) : Except Error (Int × Int) :=
  let n := (bitSize + 7) / 8
  if sig.length ≠ n * 2 then
    .error (.lengthError sig.length)
  else
    .ok (OS2IP (sig.take n), OS2IP (sig.drop n))

/-! ## `headers.go`: data model -/

/-- A non-nil `map[interface{}]interface{}`: its entries, one per key. -/
abbrev HeaderMap := List (Value × Value)

/-- Map read `m[k]` in its comma-ok form: the value stored under `k`, if any. -/
def HeaderMap.get (m : HeaderMap) (k : Value) : Option Value :=
  match m with
  | [] => none
  | (k1, v1) :: rest => if k1 = k then some v1 else HeaderMap.get rest k

/-- Map write `m[k] = v`: replaces the value stored under `k`, or adds the
entry. -/
def HeaderMap.set (m : HeaderMap) (k v : Value) : HeaderMap :=
  match m with
  | [] => [(k, v)]
  | (k1, v1) :: rest => if k1 = k then (k, v) :: rest else (k1, v1) :: HeaderMap.set rest k v

/-- Type `ProtectedHeader`: a map that may be nil (`none`). -/
abbrev ProtectedHeader := Option HeaderMap

/-- Type `UnprotectedHeader`: a map that may be nil (`none`). -/
abbrev UnprotectedHeader := Option HeaderMap

/-- Constant `HeaderLabelAlgorithm int64 = 1`, as the map key it is used as. -/
def HeaderLabelAlgorithm : Value := .integer .int64 1

/-- Constant `HeaderLabelCritical int64 = 2`, as the map key it is used as. -/
def HeaderLabelCritical : Value := .integer .int64 2

/-- Map read `h[k]` on a protected header; reading a nil map finds nothing. -/
def ProtectedHeader.get (h : ProtectedHeader) (k : Value) : Option Value :=
  match h with
  | none => none
  | some m => m.get k

/-- Method `ProtectedHeader.SetAlgorithm` on a non-nil receiver. -/
def ProtectedHeader.SetAlgorithm (h : HeaderMap) (alg : Algorithm) : HeaderMap :=
  h.set HeaderLabelAlgorithm (.algorithm alg)

/-- Method `ProtectedHeader.Algorithm`: both return values. -/
def ProtectedHeader.Algorithm (h : ProtectedHeader) : Algorithm × Option Error :=
  match h.get HeaderLabelAlgorithm with
  | none => (0, some .ErrAlgorithmNotFound)
  | some value =>
    match value with
    | .algorithm alg => (alg, none)
    | .integer .int alg => (alg, none)
    | .integer .int8 alg => (alg, none)
    | .integer .int16 alg => (alg, none)
    | .integer .int32 alg => (alg, none)
    | .integer .int64 alg => (alg, none)
    | _ => (0, some .ErrInvalidAlgorithm)

/-- Type `Headers`. -/
structure Headers where
  RawProtected : Option (List Nat)
  Protected : ProtectedHeader
  RawUnprotected : Option (List Nat)
  Unprotected : UnprotectedHeader
  deriving DecidableEq

/-! ## `headers.go`: algorithm binding -/

/-- Method `Headers.ensureSigningAlgorithm`: the receiver after the call and the
returned error. -/
def Headers.ensureSigningAlgorithm (h : Headers) (alg : Algorithm) (external : List Nat) :
    Headers × Option Error :=
  match ProtectedHeader.Algorithm h.Protected with
  | (candidate, none) =>
    if candidate ≠ alg then
      (h, some (.errorf "%w: signer %v: header %v" .ErrAlgorithmMismatch alg candidate))
    else
      (h, none)
  | (_, some .ErrAlgorithmNotFound) =>
    if external.length > 0 then
      (h, none)
    else if h.RawProtected ≠ none then
      (h, some .ErrAlgorithmNotFound)
    else
      let protected1 : HeaderMap :=
        match h.Protected with
        | none => []
        | some m => m
      ({ h with Protected := some (ProtectedHeader.SetAlgorithm protected1 alg) }, none)
  | (_, some err) => (h, some err)

/-- Method `Headers.ensureVerificationAlgorithm`: the receiver after the call
and the returned error. -/
def Headers.ensureVerificationAlgorithm (h : Headers) (alg : Algorithm) (external : List Nat) :
    Headers × Option Error :=
  match ProtectedHeader.Algorithm h.Protected with
  | (candidate, none) =>
    if candidate ≠ alg then
      (h, some (.errorf "%w: verifier %v: header %v" .ErrAlgorithmMismatch alg candidate))
    else
      (h, none)
  | (_, some .ErrAlgorithmNotFound) =>
    if external.length > 0 then
      (h, none)
    else
      (h, some .ErrAlgorithmNotFound)
  | (_, some err) => (h, some err)

/-! ## `headers.go`: label validation and critical headers -/

/-- Conversion `int64(v)` of an integer value: wraps modulo `2^64` into the
signed 64-bit range. -/
def toInt64 (v : Int) : Int :=
  (v + 2 ^ 63) % 2 ^ 64 - 2 ^ 63

/-- Loop of `validateHeaderLabel` over the entries still to visit, with the sets
`existingInt` and `existingString` built so far. The ten integer cases of the
type switch all compute `k = int64(v)`. -/
def validateHeaderLabelLoop (existingInt : List Int) (existingString : List String) :
    HeaderMap → Option Error
  | [] => none
  | (label, _) :: rest =>
    match label with
    | .integer _ v =>
      if toInt64 v ∈ existingInt then
        some (.labelf "cbor: header label: duplicated label: %v" label)
      else
        validateHeaderLabelLoop (toInt64 v :: existingInt) existingString rest
    | .string s =>
      if s ∈ existingString then
        some (.labelf "cbor: header label: duplicated label: %v" label)
      else
        validateHeaderLabelLoop existingInt (s :: existingString) rest
    | _ => some (.new "cbor: header label: require int / tstr type")

/-- Function `validateHeaderLabel(h)`: the returned error, `none` for nil. -/
def validateHeaderLabel (h : HeaderMap) : Option Error :=
  validateHeaderLabelLoop [] [] h

/-- Whether the dynamic type of a value is comparable, so that the value can be
hashed as a key of a `map[interface{}]interface{}`. Slices, maps and `big.Int`
are not, and a `cbor.Tag` is when its content is. -/
def Value.hashable : Value → Bool
  | .integer _ _ => true
  | .algorithm _ => true
  | .string _ => true
  | .bool _ => true
  | .bytes _ => false
  | .array _ => false
  | .bigInt _ => false
  | .null => true
  | .float _ _ => true
  | .simple _ => true
  | .tag _ content => Value.hashable content
  | .map _ _ => false

/-- Map read `h[k]` with the run-time check of the key: `none` is the panic
"hash of unhashable type", `some r` the comma-ok result `r`. -/
def ProtectedHeader.index (h : ProtectedHeader) (k : Value) : Option (Option Value) :=
  if k.hashable then some (h.get k) else none

/-- Method `ProtectedHeader.Critical`: both return values, a nil slice being
the empty list. -/
def ProtectedHeader.Critical (h : ProtectedHeader) : List Value × Option Error :=
  match h.get HeaderLabelCritical with
  | none => ([], none)
  | some (.array criticalLabels) =>
    if criticalLabels.length = 0 then
      ([], some (.new "empty crit header"))
    else
      (criticalLabels, none)
  | some _ => ([], some (.new "invalid crit header"))

/-- Loop of `ensureCritical` over the labels still to visit. -/
def ensureCriticalLoop (h : ProtectedHeader) : List Value → Outcome Unit
  | [] => .ok ()
  | label :: rest =>
    match h.index label with
    | none => .panic
    | some none => .error (.labelf "missing critical header: %v" label)
    | some (some _) => ensureCriticalLoop h rest

/-- Method `ProtectedHeader.ensureCritical`: `ok ()` is the nil error. -/
def ProtectedHeader.ensureCritical (h : ProtectedHeader) : Outcome Unit :=
  match h.Critical with
  | (_, some err) => .error err
  | (labels, none) => ensureCriticalLoop h labels

/-! ## CBOR encoding: the calls made on a `ccbor.Builder`

A sequence of calls on a builder is modelled by the bytes it appends, or by the
error it sets (`SetError`), after which `Bytes()` returns that error. -/

/-- Initial bytes of a CBOR data item of major type `major` with argument `n`,
in the shortest form (RFC 8949, section 3 and 4.2.1). -/
def cborHead (major n : Nat) : List Nat :=
  if n < 24 then [major * 32 + n]
  else if n < 2 ^ 8 then [major * 32 + 24, n]
  else if n < 2 ^ 16 then (major * 32 + 25) :: bytesBE 2 n
  else if n < 2 ^ 32 then (major * 32 + 26) :: bytesBE 4 n
  else (major * 32 + 27) :: bytesBE 8 n

/-- Builder calls `AddInt`, ..., `AddUint64`: an integer as major type 0, or as
major type 1 with argument `-1 - v` when negative. -/
def cborInt (v : Int) : List Nat :=
  if 0 ≤ v then cborHead 0 v.toNat else cborHead 1 (-1 - v).toNat

/-- UTF-8 encoding of one code point (RFC 3629). -/
def utf8EncodeChar (c : Char) : List Nat :=
  if c.toNat < 0x80 then [c.toNat]
  else if c.toNat < 0x800 then [0xC0 + c.toNat / 64, 0x80 + c.toNat % 64]
  else if c.toNat < 0x10000 then
    [0xE0 + c.toNat / 4096, 0x80 + c.toNat / 64 % 64, 0x80 + c.toNat % 64]
  else
    [0xF0 + c.toNat / 262144, 0x80 + c.toNat / 4096 % 64, 0x80 + c.toNat / 64 % 64,
      0x80 + c.toNat % 64]

/-- Bytes of a Go string holding the text `cs`. -/
def utf8EncodeChars : List Char → List Nat
  | [] => []
  | c :: cs => utf8EncodeChar c ++ utf8EncodeChars cs

/-- Bytes of a Go string holding the text `s`. -/
def utf8Encode (s : String) : List Nat :=
  utf8EncodeChars s.data

/-- Function `encodeBasicType(b, v)`: the bytes appended to the builder, or
`none` when it returns false. -/
def encodeBasicType (v : Value) : Option (List Nat) :=
  match v with
  | .string s => some (cborHead 3 (utf8Encode s).length ++ utf8Encode s)
  | .integer _ n => some (cborInt n)
  | .algorithm a => some (cborInt a)
  | _ => none

mutual
/-- Function `encodeMapValue(b, v)`: the bytes appended to the builder, or the
error set on it. -/
def encodeMapValue : Value → Except Error (List Nat)
  | .array items =>
    match encodeMapValues items with
    | .ok bs => .ok (cborHead 4 items.length ++ bs)
    | .error e => .error e
  | .integer _ n => .ok (cborInt n)
  | .algorithm a => .ok (cborInt a)
  | .string s => .ok (cborHead 3 (utf8Encode s).length ++ utf8Encode s)
  | .bool _ => .error (.new "cbor: unsupported type")
  | .bytes _ => .error (.new "cbor: unsupported type")
  | .bigInt _ => .error (.new "cbor: unsupported type")
  | .null => .error (.new "cbor: unsupported type")
  | .float _ _ => .error (.new "cbor: unsupported type")
  | .simple _ => .error (.new "cbor: unsupported type")
  | .tag _ _ => .error (.new "cbor: unsupported type")
  | .map _ _ => .error (.new "cbor: unsupported type")
/-- Loop `for _, item := range v { encodeMapValue(b, item) }`. -/
def encodeMapValues : List Value → Except Error (List Nat)
  | [] => .ok []
  | item :: rest =>
    match encodeMapValue item with
    | .error e => .error e
    | .ok bs =>
      match encodeMapValues rest with
      | .error e => .error e
      | .ok more => .ok (bs ++ more)
end

/-- Bytewise lexicographic order on encoded keys (RFC 8949, section 4.2.1). -/
def bytesLE : List Nat → List Nat → Bool
  | [], _ => true
  | _ :: _, [] => false
  | a :: as, b :: bs => a < b || (a == b && bytesLE as bs)

/-- Loop `for k, v := range h { b.AddMapItem(...) }`: the encoded key and the
encoded value of every entry, or the error set on the builder. -/
def encodeMapItems : HeaderMap → Except Error (List (List Nat × List Nat))
  | [] => .ok []
  | (k, v) :: rest =>
    match encodeBasicType k with
    | none => .error (.new "cbor: unsupported type")
    | some kb =>
      match encodeMapValue v with
      | .error e => .error e
      | .ok vb =>
        match encodeMapItems rest with
        | .error e => .error e
        | .ok items => .ok ((kb, vb) :: items)

/-- Builder calls `AddMap(len(h))` followed by one `AddMapItem` per entry. The
builder emits a canonical map (the spec: "canonical map encoding"): whatever
the iteration order, the items are laid out in the bytewise order of their
encoded keys. -/
def encodeMap (h : HeaderMap) : Except Error (List Nat) :=
  match encodeMapItems h with
  | .error e => .error e
  | .ok items =>
    .ok (cborHead 5 h.length ++
      ((items.insertionSort (fun a b => bytesLE a.1 b.1 = true)).map
        (fun kv => kv.1 ++ kv.2)).flatten)

/-! ## `headers.go`: encoding -/

/-- Methods `ProtectedHeader.MarshalCBOR2` and `MarshalCBOR`: the bytes and nil,
or the error, that `b.Bytes()` returns, or a panic. -/
def ProtectedHeader.MarshalCBOR (h : ProtectedHeader) : Outcome (List Nat) :=
  match h with
  | none => .ok (cborHead 2 0)
  | some m =>
    if m.length = 0 then
      .ok (cborHead 2 0)
    else
      match validateHeaderLabel m with
      | some err => .error err
      | none =>
        match ProtectedHeader.ensureCritical (some m) with
        | .error err => .error err
        | .panic => .panic
        | .ok _ =>
          match encodeMap m with
          | .error e => .error e
          | .ok inner => .ok (cborHead 2 inner.length ++ inner)

/-- Methods `UnprotectedHeader.MarshalCBOR2` and `MarshalCBOR`: the bytes and
nil, or the error, that `b.Bytes()` returns. -/
def UnprotectedHeader.MarshalCBOR (h : UnprotectedHeader) : Except Error (List Nat) :=
  match h with
  | none => .ok (cborHead 5 0)
  | some m =>
    if m.length = 0 then
      .ok (cborHead 5 0)
    else
      match validateHeaderLabel m with
      | some err => .error err
      | none => encodeMap m

/-- Method `Headers.MarshalProtected`; `encMode.Marshal(h.Protected)` calls
`h.Protected.MarshalCBOR()`. -/
def Headers.MarshalProtected (h : Headers) : Outcome (List Nat) :=
  match h.RawProtected with
  | some raw =>
    if raw.length > 0 then .ok raw else ProtectedHeader.MarshalCBOR h.Protected
  | none => ProtectedHeader.MarshalCBOR h.Protected

/-- Method `Headers.MarshalUnprotected`; `encMode.Marshal(h.Unprotected)` calls
`h.Unprotected.MarshalCBOR()`. -/
def Headers.MarshalUnprotected (h : Headers) : Except Error (List Nat) :=
  match h.RawUnprotected with
  | some raw =>
    if raw.length > 0 then .ok raw else UnprotectedHeader.MarshalCBOR h.Unprotected
  | none => UnprotectedHeader.MarshalCBOR h.Unprotected

/-! ## CBOR decoding: the decoder behind `decMode`

A call of `decMode.Unmarshal` first checks that its input is one well-formed
data item within the limits of the decoder, and then decodes it. Indefinite
lengths are forbidden. Decoded into an `interface{}`, an integer comes back as
an `int64` (an unsigned integer above its range is an error, a negative integer
below it a `big.Int`) and the other data items as the values described at
`Value`. A `time.Time` (tags 0 and 1) is held as the tag and its content; the
check of that content is not modelled. -/

/-- Default limit of the decoder on the nesting of arrays, maps and tags
(`MaxNestedLevels`). -/
def maxNestedLevels : Nat := 32

/-- Default limit of the decoder on the number of elements of an array
(`MaxArrayElements`). -/
def maxArrayElements : Nat := 131072

/-- Default limit of the decoder on the number of pairs of a map
(`MaxMapPairs`). -/
def maxMapPairs : Nat := 131072

/-- The big-endian unsigned number held by `bs`. -/
def natOfBytes (bs : List Nat) : Nat :=
  bs.foldl (fun acc b => acc * 256 + b) 0

/-- Head of the next data item: major type, argument and the bytes after the
head. `none` for truncated input, for the reserved additional information
28 to 30, for the indefinite-length marker 31 and for a simple value below 32
written in two bytes. -/
def decodeHead : List Nat → Option (Nat × Nat × List Nat)
  | [] => none
  | b :: rest =>
    if 256 ≤ b then none
    else if b % 32 < 24 then some (b / 32, b % 32, rest)
    else if b % 32 = 24 then
      if rest.length < 1 then none
      else if b / 32 = 7 ∧ natOfBytes (rest.take 1) < 32 then none
      else some (b / 32, natOfBytes (rest.take 1), rest.drop 1)
    else if b % 32 = 25 then
      if rest.length < 2 then none
      else some (b / 32, natOfBytes (rest.take 2), rest.drop 2)
    else if b % 32 = 26 then
      if rest.length < 4 then none
      else some (b / 32, natOfBytes (rest.take 4), rest.drop 4)
    else if b % 32 = 27 then
      if rest.length < 8 then none
      else some (b / 32, natOfBytes (rest.take 8), rest.drop 8)
    else none

/-- Continuation byte of a UTF-8 sequence. -/
def utf8Cont (b : Nat) : Bool :=
  decide (0x80 ≤ b) && decide (b < 0xC0)

/-- The code point at the head of a UTF-8 byte sequence and the bytes after it;
`none` when the bytes do not start with a valid sequence (RFC 3629: no overlong
forms, no surrogates, nothing above U+10FFFF). -/
def utf8DecodeChar (bs : List Nat) : Option (Char × List Nat) :=
  match bs with
  | [] => none
  | b0 :: rest =>
    if b0 < 0x80 then some (Char.ofNat b0, rest)
    else if b0 < 0xC2 then none
    else if b0 < 0xE0 then
      match rest with
      | b1 :: rest1 =>
        if utf8Cont b1 then some (Char.ofNat ((b0 - 0xC0) * 64 + (b1 - 0x80)), rest1)
        else none
      | _ => none
    else if b0 < 0xF0 then
      match rest with
      | b1 :: b2 :: rest2 =>
        if utf8Cont b1 && utf8Cont b2
            && decide (0x800 ≤ (b0 - 0xE0) * 4096 + (b1 - 0x80) * 64 + (b2 - 0x80))
            && !(decide (0xD800 ≤ (b0 - 0xE0) * 4096 + (b1 - 0x80) * 64 + (b2 - 0x80))
              && decide ((b0 - 0xE0) * 4096 + (b1 - 0x80) * 64 + (b2 - 0x80) < 0xE000)) then
          some (Char.ofNat ((b0 - 0xE0) * 4096 + (b1 - 0x80) * 64 + (b2 - 0x80)), rest2)
        else none
      | _ => none
    else if b0 < 0xF5 then
      match rest with
      | b1 :: b2 :: b3 :: rest3 =>
        if utf8Cont b1 && utf8Cont b2 && utf8Cont b3
            && decide (0x10000 ≤
              (b0 - 0xF0) * 262144 + (b1 - 0x80) * 4096 + (b2 - 0x80) * 64 + (b3 - 0x80))
            && decide ((b0 - 0xF0) * 262144 + (b1 - 0x80) * 4096 + (b2 - 0x80) * 64
              + (b3 - 0x80) < 0x110000) then
          some (Char.ofNat
            ((b0 - 0xF0) * 262144 + (b1 - 0x80) * 4096 + (b2 - 0x80) * 64 + (b3 - 0x80)), rest3)
        else none
      | _ => none
    else none

/-- Loop over the code points of a UTF-8 byte sequence; the first argument
bounds their number. -/
def utf8DecodeLoop : Nat → List Nat → Option (List Char)
  | _, [] => some []
  | 0, _ :: _ => none
  | fuel + 1, b :: bs =>
    match utf8DecodeChar (b :: bs) with
    | none => none
    | some (c, rest) =>
      match utf8DecodeLoop fuel rest with
      | none => none
      | some cs => some (c :: cs)

/-- Text held by a UTF-8 byte sequence; `none` when the bytes are not valid
UTF-8. -/
def utf8DecodeChars (bs : List Nat) : Option (List Char) :=
  utf8DecodeLoop bs.length bs

mutual
/-- Decoding of the next data item into an `interface{}`: the value and the
bytes after it, `none` for an error. The first argument bounds the number of
items visited. As in the library, the limits on nesting and on the number of
elements are not checked here: `Unmarshal` runs the well-formedness walk
(`wellformed`) before it decodes. -/
def decodeValue : Nat → List Nat → Option (Value × List Nat)
  | 0, _ => none
  | fuel + 1, bs =>
    match decodeHead bs with
    | none => none
    | some (major, n, rest) =>
      if major = 0 then
        if n < 2 ^ 63 then some (.integer .int64 n, rest) else none
      else if major = 1 then
        if n < 2 ^ 63 then some (.integer .int64 (-1 - n), rest)
        else some (.bigInt (-1 - n), rest)
      else if major = 2 then
        if rest.length < n then none else some (.bytes (rest.take n), rest.drop n)
      else if major = 3 then
        if rest.length < n then none
        else
          match utf8DecodeChars (rest.take n) with
          | none => none
          | some cs => some (.string (String.mk cs), rest.drop n)
      else if major = 4 then
        match decodeValues fuel n rest with
        | none => none
        | some (items, rest1) => some (.array items, rest1)
      else if major = 5 then
        match decodePairs fuel n [] rest with
        | none => none
        | some (keys, vals, rest1) => some (.map keys vals, rest1)
      else if major = 6 then
        match decodeValue fuel rest with
        | none => none
        | some (content, rest1) =>
          if n = 2 ∨ n = 3 then
            match content with
            | .bytes b =>
              some (.bigInt (if n = 2 then (natOfBytes b : Int) else -1 - natOfBytes b), rest1)
            | _ => none
          else some (.tag n content, rest1)
      else if bs.headD 0 % 32 = 20 then some (.bool false, rest)
      else if bs.headD 0 % 32 = 21 then some (.bool true, rest)
      else if bs.headD 0 % 32 = 22 ∨ bs.headD 0 % 32 = 23 then some (.null, rest)
      else if bs.headD 0 % 32 = 25 then some (.float 2 n, rest)
      else if bs.headD 0 % 32 = 26 then some (.float 4 n, rest)
      else if bs.headD 0 % 32 = 27 then some (.float 8 n, rest)
      else some (.simple n, rest)
/-- Decoding of the next `n` data items. -/
def decodeValues : Nat → Nat → List Nat → Option (List Value × List Nat)
  | _, 0, bs => some ([], bs)
  | 0, _ + 1, _ => none
  | fuel + 1, n + 1, bs =>
    match decodeValue fuel bs with
    | none => none
    | some (v, rest) =>
      match decodeValues fuel n rest with
      | none => none
      | some (vs, rest1) => some (v :: vs, rest1)
/-- Decoding of the next `n` pairs of a map held in an `interface{}`: the keys,
the values and the bytes after them; a key that cannot be a map key or equals
one of `seen` is an error. -/
def decodePairs : Nat → Nat → List Value → List Nat →
    Option (List Value × List Value × List Nat)
  | _, 0, _, bs => some ([], [], bs)
  | 0, _ + 1, _, _ => none
  | fuel + 1, n + 1, seen, bs =>
    match decodeValue fuel bs with
    | none => none
    | some (k, rest) =>
      if !k.hashable then none
      else if k ∈ seen then none
      else
        match decodeValue fuel rest with
        | none => none
        | some (v, rest1) =>
          match decodePairs fuel n (k :: seen) rest1 with
          | none => none
          | some (ks, vs, rest2) => some (k :: ks, v :: vs, rest2)
end

mutual
/-- Well-formedness walk over the next data item, met at the nesting level
`depth`: the bytes after it, `none` when it is malformed or exceeds a limit of
the decoder. The first argument bounds the number of items visited. -/
def skipItem : Nat → Nat → List Nat → Option (List Nat)
  | 0, _, _ => none
  | fuel + 1, depth, bs =>
    match decodeHead bs with
    | none => none
    | some (major, n, rest) =>
      if major = 0 ∨ major = 1 ∨ major = 7 then some rest
      else if major = 2 ∨ major = 3 then
        if rest.length < n then none else some (rest.drop n)
      else if major = 4 then
        if maxNestedLevels < depth + 1 then none
        else if maxArrayElements < n then none
        else skipItems fuel (depth + 1) n rest
      else if major = 5 then
        if maxNestedLevels < depth + 1 then none
        else if maxMapPairs < n then none
        else skipItems fuel (depth + 1) (2 * n) rest
      else if major = 6 then skipTagged fuel depth rest
      else none
termination_by structural fuel => fuel
/-- Well-formedness walk over the next `n` data items. -/
def skipItems : Nat → Nat → Nat → List Nat → Option (List Nat)
  | _, _, 0, bs => some bs
  | 0, _, _ + 1, _ => none
  | fuel + 1, depth, n + 1, bs =>
    match skipItem fuel depth bs with
    | none => none
    | some rest => skipItems fuel depth n rest
termination_by structural fuel => fuel
/-- Well-formedness walk over the content of a tag: every further tag number
in front of the content counts as a nesting level. -/
def skipTagged : Nat → Nat → List Nat → Option (List Nat)
  | 0, _, _ => none
  | fuel + 1, depth, bs =>
    if bs.headD 0 / 32 = 6 then
      match decodeHead bs with
      | none => none
      | some (_, _, rest) =>
        if maxNestedLevels < depth + 1 then none
        else skipTagged fuel (depth + 1) rest
    else skipItem fuel depth bs
termination_by structural fuel => fuel
end

/-- Check made by `decMode.Unmarshal` before it decodes: `data` is one
well-formed data item within the limits of the decoder, and nothing else. -/
def wellformed (data : List Nat) : Bool :=
  decide (skipItem (2 * data.length) 0 data = some [])

/-- Method `headerLabelValidator.UnmarshalCBOR` on the map key that starts
`data`: the decoded label and the bytes after it. A key of major type 0, 1 or 3
holds no nested item, so the well-formedness walk of the inner
`decMode.Unmarshal` checks no more than `decodeValue` does. -/
def headerLabelValidator.UnmarshalCBOR (data : List Nat) : Except Error (Value × List Nat) :=
  match data with
  | [] => .error (.new "cbor: header label: missing type")
  | b :: _ =>
    if b / 32 = 0 ∨ b / 32 = 1 ∨ b / 32 = 3 then
      match decodeValue 1 data with
      | none => .error (.new "cbor: cannot unmarshal the header label")
      | some (.bigInt _, _) =>
        .error (.new "cbor: header label: int key must not be higher than 1<<63 - 1")
      | some (label, rest) => .ok (label, rest)
    else
      .error (.new "cbor: header label: require int / tstr type")

/-- Entries of a map decoded into `map[headerLabelValidator]discardedCBORMessage`:
every key goes through the validator, every value, one nesting level below the
map, is skipped, and a key met twice is an error (duplicate map keys are not
allowed by `decMode`). -/
def validateLabelEntries (fuel : Nat) : Nat → List Value → List Nat → Except Error (List Nat)
  | 0, _, bs => .ok bs
  | n + 1, seen, bs =>
    match headerLabelValidator.UnmarshalCBOR bs with
    | .error e => .error e
    | .ok (label, rest) =>
      if label ∈ seen then .error (.new "cbor: found duplicate map key")
      else
        match skipItem fuel 1 rest with
        | none => .error (.new "cbor: malformed map value")
        | some rest1 => validateLabelEntries fuel n (label :: seen) rest1

/-- Function `validateHeaderLabelCBOR(data)`: the returned error, `none` for
nil. -/
def validateHeaderLabelCBOR (data : List Nat) : Option Error :=
  if wellformed data = false then some (.new "cbor: malformed data")
  else
    match decodeHead data with
    | some (major, n, rest) =>
      if major = 5 then
        match validateLabelEntries (2 * data.length) n [] rest with
        | .error e => some e
        | .ok [] => none
        | .ok _ => some (.new "cbor: extraneous data")
      else some (.new "cbor: cannot unmarshal into a map")
    | none => some (.new "cbor: malformed data")

/-- Entries of a map decoded into `map[interface{}]interface{}`, in the order
of the encoding; a key that cannot be a map key or is met twice is an error. -/
def decodeMapEntries (fuel : Nat) : Nat → List Value → List Nat → Option (HeaderMap × List Nat)
  | 0, _, bs => some ([], bs)
  | n + 1, seen, bs =>
    match decodeValue fuel bs with
    | none => none
    | some (k, rest) =>
      if !k.hashable then none
      else if k ∈ seen then none
      else
        match decodeValue fuel rest with
        | none => none
        | some (v, rest1) =>
          match decodeMapEntries fuel n (k :: seen) rest1 with
          | none => none
          | some (m, rest2) => some ((k, v) :: m, rest2)

/-- Call `decMode.Unmarshal(data, &header)` with `header` a
`map[interface{}]interface{}`, on data that start with a map (the callers check
it): the decoded map, `none` for an error. -/
def decodeMap (data : List Nat) : Option HeaderMap :=
  if wellformed data = false then none
  else
    match decodeHead data with
    | some (major, n, rest) =>
      if major = 5 then
        match decodeMapEntries (2 * data.length) n [] rest with
        | some (m, []) => some m
        | _ => none
      else none
    | none => none

/-- Modelled from the spec: the type `byteString` of the repository's `cbor.go`
and its `UnmarshalCBOR`, a "bstr / nil" ("first decode a byte string"). The
result is nil (`none`) for the CBOR null, the content of a definite-length byte
string, and an error for anything else. -/
def byteString.UnmarshalCBOR (data : List Nat) : Except Error (Option (List Nat)) :=
  if data = [0xf6] then .ok none
  else
    match decodeHead data with
    | some (major, n, rest) =>
      if major = 2 ∧ rest.length = n then .ok (some rest)
      else .error (.new "cbor: require bstr type")
    | none => .error (.new "cbor: require bstr type")

/-! ## `headers.go`: decoding -/

/-- Method `(*ProtectedHeader).UnmarshalCBOR` on a non-nil receiver that points
to `h`: the header pointed to after the call and the returned error, or a
panic. -/
def ProtectedHeader.UnmarshalCBOR (h : ProtectedHeader) (data : List Nat) :
    Effect ProtectedHeader :=
  match byteString.UnmarshalCBOR data with
  | .error err => .returns h (some err)
  | .ok none => .returns h (some (.new "cbor: nil protected header"))
  | .ok (some encoded) =>
    if encoded.length = 0 then
      .returns (some []) none
    else if encoded.headD 0 / 32 ≠ 5 then
      .returns h (some (.new "cbor: protected header: require map type"))
    else
      match validateHeaderLabelCBOR encoded with
      | some err => .returns h (some err)
      | none =>
        match decodeMap encoded with
        | none => .returns h (some (.new "cbor: cannot unmarshal the header map"))
        | some header =>
          match ProtectedHeader.ensureCritical (some header) with
          | .error err => .returns h (some err)
          | .panic => .panics
          | .ok _ =>
            match ProtectedHeader.Algorithm (some header) with
            | (alg, none) => .returns (some (ProtectedHeader.SetAlgorithm header alg)) none
            | _ => .returns (some header) none

/-- Method `(*UnprotectedHeader).UnmarshalCBOR` on a non-nil receiver that
points to `h`; `data` is `none` for a nil slice. -/
def UnprotectedHeader.UnmarshalCBOR (h : UnprotectedHeader) (data : Option (List Nat)) :
    Effect UnprotectedHeader :=
  match data with
  | none => .returns h (some (.new "cbor: nil unprotected header"))
  | some data =>
    if data.length = 0 then
      .returns h (some (.new "cbor: unprotected header: missing type"))
    else if data.headD 0 / 32 ≠ 5 then
      .returns h (some (.new "cbor: unprotected header: require map type"))
    else
      match validateHeaderLabelCBOR data with
      | some err => .returns h (some err)
      | none =>
        match decodeMap data with
        | none => .returns h (some (.new "cbor: cannot unmarshal the header map"))
        | some header => .returns (some header) none

/-- Method `(*Headers).UnmarshalFromRaw`. Each `decMode.Unmarshal(raw, &field)`
checks that `raw` is one well-formed data item and then calls the
`UnmarshalCBOR` method of the field. -/
def Headers.UnmarshalFromRaw (h : Headers) : Effect Headers :=
  if wellformed (h.RawProtected.getD []) = false then
    .returns h (some (.wrapf "cbor: invalid protected header: %w" (.new "cbor: malformed data")))
  else
    match ProtectedHeader.UnmarshalCBOR h.Protected (h.RawProtected.getD []) with
    | .panics => .panics
    | .returns p (some err) =>
      .returns { h with Protected := p } (some (.wrapf "cbor: invalid protected header: %w" err))
    | .returns p none =>
      if wellformed (h.RawUnprotected.getD []) = false then
        .returns { h with Protected := p }
          (some (.wrapf "cbor: invalid unprotected header: %w" (.new "cbor: malformed data")))
      else
        match UnprotectedHeader.UnmarshalCBOR h.Unprotected (some (h.RawUnprotected.getD [])) with
        | .panics => .panics
        | .returns u (some err) =>
          .returns { h with Protected := p, Unprotected := u }
            (some (.wrapf "cbor: invalid unprotected header: %w" err))
        | .returns u none => .returns { h with Protected := p, Unprotected := u } none

/-! ## `cryptobyte`: reading ASN.1 DER -/

/-- Method `String.ReadAnyASN1` (`readASN1` with the header skipped): the tag,
the contents and the bytes after the element. Lengths are held in a `uint32`:
at most four length octets are read, in the minimal form DER requires. -/
def readAnyASN1 (s : List Nat) : Option (Nat × List Nat × List Nat) :=
  match s with
  | tag :: lenByte :: rest =>
    if tag % 32 = 31 then none
    else if lenByte < 128 then
      if rest.length < lenByte then none
      else some (tag, rest.take lenByte, rest.drop lenByte)
    else if lenByte % 128 = 0 ∨ lenByte % 128 > 4 ∨ rest.length < lenByte % 128 then none
    else if natOfBytes (rest.take (lenByte % 128)) < 128 then none
    else if natOfBytes (rest.take (lenByte % 128)) / 256 ^ (lenByte % 128 - 1) = 0 then none
    else if 2 ^ 32 ≤ 2 + lenByte % 128 + natOfBytes (rest.take (lenByte % 128)) then none
    else if (rest.drop (lenByte % 128)).length < natOfBytes (rest.take (lenByte % 128)) then none
    else
      some (tag, (rest.drop (lenByte % 128)).take (natOfBytes (rest.take (lenByte % 128))),
        (rest.drop (lenByte % 128)).drop (natOfBytes (rest.take (lenByte % 128))))
  | _ => none

/-- Method `String.ReadASN1(out, tag)`: the contents and the bytes after the
element. -/
def readASN1 (s : List Nat) (tag : Nat) : Option (List Nat × List Nat) :=
  match readAnyASN1 s with
  | some (t, contents, rest) => if t ≠ tag then none else some (contents, rest)
  | none => none

/-- Function `checkASN1Integer(bytes)`. -/
def checkASN1Integer (bytes : List Nat) : Bool :=
  match bytes with
  | [] => false
  | [_] => true
  | b0 :: b1 :: _ =>
    if (b0 = 0 ∧ b1 < 128) ∨ (b0 = 0xff ∧ 128 ≤ b1) then false else true

/-- Method `String.ReadASN1Integer(out)` with `out` a `*big.Int`
(`readASN1BigInt`): the integer and the bytes after the element. -/
def readASN1Integer (s : List Nat) : Option (Int × List Nat) :=
  match readASN1 s 2 with
  | none => none
  | some (bytes, rest) =>
    if checkASN1Integer bytes = false then none
    else if 128 ≤ bytes.headD 0 then
      some (-(SetBytes (bytes.map (fun b => 255 - b)) + 1), rest)
    else
      some (SetBytes bytes, rest)

/-- Function `decodeECDSASignatureASN1(sig)`. -/
def decodeECDSASignatureASN1 (sig : List Nat) : Except Error (Int × Int) :=
  match readASN1 sig 0x30 with
  | none => .error (.new "ecdsa: invalid signature: invalid ASN.1 encoding")
  | some (inner, input) =>
    if input ≠ [] then .error (.new "ecdsa: invalid signature: invalid ASN.1 encoding")
    else
      match readASN1Integer inner with
      | none => .error (.new "ecdsa: invalid signature: invalid ASN.1 encoding")
      | some (r, inner1) =>
        match readASN1Integer inner1 with
        | none => .error (.new "ecdsa: invalid signature: invalid ASN.1 encoding")
        | some (s, inner2) =>
          if inner2 ≠ [] then .error (.new "ecdsa: invalid signature: invalid ASN.1 encoding")
          else .ok (r, s)

/-- Method `ecdsaVerifier.Verify(digest, signature)`: the returned error, `none`
for nil. `verify digest r s` stands for `ecdsa.Verify(ev.key, digest, r, s)` and
`bitSize` for `ev.key.Curve.Params().BitSize`. -/
def ecdsaVerifier.Verify (verify : List Nat → Int → Int → Bool) (bitSize : Nat)
    (digest signature : List Nat) : Option Error :=
  match decodeECDSASignature bitSize signature with
  | .error _ => some .ErrVerification
  | .ok (r, s) => if verify digest r s = false then some .ErrVerification else none

/-! ## DER as X.690 defines it -/

/-- Number of octets of the shortest big-endian form of `n`. -/
def octetCount (n : Nat) : Nat :=
  (limbs 8 n n).length

/-- Length octets of a DER element with `n` contents octets (X.690, 8.1.3 and
10.1): the short form below 128, else the long form with the fewest octets. -/
def derLength (n : Nat) : List Nat :=
  if n < 128 then [n] else (128 + octetCount n) :: bytesBE (octetCount n) n

/-- A DER element: identifier octet, length octets, contents octets. -/
def derElement (tag : Nat) (contents : List Nat) : List Nat :=
  tag :: (derLength contents.length ++ contents)

/-- Contents octets of a DER INTEGER of value `v` (X.690, 8.3): at least one
octet, a two's complement number, and, when there are several octets, the
first octet and bit 8 of the second are neither all zero nor all one. -/
def IsDERInteger (contents : List Nat) (v : Int) : Prop :=
  contents ≠ [] ∧
  (∀ b ∈ contents, b < 256) ∧
  (∀ b0 b1 rest, contents = b0 :: b1 :: rest →
    ¬ (b0 = 0 ∧ b1 < 128) ∧ ¬ (b0 = 255 ∧ 128 ≤ b1)) ∧
  v = (natOfBytes contents : Int)
    - (if 128 ≤ contents.headD 0 then (256 : Int) ^ contents.length else 0)

/-- The DER encodings of `SEQUENCE { INTEGER r, INTEGER s }`. -/
def IsDERSignature (sig : List Nat) (r s : Int) : Prop :=
  ∃ rb sb, IsDERInteger rb r ∧ IsDERInteger sb s ∧
    sig = derElement 0x30 (derElement 2 rb ++ derElement 2 sb)

/-! ## Notions used to state the properties of the header codec -/

/-- Whether a value has the type of a header label: one of the ten integer
types, or `string`. -/
def Value.isLabel : Value → Bool
  | .integer _ _ => true
  | .string _ => true
  | _ => false

/-- The `int64` values of the integer labels of a header, in order. -/
def intLabels : HeaderMap → List Int
  | [] => []
  | (.integer _ v, _) :: rest => toInt64 v :: intLabels rest
  | _ :: rest => intLabels rest

/-- The string labels of a header, in order. -/
def stringLabels : HeaderMap → List String
  | [] => []
  | (.string s, _) :: rest => s :: stringLabels rest
  | _ :: rest => stringLabels rest

/-- A DER `SEQUENCE { INTEGER r, INTEGER s }` of more than `2^32` bytes: `r` has
`2^32` contents octets, all `0x01`, and `s` is 1. -/
def hugeSignature : List Nat :=
  derElement 0x30 (derElement 2 (List.replicate (2 ^ 32) 1) ++ derElement 2 [1])

mutual
/-- Whether every integer held in a value, at any depth, is in the range of
`int64`, from `-2^63` to `2^63 - 1`. -/
def Value.inInt64 : Value → Bool
  | .integer _ v => decide (-(2 ^ 63) ≤ v) && decide (v < 2 ^ 63)
  | .algorithm a => decide (-(2 ^ 63) ≤ a) && decide (a < 2 ^ 63)
  | .array items => Value.allInInt64 items
  | .string _ => true
  | .bool _ => true
  | .bytes _ => true
  | .bigInt _ => true
  | .null => true
  | .float _ _ => true
  | .simple _ => true
  | .tag _ _ => true
  | .map _ _ => true
/-- Pointwise `Value.inInt64` on lists. -/
def Value.allInInt64 : List Value → Bool
  | [] => true
  | x :: xs => Value.inInt64 x && Value.allInInt64 xs
end

mutual
/-- The value that the decoder yields for the encoding of a value: an integer
of any type, and an `Algorithm`, comes back as an `int64`, at any depth. -/
def Value.decoded : Value → Value
  | .integer _ v => .integer .int64 v
  | .algorithm a => .integer .int64 a
  | .array items => .array (Value.decodedList items)
  | .string s => .string s
  | .bool b => .bool b
  | .bytes b => .bytes b
  | .bigInt v => .bigInt v
  | .null => .null
  | .float size bits => .float size bits
  | .simple n => .simple n
  | .tag number content => .tag number content
  | .map keys vals => .map keys vals
/-- Pointwise `Value.decoded` on lists. -/
def Value.decodedList : List Value → List Value
  | [] => []
  | x :: xs => Value.decoded x :: Value.decodedList xs
end

mutual
/-- Whether the arrays of a value met at the nesting level `depth` are within
the limits of the decoder: an array is one level deeper than what holds it, no
array lies deeper than `maxNestedLevels` and none has more than
`maxArrayElements` elements. -/
def Value.withinLimits : Nat → Value → Bool
  | depth, .array items =>
    decide (depth + 1 ≤ maxNestedLevels) && decide (items.length ≤ maxArrayElements)
      && Value.allWithinLimits (depth + 1) items
  | _, .integer _ _ => true
  | _, .algorithm _ => true
  | _, .string _ => true
  | _, .bool _ => true
  | _, .bytes _ => true
  | _, .bigInt _ => true
  | _, .null => true
  | _, .float _ _ => true
  | _, .simple _ => true
  | _, .tag _ _ => true
  | _, .map _ _ => true
/-- Pointwise `Value.withinLimits` on lists. -/
def Value.allWithinLimits : Nat → List Value → Bool
  | _, [] => true
  | depth, x :: xs => Value.withinLimits depth x && Value.allWithinLimits depth xs
end

/-- The empty array inside `n` further arrays: `[]`, `[[]]`, `[[[]]]`, and so
on. -/
def nestedArray : Nat → Value
  | 0 => .array []
  | n + 1 => .array [nestedArray n]

/-- Encoded key and encoded value of a map entry, each empty where its encoder
fails. -/
def encodeEntry (e : Value × Value) : List Nat × List Nat :=
  ((encodeBasicType e.1).getD [],
    match encodeMapValue e.2 with
    | .ok bs => bs
    | .error _ => [])

/-- The entry that the decoder yields for the encoding of a map entry. -/
def decodedEntry (e : Value × Value) : Value × Value :=
  (e.1.decoded, e.2.decoded)


/-- The entries of a header in the canonical order of a map encoding: the
bytewise order of their encoded keys. -/
def canonicalOrder (m : HeaderMap) : HeaderMap :=
  m.insertionSort (fun a b => bytesLE (encodeEntry a).1 (encodeEntry b).1 = true)

/-! ## Lemmas on the integer codec -/

theorem two_pow_word_ge (W : Nat) (hW : 8 ≤ W) : 256 ≤ 2 ^ W := by
  have h : 2 ^ 8 ≤ 2 ^ W := Nat.pow_le_pow_right (by norm_num) hW
  simpa using h

/-- The fuel given by `Bits` is never exhausted: the limbs are the base-`2^W`
digits. -/
theorem limbs_eq_digits (W : Nat) (hW : 0 < W) :
    ∀ fuel x, x ≤ fuel → limbs W fuel x = Nat.digits (2 ^ W) x := by
  have hb : 1 < 2 ^ W := Nat.one_lt_two_pow (Nat.pos_iff_ne_zero.mp hW)
  intro fuel
  induction fuel with
  | zero =>
    intro x hx
    have : x = 0 := by omega
    subst this
    simp [limbs]
  | succ fuel ih =>
    intro x hx
    unfold limbs
    split
    · next h0 => subst h0; simp
    · next h0 =>
      have hpos : 0 < x := Nat.pos_of_ne_zero h0
      have hlt : x / 2 ^ W < x := Nat.div_lt_self hpos hb
      rw [Nat.digits_def' hb hpos, ih (x / 2 ^ W) (by omega)]

theorem Bits_eq_digits (W : Nat) (hW : 0 < W) (x : Int) :
    Bits W x = Nat.digits (2 ^ W) x.natAbs :=
  limbs_eq_digits W hW _ _ (Nat.le_refl _)

theorem limbs_length_le (W : Nat) (hW : 8 ≤ W) :
    ∀ fuel n x, x < 256 ^ n → (limbs W fuel x).length ≤ n := by
  have hb := two_pow_word_ge W hW
  intro fuel
  induction fuel with
  | zero => intro n x _; simp [limbs]
  | succ fuel ih =>
    intro n x hx
    unfold limbs
    split
    · simp
    · next h0 =>
      cases n with
      | zero => simp at hx; exact absurd hx h0
      | succ m =>
        have h1 : x / 2 ^ W ≤ x / 256 := Nat.div_le_div_left hb (by norm_num)
        have h2 : x / 256 < 256 ^ m := by
          rw [Nat.div_lt_iff_lt_mul (by norm_num)]
          rw [pow_succ] at hx
          exact hx
        have := ih m (x / 2 ^ W) (lt_of_le_of_lt h1 h2)
        simp only [List.length_cons]
        omega

theorem bytesBE_length : ∀ n x, (bytesBE n x).length = n := by
  intro n
  induction n with
  | zero => intro x; rfl
  | succ n ih => intro x; simp [bytesBE, ih]

theorem bytesBE_getElem? : ∀ n x i, i < n →
    (bytesBE n x)[i]? = some (x / 256 ^ (n - 1 - i) % 256) := by
  intro n
  induction n with
  | zero => intro x i hi; omega
  | succ n ih =>
    intro x i hi
    unfold bytesBE
    by_cases hin : i < n
    · rw [List.getElem?_append_left (by rw [bytesBE_length]; exact hin), ih _ _ hin]
      have e : n + 1 - 1 - i = (n - 1 - i) + 1 := by omega
      rw [e, pow_succ, Nat.mul_comm, Nat.div_div_eq_div_mul]
    · have e : i = n := by omega
      subst e
      rw [List.getElem?_append_right (by rw [bytesBE_length])]
      simp [bytesBE_length]

theorem foldl_bytes_append (l : List Nat) (b : Nat) :
    (l ++ [b]).foldl (fun acc c => acc * 256 + c) 0
      = l.foldl (fun acc c => acc * 256 + c) 0 * 256 + b := by
  simp [List.foldl_append]

theorem foldl_bytesBE : ∀ n x,
    (bytesBE n x).foldl (fun acc c => acc * 256 + c) 0 = x % 256 ^ n := by
  intro n
  induction n with
  | zero => intro x; simp [bytesBE, Nat.mod_one]
  | succ n ih =>
    intro x
    unfold bytesBE
    rw [foldl_bytes_append, ih, pow_succ', Nat.mod_mul]
    ring

theorem OS2IP_bytesBE (n x : Nat) (h : x < 256 ^ n) : OS2IP (bytesBE n x) = (x : Int) := by
  unfold OS2IP SetBytes
  rw [foldl_bytesBE, Nat.mod_eq_of_lt h]
  rfl

theorem Sign_neg_iff (x : Int) : Sign x < 0 ↔ x < 0 := by
  unfold Sign
  split
  · simp [*]
  · split <;> simp [*]

theorem natAbs_lt_pow_of (x : Int) (n : Nat) (h0 : 0 ≤ x) (h : x < 256 ^ n) :
    x.natAbs < 256 ^ n := by
  have : ((x.natAbs : Nat) : Int) < ((256 ^ n : Nat) : Int) := by
    rw [Int.natAbs_of_nonneg h0]; push_cast; exact h
  exact_mod_cast this

/-- Success of `I2OSP` on every integer that fits the buffer. -/
theorem I2OSP_fits (W : Nat) (hW : 8 ≤ W) (x : Int) (buf : List Nat)
    (h0 : 0 ≤ x) (h : x < 256 ^ buf.length) :
    I2OSP W x buf = .ok (bytesBE buf.length x.toNat) := by
  have hn := natAbs_lt_pow_of x buf.length h0 h
  have hs : ¬ Sign x < 0 := by rw [Sign_neg_iff]; omega
  have hl : ¬ (Bits W x).length > buf.length := by
    have := limbs_length_le W hW x.natAbs buf.length x.natAbs hn
    unfold Bits; omega
  have ht : x.toNat = x.natAbs := by omega
  simp [I2OSP, hs, hl, FillBytes, hn, ht]

/-- What a successful `I2OSP` call implies. -/
theorem I2OSP_ok_inv (W : Nat) (x : Int) (buf out : List Nat)
    (h : I2OSP W x buf = .ok out) :
    0 ≤ x ∧ x < 256 ^ buf.length ∧ out = bytesBE buf.length x.toNat := by
  have hs := Sign_neg_iff x
  by_cases h1 : Sign x < 0
  · simp [I2OSP, h1] at h
  · by_cases h2 : (Bits W x).length > buf.length
    · simp [I2OSP, h1, h2] at h
    · by_cases h3 : x.natAbs < 256 ^ buf.length
      · have h0 : 0 ≤ x := by
          have : ¬ x < 0 := fun hx => h1 (hs.mpr hx)
          omega
        have ht : x.toNat = x.natAbs := by omega
        simp [I2OSP, h1, h2, FillBytes, h3] at h
        refine ⟨h0, ?_, by rw [ht]; exact h.symm⟩
        have : ((x.natAbs : Nat) : Int) < ((256 ^ buf.length : Nat) : Int) := by
          exact_mod_cast h3
        rw [Int.natAbs_of_nonneg h0] at this
        push_cast at this
        exact this
      · simp [I2OSP, h1, h2, FillBytes, h3] at h

/-- The abort case of `I2OSP`: a non-negative integer with at most `len(buf)`
words that does not fit in `len(buf)` bytes. -/
theorem I2OSP_panic_iff (W : Nat) (x : Int) (buf : List Nat) :
    I2OSP W x buf = .panic ↔
      0 ≤ x ∧ (Bits W x).length ≤ buf.length ∧ 256 ^ buf.length ≤ x.natAbs := by
  have hs := Sign_neg_iff x
  by_cases h1 : Sign x < 0
  · have : x < 0 := hs.mp h1
    simp [I2OSP, h1]
    omega
  · have h0 : 0 ≤ x := by
      have : ¬ x < 0 := fun hx => h1 (hs.mpr hx)
      omega
    by_cases h2 : (Bits W x).length > buf.length
    · simp [I2OSP, h1, h2]
    · by_cases h3 : x.natAbs < 256 ^ buf.length
      · simp [I2OSP, h1, h2, FillBytes, h3]
      · simp [I2OSP, h1, h2, FillBytes, h3, h0]
        omega

/-! ## Lemmas on the signature codec -/

theorem makeBytes_take_length (n : Nat) : ((makeBytes (n * 2)).take n).length = n := by
  simp [makeBytes]
  omega

theorem makeBytes_drop_length (n : Nat) : ((makeBytes (n * 2)).drop n).length = n := by
  simp [makeBytes]
  omega

theorem encodeECDSASignature_fits (W : Nat) (hW : 8 ≤ W) (bitSize : Nat) (r s : Int)
    (hr0 : 0 ≤ r) (hr : r < 256 ^ ((bitSize + 7) / 8))
    (hs0 : 0 ≤ s) (hs : s < 256 ^ ((bitSize + 7) / 8)) :
    encodeECDSASignature W bitSize r s
      = .ok (bytesBE ((bitSize + 7) / 8) r.toNat ++ bytesBE ((bitSize + 7) / 8) s.toNat) := by
  unfold encodeECDSASignature
  simp only []
  have e1 := I2OSP_fits W hW r ((makeBytes ((bitSize + 7) / 8 * 2)).take ((bitSize + 7) / 8)) hr0
    (by rw [makeBytes_take_length]; exact hr)
  rw [makeBytes_take_length] at e1
  rw [e1]
  simp only []
  have hd : (bytesBE ((bitSize + 7) / 8) r.toNat
      ++ (makeBytes ((bitSize + 7) / 8 * 2)).drop ((bitSize + 7) / 8)).drop ((bitSize + 7) / 8)
      = (makeBytes ((bitSize + 7) / 8 * 2)).drop ((bitSize + 7) / 8) := by
    rw [List.drop_append_of_le_length (by rw [bytesBE_length])]
    simp [List.drop_eq_nil_of_le, bytesBE_length]
  have ht : (bytesBE ((bitSize + 7) / 8) r.toNat
      ++ (makeBytes ((bitSize + 7) / 8 * 2)).drop ((bitSize + 7) / 8)).take ((bitSize + 7) / 8)
      = bytesBE ((bitSize + 7) / 8) r.toNat := by
    rw [List.take_append_of_le_length (by rw [bytesBE_length])]
    simp [List.take_of_length_le, bytesBE_length]
  have e2 := I2OSP_fits W hW s ((makeBytes ((bitSize + 7) / 8 * 2)).drop ((bitSize + 7) / 8)) hs0
    (by rw [makeBytes_drop_length]; exact hs)
  rw [makeBytes_drop_length] at e2
  rw [hd, e2, ht]

theorem encodeECDSASignature_ok_inv (W : Nat) (bitSize : Nat) (r s : Int) (sig : List Nat)
    (h : encodeECDSASignature W bitSize r s = .ok sig) :
    (0 ≤ r ∧ r < 256 ^ ((bitSize + 7) / 8)) ∧ (0 ≤ s ∧ s < 256 ^ ((bitSize + 7) / 8)) ∧
      sig = bytesBE ((bitSize + 7) / 8) r.toNat ++ bytesBE ((bitSize + 7) / 8) s.toNat := by
  unfold encodeECDSASignature at h
  simp only [] at h
  cases h1 : I2OSP W r ((makeBytes ((bitSize + 7) / 8 * 2)).take ((bitSize + 7) / 8)) with
  | error e => rw [h1] at h; cases h
  | panic => rw [h1] at h; cases h
  | ok lo =>
    rw [h1] at h
    simp only [] at h
    have i1 := I2OSP_ok_inv W r _ lo h1
    rw [makeBytes_take_length] at i1
    obtain ⟨hr0, hr, hlo⟩ := i1
    subst hlo
    have hd : (bytesBE ((bitSize + 7) / 8) r.toNat
        ++ (makeBytes ((bitSize + 7) / 8 * 2)).drop ((bitSize + 7) / 8)).drop ((bitSize + 7) / 8)
        = (makeBytes ((bitSize + 7) / 8 * 2)).drop ((bitSize + 7) / 8) := by
      rw [List.drop_append_of_le_length (by rw [bytesBE_length])]
      simp [List.drop_eq_nil_of_le, bytesBE_length]
    have ht : (bytesBE ((bitSize + 7) / 8) r.toNat
        ++ (makeBytes ((bitSize + 7) / 8 * 2)).drop ((bitSize + 7) / 8)).take ((bitSize + 7) / 8)
        = bytesBE ((bitSize + 7) / 8) r.toNat := by
      rw [List.take_append_of_le_length (by rw [bytesBE_length])]
      simp [List.take_of_length_le, bytesBE_length]
    rw [hd, ht] at h
    cases h2 : I2OSP W s ((makeBytes ((bitSize + 7) / 8 * 2)).drop ((bitSize + 7) / 8)) with
    | error e => rw [h2] at h; cases h
    | panic => rw [h2] at h; cases h
    | ok hi =>
      rw [h2] at h
      have i2 := I2OSP_ok_inv W s _ hi h2
      rw [makeBytes_drop_length] at i2
      obtain ⟨hs0, hs, hhi⟩ := i2
      subst hhi
      simp only [] at h
      injection h with h
      exact ⟨⟨hr0, hr⟩, ⟨hs0, hs⟩, h.symm⟩

theorem decodeECDSASignature_of_length (bitSize : Nat) (sig : List Nat)
    (h : sig.length = (bitSize + 7) / 8 * 2) :
    decodeECDSASignature bitSize sig
      = .ok (OS2IP (sig.take ((bitSize + 7) / 8)), OS2IP (sig.drop ((bitSize + 7) / 8))) := by
  simp [decodeECDSASignature, h]


/-! ## Lemmas on header maps and the algorithm entry -/

theorem HeaderMap.get_set_same (m : HeaderMap) (k v : Value) :
    (m.set k v).get k = some v := by
  induction m with
  | nil => simp [HeaderMap.set, HeaderMap.get]
  | cons e rest ih =>
    obtain ⟨k1, v1⟩ := e
    by_cases hk : k1 = k
    · simp [HeaderMap.set, HeaderMap.get, hk]
    · simp [HeaderMap.set, HeaderMap.get, hk, ih]

theorem HeaderMap.get_set_other (m : HeaderMap) (k v k2 : Value) (hne : k2 ≠ k) :
    (m.set k v).get k2 = m.get k2 := by
  induction m with
  | nil => simp [HeaderMap.set, HeaderMap.get, Ne.symm hne]
  | cons e rest ih =>
    obtain ⟨k1, v1⟩ := e
    by_cases hk : k1 = k
    · subst hk
      simp [HeaderMap.set, HeaderMap.get, Ne.symm hne]
    · by_cases hk2 : k1 = k2
      · subst hk2
        simp [HeaderMap.set, HeaderMap.get, hne]
      · simp [HeaderMap.set, HeaderMap.get, hk, hk2, ih]

/-- The three results of `ProtectedHeader.Algorithm`. -/
theorem algorithm_cases (h : ProtectedHeader) :
    (h.get HeaderLabelAlgorithm = none ∧
        ProtectedHeader.Algorithm h = (0, some .ErrAlgorithmNotFound)) ∨
    (h.get HeaderLabelAlgorithm ≠ none ∧ ∃ c, ProtectedHeader.Algorithm h = (c, none)) ∨
    (h.get HeaderLabelAlgorithm ≠ none ∧
        ProtectedHeader.Algorithm h = (0, some .ErrInvalidAlgorithm)) := by
  unfold ProtectedHeader.Algorithm
  cases hg : h.get HeaderLabelAlgorithm with
  | none => left; simp
  | some value =>
    right
    cases value with
    | integer kind v => cases kind <;> simp
    | algorithm a => simp
    | string s => simp
    | bool b => simp
    | bytes b => simp
    | array items => simp
    | bigInt v => simp
    | null => simp
    | float size bits => simp
    | simple n => simp
    | tag number content => simp
    | map keys vals => simp

theorem algorithm_of_absent (h : ProtectedHeader)
    (hno : h.get HeaderLabelAlgorithm = none) :
    ProtectedHeader.Algorithm h = (0, some .ErrAlgorithmNotFound) := by
  unfold ProtectedHeader.Algorithm
  rw [hno]

/-- When `ProtectedHeader.Algorithm` succeeds: an entry is stored under the
algorithm label and holds the value as an `Algorithm` or as one of the signed
integer types. -/
theorem algorithm_found_iff (h : ProtectedHeader) (c : Algorithm) :
    ProtectedHeader.Algorithm h = (c, none) ↔
      ∃ v, h.get HeaderLabelAlgorithm = some v ∧
        (v = .algorithm c ∨ v = .integer .int c ∨ v = .integer .int8 c ∨
          v = .integer .int16 c ∨ v = .integer .int32 c ∨ v = .integer .int64 c) := by
  unfold ProtectedHeader.Algorithm
  cases hg : h.get HeaderLabelAlgorithm with
  | none => simp
  | some value =>
    cases value with
    | integer kind v => cases kind <;> simp
    | algorithm a => simp
    | string s => simp
    | bool b => simp
    | bytes b => simp
    | array items => simp
    | bigInt v => simp
    | null => simp
    | float size bits => simp
    | simple n => simp
    | tag number content => simp
    | map keys vals => simp

theorem algorithm_setAlgorithm (m : HeaderMap) (alg : Algorithm) :
    ProtectedHeader.Algorithm (some (ProtectedHeader.SetAlgorithm m alg)) = (alg, none) := by
  unfold ProtectedHeader.Algorithm ProtectedHeader.SetAlgorithm ProtectedHeader.get
  simp only []
  rw [HeaderMap.get_set_same]

theorem Headers.ensureSigningAlgorithm_of_found (h : Headers) (alg c : Algorithm)
    (external : List Nat) (hc : ProtectedHeader.Algorithm h.Protected = (c, none)) :
    h.ensureSigningAlgorithm alg external
      = if c ≠ alg then
          (h, some (.errorf "%w: signer %v: header %v" .ErrAlgorithmMismatch alg c))
        else (h, none) := by
  unfold Headers.ensureSigningAlgorithm
  rw [hc]

theorem Headers.ensureVerificationAlgorithm_of_found (h : Headers) (alg c : Algorithm)
    (external : List Nat) (hc : ProtectedHeader.Algorithm h.Protected = (c, none)) :
    h.ensureVerificationAlgorithm alg external
      = if c ≠ alg then
          (h, some (.errorf "%w: verifier %v: header %v" .ErrAlgorithmMismatch alg c))
        else (h, none) := by
  unfold Headers.ensureVerificationAlgorithm
  rw [hc]

theorem Headers.ensureSigningAlgorithm_of_absent (h : Headers) (alg : Algorithm)
    (external : List Nat) (hno : h.Protected.get HeaderLabelAlgorithm = none) :
    h.ensureSigningAlgorithm alg external
      = if external.length > 0 then (h, none)
        else if h.RawProtected ≠ none then (h, some .ErrAlgorithmNotFound)
        else ({ h with Protected := some (ProtectedHeader.SetAlgorithm
                (match h.Protected with
                  | none => []
                  | some m => m) alg) }, none) := by
  unfold Headers.ensureSigningAlgorithm
  rw [algorithm_of_absent _ hno]

theorem Headers.ensureSigningAlgorithm_of_invalid (h : Headers) (alg : Algorithm)
    (external : List Nat)
    (hc : ProtectedHeader.Algorithm h.Protected = (0, some .ErrInvalidAlgorithm)) :
    h.ensureSigningAlgorithm alg external = (h, some .ErrInvalidAlgorithm) := by
  unfold Headers.ensureSigningAlgorithm
  rw [hc]

/-! ## Integer codec: claims -/

/-- Claim C1, evaluated at the input of the repository's test "integer too
large #3": for `x = 2^24` and a buffer of three bytes the claim (and the test)
expect an error value, but `2^24` is a single machine word, the guard
`len(x.Bits()) > len(buf)` compares one word with three bytes and lets it
through, and `FillBytes` aborts. This holds for 64-bit and for 32-bit words. -/
theorem I2OSP_two_pow_24_aborts :
    I2OSP 64 (2 ^ 24) (makeBytes 3) = .panic ∧
    I2OSP 32 (2 ^ 24) (makeBytes 3) = .panic ∧
    (Bits 64 (2 ^ 24)).length = 1 ∧ (Bits 32 (2 ^ 24)).length = 1 := by
  decide

/-- Claim C2: for every non-negative integer `x` and every buffer of length `n`
with `x < 256^n`, `I2OSP(x, buf)` succeeds and `OS2IP` of the filled buffer is
`x`. -/
theorem OS2IP_I2OSP_roundtrip (W : Nat) (hW : 8 ≤ W) (x : Int) (buf : List Nat)
    (h0 : 0 ≤ x) (hfit : x < 256 ^ buf.length) :
    ∃ out, I2OSP W x buf = .ok out ∧ out.length = buf.length ∧ OS2IP out = x := by
  have hn : x.toNat < 256 ^ buf.length := by
    have := natAbs_lt_pow_of x buf.length h0 hfit
    omega
  refine ⟨bytesBE buf.length x.toNat, I2OSP_fits W hW x buf h0 hfit, bytesBE_length _ _, ?_⟩
  rw [OS2IP_bytesBE _ _ hn]
  exact Int.toNat_of_nonneg h0

theorem OS2IP_I2OSP_roundtrip_witness :
    (8 ≤ 64 ∧ (0 : Int) ≤ 1234 ∧ (1234 : Int) < 256 ^ (makeBytes 5).length) ∧
    ∃ out, I2OSP 64 1234 (makeBytes 5) = .ok out ∧ out.length = (makeBytes 5).length ∧
      OS2IP out = 1234 :=
  ⟨by decide, OS2IP_I2OSP_roundtrip 64 (by decide) 1234 (makeBytes 5) (by decide) (by decide)⟩

/-- Claim C3: for every non-negative integer `x` and buffer of length `n` with
`x < 256^n`, `I2OSP` succeeds and leaves exactly `n` bytes, byte `i` being
`floor(x / 256^(n-1-i)) mod 256` (most significant byte first, zero padded on
the left); and `I2OSP(0, [])` succeeds with a zero-length result. -/
theorem I2OSP_big_endian_layout (W : Nat) (hW : 8 ≤ W) (x : Int) (buf : List Nat)
    (h0 : 0 ≤ x) (hfit : x < 256 ^ buf.length) :
    (∃ out, I2OSP W x buf = .ok out ∧ out.length = buf.length ∧
      ∀ i, i < buf.length →
        out[i]? = some (x.toNat / 256 ^ (buf.length - 1 - i) % 256)) ∧
    I2OSP W 0 [] = .ok [] := by
  refine ⟨⟨bytesBE buf.length x.toNat, I2OSP_fits W hW x buf h0 hfit, bytesBE_length _ _, ?_⟩, ?_⟩
  · intro i hi
    exact bytesBE_getElem? _ _ i hi
  · have := I2OSP_fits W hW 0 [] (le_refl 0) (by simp)
    simpa [bytesBE] using this

theorem I2OSP_big_endian_layout_witness :
    (8 ≤ 64 ∧ (0 : Int) ≤ 1234 ∧ (1234 : Int) < 256 ^ (makeBytes 5).length) ∧
    (∃ out, I2OSP 64 1234 (makeBytes 5) = .ok out ∧ out.length = (makeBytes 5).length ∧
      ∀ i, i < (makeBytes 5).length →
        out[i]? = some ((1234 : Int).toNat / 256 ^ ((makeBytes 5).length - 1 - i) % 256)) ∧
    I2OSP 64 0 [] = .ok [] :=
  ⟨by decide, I2OSP_big_endian_layout 64 (by decide) 1234 (makeBytes 5) (by decide) (by decide)⟩

/-! ## Signature codec: claims -/

/-- Claim C4: for every curve bit size, `n = ceil(bits/8)` and all integers
`r`, `s` with `0 <= r, s < 256^n`, `encodeECDSASignature` succeeds and
`decodeECDSASignature` of its output, for the same curve, returns exactly
`(r, s)` and no error. -/
theorem decode_encode_roundtrip (W : Nat) (hW : 8 ≤ W) (bitSize n : Nat)
    (hn : bitSize ≤ 8 * n ∧ 8 * n < bitSize + 8) (r s : Int)
    (hr : 0 ≤ r ∧ r < 256 ^ n) (hs : 0 ≤ s ∧ s < 256 ^ n) :
    ∃ sig, encodeECDSASignature W bitSize r s = .ok sig ∧
      decodeECDSASignature bitSize sig = .ok (r, s) := by
  have en : n = (bitSize + 7) / 8 := by omega
  subst en
  refine ⟨_, encodeECDSASignature_fits W hW bitSize r s hr.1 hr.2 hs.1 hs.2, ?_⟩
  have hrn : r.toNat < 256 ^ ((bitSize + 7) / 8) := by
    have := natAbs_lt_pow_of r _ hr.1 hr.2
    omega
  have hsn : s.toNat < 256 ^ ((bitSize + 7) / 8) := by
    have := natAbs_lt_pow_of s _ hs.1 hs.2
    omega
  rw [decodeECDSASignature_of_length _ _ (by simp [bytesBE_length]; omega)]
  rw [List.take_left' (bytesBE_length _ _), List.drop_left' (bytesBE_length _ _)]
  rw [OS2IP_bytesBE _ _ hrn, OS2IP_bytesBE _ _ hsn, Int.toNat_of_nonneg hr.1,
    Int.toNat_of_nonneg hs.1]

theorem decode_encode_roundtrip_witness :
    (8 ≤ 64 ∧ (16 ≤ 8 * 2 ∧ 8 * 2 < 16 + 8) ∧
      ((0 : Int) ≤ 258 ∧ (258 : Int) < 256 ^ 2) ∧ ((0 : Int) ≤ 3 ∧ (3 : Int) < 256 ^ 2)) ∧
    ∃ sig, encodeECDSASignature 64 16 258 3 = .ok sig ∧
      decodeECDSASignature 16 sig = .ok (258, 3) :=
  ⟨by decide,
    decode_encode_roundtrip 64 (by decide) 16 2 (by decide) 258 3 (by decide) (by decide)⟩

/-- Claim C5: when `encodeECDSASignature` succeeds for curve bit size `bits`,
its result has length exactly `2n` with `n = (bits+7)/8 = ceil(bits/8)` (64 for
256, 96 for 384, 132 for 521), its first `n` bytes are the `n`-byte big-endian
zero-padded encoding of `r` and its last `n` bytes are that of `s`. -/
theorem encodeECDSASignature_layout (W bitSize : Nat) (r s : Int) (sig : List Nat)
    (h : encodeECDSASignature W bitSize r s = .ok sig) :
    sig.length = 2 * ((bitSize + 7) / 8) ∧
    (bitSize ≤ 8 * ((bitSize + 7) / 8) ∧ 8 * ((bitSize + 7) / 8) < bitSize + 8) ∧
    (bitSize = 256 → sig.length = 64) ∧
    (bitSize = 384 → sig.length = 96) ∧
    (bitSize = 521 → sig.length = 132) ∧
    (0 ≤ r ∧ r < 256 ^ ((bitSize + 7) / 8)) ∧
    (0 ≤ s ∧ s < 256 ^ ((bitSize + 7) / 8)) ∧
    (∀ i, i < (bitSize + 7) / 8 →
      sig[i]? = some (r.toNat / 256 ^ ((bitSize + 7) / 8 - 1 - i) % 256)) ∧
    (∀ i, i < (bitSize + 7) / 8 →
      sig[(bitSize + 7) / 8 + i]? = some (s.toNat / 256 ^ ((bitSize + 7) / 8 - 1 - i) % 256)) := by
  obtain ⟨hr, hs, hsig⟩ := encodeECDSASignature_ok_inv W bitSize r s sig h
  have hlen : sig.length = 2 * ((bitSize + 7) / 8) := by
    rw [hsig, List.length_append, bytesBE_length, bytesBE_length]
    omega
  refine ⟨hlen, by omega, ?_, ?_, ?_, hr, hs, ?_, ?_⟩
  · intro hb; rw [hlen, hb]
  · intro hb; rw [hlen, hb]
  · intro hb; rw [hlen, hb]
  · intro i hi
    rw [hsig, List.getElem?_append_left (by rw [bytesBE_length]; exact hi)]
    exact bytesBE_getElem? _ _ i hi
  · intro i hi
    rw [hsig, List.getElem?_append_right (by rw [bytesBE_length]; omega), bytesBE_length]
    rw [Nat.add_sub_cancel_left]
    exact bytesBE_getElem? _ _ i hi

theorem encodeECDSASignature_layout_witness :
    encodeECDSASignature 64 16 258 3 = .ok [1, 2, 0, 3] ∧
    [1, 2, 0, 3].length = 2 * ((16 + 7) / 8) ∧
    (∀ i, i < (16 + 7) / 8 →
      [1, 2, 0, 3][(16 + 7) / 8 + i]?
        = some ((3 : Int).toNat / 256 ^ ((16 + 7) / 8 - 1 - i) % 256)) :=
  ⟨by decide,
    (encodeECDSASignature_layout 64 16 258 3 [1, 2, 0, 3] (by decide)).1,
    (encodeECDSASignature_layout 64 16 258 3 [1, 2, 0, 3] (by decide)).2.2.2.2.2.2.2.2⟩

set_option maxRecDepth 100000 in
/-- Claim C6, evaluated at a failing input: for the P-256 bit size (`n = 32`)
and `r = 2^256 = 256^32`, which does not fit in 32 bytes, the claim expects an
error value, but `r` has five 64-bit words (nine 32-bit words), fewer than 32,
so the guard of `I2OSP` lets it through and `FillBytes` aborts; the same happens
when in addition `s` is negative. -/
theorem encodeECDSASignature_p256_aborts :
    encodeECDSASignature 64 256 (2 ^ 256) 1 = .panic ∧
    encodeECDSASignature 32 256 (2 ^ 256) 1 = .panic ∧
    encodeECDSASignature 64 256 (2 ^ 256) (-1) = .panic ∧
    (Bits 64 (2 ^ 256)).length = 5 ∧ (Bits 32 (2 ^ 256)).length = 9 := by
  decide

/-- Claim C7: for every curve bit size, `n = ceil(bits/8)` and every byte string
`sig`, `decodeECDSASignature` returns an error if and only if `len(sig) != 2n`
(the error reports the length); when `len(sig) = 2n` it returns
`r = OS2IP(sig[0:n])` and `s = OS2IP(sig[n:2n])`. -/
theorem decodeECDSASignature_error_iff (bitSize n : Nat)
    (hn : bitSize ≤ 8 * n ∧ 8 * n < bitSize + 8) (sig : List Nat) :
    ((∃ e, decodeECDSASignature bitSize sig = .error e) ↔ sig.length ≠ 2 * n) ∧
    (sig.length ≠ 2 * n →
      decodeECDSASignature bitSize sig = .error (.lengthError sig.length)) ∧
    (sig.length = 2 * n →
      decodeECDSASignature bitSize sig
        = .ok (OS2IP (sig.take n), OS2IP ((sig.drop n).take n))) := by
  have en : n = (bitSize + 7) / 8 := by omega
  subst en
  have hok : sig.length = 2 * ((bitSize + 7) / 8) →
      decodeECDSASignature bitSize sig
        = .ok (OS2IP (sig.take ((bitSize + 7) / 8)),
            OS2IP ((sig.drop ((bitSize + 7) / 8)).take ((bitSize + 7) / 8))) := by
    intro hl
    rw [decodeECDSASignature_of_length _ _ (by omega)]
    rw [List.take_of_length_le (l := sig.drop ((bitSize + 7) / 8))
      (by rw [List.length_drop]; omega)]
  have herr : sig.length ≠ 2 * ((bitSize + 7) / 8) →
      decodeECDSASignature bitSize sig = .error (.lengthError sig.length) := by
    intro hl
    have : sig.length ≠ (bitSize + 7) / 8 * 2 := by omega
    simp [decodeECDSASignature, this]
  refine ⟨⟨?_, fun hl => ⟨_, herr hl⟩⟩, herr, hok⟩
  rintro ⟨e, he⟩ hl
  rw [hok hl] at he
  cases he

theorem decodeECDSASignature_error_iff_witness :
    (16 ≤ 8 * 2 ∧ 8 * 2 < 16 + 8) ∧
    ((∃ e, decodeECDSASignature 16 [1, 2, 0, 3] = .error e) ↔ [1, 2, 0, 3].length ≠ 2 * 2) ∧
    decodeECDSASignature 16 [1, 2, 0, 3] = .ok (258, 3) :=
  ⟨by decide,
    (decodeECDSASignature_error_iff 16 2 (by decide) [1, 2, 0, 3]).1,
    (decodeECDSASignature_error_iff 16 2 (by decide) [1, 2, 0, 3]).2.2 (by decide)⟩

/-! ## Algorithm binding: claims -/

/-- Claim C8: for every `Headers` value whose protected header has no entry
under the algorithm label, with empty external data and `RawProtected` nil,
`ensureSigningAlgorithm(alg, external)` returns nil; afterwards `Protected` is
non-nil (created if it was nil), `Protected.Algorithm()` returns `(alg, nil)`,
every entry present before is still present with the same value, and the other
fields are untouched. -/
theorem ensureSigningAlgorithm_populates (h : Headers) (alg : Algorithm)
    (external : List Nat)
    (hno : h.Protected.get HeaderLabelAlgorithm = none)
    (hext : external = []) (hraw : h.RawProtected = none) :
    (h.ensureSigningAlgorithm alg external).2 = none ∧
    (h.ensureSigningAlgorithm alg external).1.Protected ≠ none ∧
    ProtectedHeader.Algorithm (h.ensureSigningAlgorithm alg external).1.Protected
      = (alg, none) ∧
    (∀ k v, h.Protected.get k = some v →
      (h.ensureSigningAlgorithm alg external).1.Protected.get k = some v) ∧
    (h.ensureSigningAlgorithm alg external).1.RawProtected = h.RawProtected ∧
    (h.ensureSigningAlgorithm alg external).1.RawUnprotected = h.RawUnprotected ∧
    (h.ensureSigningAlgorithm alg external).1.Unprotected = h.Unprotected := by
  subst hext
  rw [Headers.ensureSigningAlgorithm_of_absent h alg [] hno]
  simp only [List.length_nil, gt_iff_lt, lt_self_iff_false, if_false, hraw, ne_eq,
    not_true_eq_false]
  refine ⟨trivial, by simp, algorithm_setAlgorithm _ _, ?_, trivial, trivial, trivial⟩
  intro k v hk
  have hne : k ≠ HeaderLabelAlgorithm := by
    intro e
    rw [e, hno] at hk
    cases hk
  cases hp : h.Protected with
  | none => rw [hp] at hk; cases hk
  | some m =>
    rw [hp] at hk
    show (ProtectedHeader.SetAlgorithm m alg).get k = some v
    unfold ProtectedHeader.SetAlgorithm
    rw [HeaderMap.get_set_other _ _ _ _ hne]
    exact hk

theorem ensureSigningAlgorithm_populates_witness :
    (Headers.ensureSigningAlgorithm
        ⟨none, some [(.integer .int64 4, .string "kid")], none, none⟩ (-7) []).2 = none ∧
    ProtectedHeader.Algorithm (Headers.ensureSigningAlgorithm
        ⟨none, some [(.integer .int64 4, .string "kid")], none, none⟩ (-7) []).1.Protected
      = (-7, none) :=
  ⟨(ensureSigningAlgorithm_populates
      ⟨none, some [(.integer .int64 4, .string "kid")], none, none⟩ (-7) []
      (by decide) rfl rfl).1,
    (ensureSigningAlgorithm_populates
      ⟨none, some [(.integer .int64 4, .string "kid")], none, none⟩ (-7) []
      (by decide) rfl rfl).2.2.1⟩

/-- Claim C9: `ensureSigningAlgorithm(alg, external)` returns nil exactly in
three cases: (a) the protected header has an algorithm entry equal to `alg`
(`Protected.Algorithm()` returns `(alg, nil)`: the entry holds `alg` as an
`Algorithm` or as a signed integer); (b) it has no algorithm entry and
`external` is non-empty; (c) it has no algorithm entry, `external` is empty and
`RawProtected` is nil. With no algorithm entry, empty external data and a
non-nil `RawProtected` it returns `ErrAlgorithmNotFound`, and in cases (a) and
(b) the `Headers` value is left unchanged. -/
theorem ensureSigningAlgorithm_nil_iff (h : Headers) (alg : Algorithm)
    (external : List Nat) :
    ((h.ensureSigningAlgorithm alg external).2 = none ↔
      (ProtectedHeader.Algorithm h.Protected = (alg, none) ∨
        (h.Protected.get HeaderLabelAlgorithm = none ∧ external ≠ []) ∨
        (h.Protected.get HeaderLabelAlgorithm = none ∧ external = [] ∧
          h.RawProtected = none))) ∧
    (h.Protected.get HeaderLabelAlgorithm = none → external = [] →
      h.RawProtected ≠ none →
      h.ensureSigningAlgorithm alg external = (h, some .ErrAlgorithmNotFound)) ∧
    (ProtectedHeader.Algorithm h.Protected = (alg, none) →
      h.ensureSigningAlgorithm alg external = (h, none)) ∧
    (h.Protected.get HeaderLabelAlgorithm = none → external ≠ [] →
      h.ensureSigningAlgorithm alg external = (h, none)) ∧
    (ProtectedHeader.Algorithm h.Protected = (alg, none) ↔
      ∃ v, h.Protected.get HeaderLabelAlgorithm = some v ∧
        (v = .algorithm alg ∨ v = .integer .int alg ∨ v = .integer .int8 alg ∨
          v = .integer .int16 alg ∨ v = .integer .int32 alg ∨ v = .integer .int64 alg)) := by
  have hA : ProtectedHeader.Algorithm h.Protected = (alg, none) →
      h.ensureSigningAlgorithm alg external = (h, none) := by
    intro hc
    rw [Headers.ensureSigningAlgorithm_of_found h alg alg external hc]
    simp
  have hB : h.Protected.get HeaderLabelAlgorithm = none → external ≠ [] →
      h.ensureSigningAlgorithm alg external = (h, none) := by
    intro hno hext
    rw [Headers.ensureSigningAlgorithm_of_absent h alg external hno]
    have : external.length > 0 := List.length_pos.mpr hext
    simp [this]
  have hC : h.Protected.get HeaderLabelAlgorithm = none → external = [] →
      h.RawProtected = none → (h.ensureSigningAlgorithm alg external).2 = none := by
    intro hno hext hraw
    rw [Headers.ensureSigningAlgorithm_of_absent h alg external hno]
    simp [hext, hraw]
  have hD : h.Protected.get HeaderLabelAlgorithm = none → external = [] →
      h.RawProtected ≠ none →
      h.ensureSigningAlgorithm alg external = (h, some .ErrAlgorithmNotFound) := by
    intro hno hext hraw
    rw [Headers.ensureSigningAlgorithm_of_absent h alg external hno]
    simp [hext, hraw]
  refine ⟨⟨?_, ?_⟩, hD, hA, hB, algorithm_found_iff h.Protected alg⟩
  · intro hnil
    rcases algorithm_cases h.Protected with ⟨hno, _⟩ | ⟨_, c, hc⟩ | ⟨_, hinv⟩
    · by_cases hext : external = []
      · by_cases hraw : h.RawProtected = none
        · exact Or.inr (Or.inr ⟨hno, hext, hraw⟩)
        · rw [hD hno hext hraw] at hnil
          cases hnil
      · exact Or.inr (Or.inl ⟨hno, hext⟩)
    · by_cases hca : c = alg
      · subst hca
        exact Or.inl hc
      · rw [Headers.ensureSigningAlgorithm_of_found h alg c external hc] at hnil
        simp [hca] at hnil
    · rw [Headers.ensureSigningAlgorithm_of_invalid h alg external hinv] at hnil
      cases hnil
  · rintro (hc | ⟨hno, hext⟩ | ⟨hno, hext, hraw⟩)
    · rw [hA hc]
    · rw [hB hno hext]
    · exact hC hno hext hraw

/-- Claim C10: for every `Headers` value whose protected header carries an
algorithm entry `c` (`Protected.Algorithm()` returns `(c, nil)`) and every
`alg != c`, `ensureSigningAlgorithm(alg, external)` and
`ensureVerificationAlgorithm(alg, external)` both return an error that wraps
`ErrAlgorithmMismatch` and whose message names `alg` and `c`, whatever `external`
and `RawProtected` are, and the `Headers` value is left unchanged. -/
theorem ensure_algorithm_mismatch (h : Headers) (alg c : Algorithm) (external : List Nat)
    (hc : ProtectedHeader.Algorithm h.Protected = (c, none)) (hne : alg ≠ c) :
    (∃ e, h.ensureSigningAlgorithm alg external = (h, some e) ∧
      e = .errorf "%w: signer %v: header %v" .ErrAlgorithmMismatch alg c ∧
      e.Is .ErrAlgorithmMismatch = true ∧ e.operands = [alg, c]) ∧
    (∃ e, h.ensureVerificationAlgorithm alg external = (h, some e) ∧
      e = .errorf "%w: verifier %v: header %v" .ErrAlgorithmMismatch alg c ∧
      e.Is .ErrAlgorithmMismatch = true ∧ e.operands = [alg, c]) := by
  have hne2 : c ≠ alg := fun e => hne e.symm
  refine ⟨⟨_, ?_, rfl, ?_, rfl⟩, ⟨_, ?_, rfl, ?_, rfl⟩⟩
  · rw [Headers.ensureSigningAlgorithm_of_found h alg c external hc]
    simp [hne2]
  · simp [Error.Is]
  · rw [Headers.ensureVerificationAlgorithm_of_found h alg c external hc]
    simp [hne2]
  · simp [Error.Is]

theorem ensure_algorithm_mismatch_witness :
    (ProtectedHeader.Algorithm (some [(HeaderLabelAlgorithm, .algorithm (-7))]) = (-7, none) ∧
      (-35 : Algorithm) ≠ -7) ∧
    (∃ e, Headers.ensureSigningAlgorithm
        ⟨some [64], some [(HeaderLabelAlgorithm, .algorithm (-7))], none, none⟩ (-35) [1]
          = (⟨some [64], some [(HeaderLabelAlgorithm, .algorithm (-7))], none, none⟩, some e) ∧
      e = .errorf "%w: signer %v: header %v" .ErrAlgorithmMismatch (-35) (-7) ∧
      e.Is .ErrAlgorithmMismatch = true ∧ e.operands = [-35, -7]) ∧
    (∃ e, Headers.ensureVerificationAlgorithm
        ⟨some [64], some [(HeaderLabelAlgorithm, .algorithm (-7))], none, none⟩ (-35) [1]
          = (⟨some [64], some [(HeaderLabelAlgorithm, .algorithm (-7))], none, none⟩, some e) ∧
      e = .errorf "%w: verifier %v: header %v" .ErrAlgorithmMismatch (-35) (-7) ∧
      e.Is .ErrAlgorithmMismatch = true ∧ e.operands = [-35, -7]) :=
  ⟨by decide,
    ensure_algorithm_mismatch
      ⟨some [64], some [(HeaderLabelAlgorithm, .algorithm (-7))], none, none⟩ (-35) (-7) [1]
      (by decide) (by decide)⟩

/-! ## Lemmas on label validation -/

theorem validateHeaderLabelLoop_eq_none_iff (m : HeaderMap) :
    ∀ (ei : List Int) (es : List String),
      validateHeaderLabelLoop ei es m = none ↔
        (∀ e ∈ m, e.1.isLabel = true) ∧
        (intLabels m).Nodup ∧ (stringLabels m).Nodup ∧
        (∀ k ∈ intLabels m, k ∉ ei) ∧ (∀ s ∈ stringLabels m, s ∉ es) := by
  induction m with
  | nil => intro ei es; simp [validateHeaderLabelLoop, intLabels, stringLabels]
  | cons e rest ih =>
    intro ei es
    obtain ⟨label, value⟩ := e
    cases label with
    | integer kind v =>
      by_cases hk : toInt64 v ∈ ei
      · simp [validateHeaderLabelLoop, intLabels, stringLabels, hk]
      · simp only [validateHeaderLabelLoop, hk, if_false, ih, intLabels, stringLabels,
          List.nodup_cons, List.mem_cons, forall_eq_or_imp, Value.isLabel, true_and]
        constructor
        · rintro ⟨h1, h2, h3, h4, h5⟩
          refine ⟨h1, ⟨fun hm => (h4 _ hm) (Or.inl rfl), h2⟩, h3, ⟨id, ?_⟩, h5⟩
          intro k hkm hke
          exact h4 k hkm (Or.inr hke)
        · rintro ⟨h1, ⟨h2a, h2⟩, h3, ⟨_, h4⟩, h5⟩
          refine ⟨h1, h2, h3, ?_, h5⟩
          intro k hkm hke
          rcases hke with hke | hke
          · exact h2a (hke ▸ hkm)
          · exact h4 k hkm hke
    | string s =>
      by_cases hk : s ∈ es
      · simp [validateHeaderLabelLoop, intLabels, stringLabels, hk]
      · simp only [validateHeaderLabelLoop, hk, if_false, ih, intLabels, stringLabels,
          List.nodup_cons, List.mem_cons, forall_eq_or_imp, Value.isLabel, true_and]
        constructor
        · rintro ⟨h1, h2, h3, h4, h5⟩
          refine ⟨h1, h2, ⟨fun hm => (h5 _ hm) (Or.inl rfl), h3⟩, h4, ⟨id, ?_⟩⟩
          intro k hkm hke
          exact h5 k hkm (Or.inr hke)
        · rintro ⟨h1, h2, ⟨h3a, h3⟩, h4, ⟨_, h5⟩⟩
          refine ⟨h1, h2, h3, h4, ?_⟩
          intro k hkm hke
          rcases hke with hke | hke
          · exact h3a (hke ▸ hkm)
          · exact h5 k hkm hke
    | algorithm a => simp [validateHeaderLabelLoop, Value.isLabel]
    | bool b => simp [validateHeaderLabelLoop, Value.isLabel]
    | bytes b => simp [validateHeaderLabelLoop, Value.isLabel]
    | array items => simp [validateHeaderLabelLoop, Value.isLabel]
    | bigInt v => simp [validateHeaderLabelLoop, Value.isLabel]
    | null => simp [validateHeaderLabelLoop, Value.isLabel]
    | float size bits => simp [validateHeaderLabelLoop, Value.isLabel]
    | simple n => simp [validateHeaderLabelLoop, Value.isLabel]
    | tag number content => simp [validateHeaderLabelLoop, Value.isLabel]
    | map keys vals => simp [validateHeaderLabelLoop, Value.isLabel]

/-- When `validateHeaderLabel` accepts a header: every label is an integer or a
string, the integer labels have distinct `int64` values and the string labels
are distinct. -/
theorem validateHeaderLabel_eq_none_iff (m : HeaderMap) :
    validateHeaderLabel m = none ↔
      (∀ e ∈ m, e.1.isLabel = true) ∧ (intLabels m).Nodup ∧ (stringLabels m).Nodup := by
  unfold validateHeaderLabel
  rw [validateHeaderLabelLoop_eq_none_iff]
  simp

theorem validateHeaderLabel_error_of_not_label (m : HeaderMap) (label value : Value)
    (hmem : (label, value) ∈ m) (hty : label.isLabel = false) :
    ∃ e, validateHeaderLabel m = some e := by
  cases h : validateHeaderLabel m with
  | some e => exact ⟨e, rfl⟩
  | none =>
    have := ((validateHeaderLabel_eq_none_iff m).mp h).1 _ hmem
    simp [hty] at this


/-! ## Algorithm binding on verification: claims -/

theorem Headers.ensureVerificationAlgorithm_of_absent (h : Headers) (alg : Algorithm)
    (external : List Nat) (hno : h.Protected.get HeaderLabelAlgorithm = none) :
    h.ensureVerificationAlgorithm alg external
      = if external.length > 0 then (h, none) else (h, some .ErrAlgorithmNotFound) := by
  unfold Headers.ensureVerificationAlgorithm
  rw [algorithm_of_absent _ hno]

theorem Headers.ensureVerificationAlgorithm_of_invalid (h : Headers) (alg : Algorithm)
    (external : List Nat)
    (hc : ProtectedHeader.Algorithm h.Protected = (0, some .ErrInvalidAlgorithm)) :
    h.ensureVerificationAlgorithm alg external = (h, some .ErrInvalidAlgorithm) := by
  unfold Headers.ensureVerificationAlgorithm
  rw [hc]

/-- Claim C11: `ensureVerificationAlgorithm(alg, external)` never changes the
`Headers` value; it returns nil if and only if the protected header's algorithm
entry is present and equal to `alg` (`Protected.Algorithm()` returns
`(alg, nil)`), or the entry is absent and `external` is non-empty; when the
entry is absent and `external` is empty it returns `ErrAlgorithmNotFound`. -/
theorem ensureVerificationAlgorithm_nil_iff (h : Headers) (alg : Algorithm)
    (external : List Nat) :
    (h.ensureVerificationAlgorithm alg external).1 = h ∧
    ((h.ensureVerificationAlgorithm alg external).2 = none ↔
      (ProtectedHeader.Algorithm h.Protected = (alg, none) ∨
        (h.Protected.get HeaderLabelAlgorithm = none ∧ external ≠ []))) ∧
    (h.Protected.get HeaderLabelAlgorithm = none → external = [] →
      (h.ensureVerificationAlgorithm alg external).2 = some .ErrAlgorithmNotFound) ∧
    (ProtectedHeader.Algorithm h.Protected = (alg, none) ↔
      ∃ v, h.Protected.get HeaderLabelAlgorithm = some v ∧
        (v = .algorithm alg ∨ v = .integer .int alg ∨ v = .integer .int8 alg ∨
          v = .integer .int16 alg ∨ v = .integer .int32 alg ∨ v = .integer .int64 alg)) := by
  have hcases := algorithm_cases h.Protected
  refine ⟨?_, ⟨?_, ?_⟩, ?_, algorithm_found_iff h.Protected alg⟩
  · rcases hcases with ⟨hno, _⟩ | ⟨_, c, hc⟩ | ⟨_, hinv⟩
    · rw [Headers.ensureVerificationAlgorithm_of_absent h alg external hno]
      split <;> rfl
    · rw [Headers.ensureVerificationAlgorithm_of_found h alg c external hc]
      split <;> rfl
    · rw [Headers.ensureVerificationAlgorithm_of_invalid h alg external hinv]
  · intro hnil
    rcases hcases with ⟨hno, _⟩ | ⟨_, c, hc⟩ | ⟨_, hinv⟩
    · rw [Headers.ensureVerificationAlgorithm_of_absent h alg external hno] at hnil
      by_cases hext : external = []
      · simp [hext] at hnil
      · exact Or.inr ⟨hno, hext⟩
    · by_cases hca : c = alg
      · subst hca
        exact Or.inl hc
      · rw [Headers.ensureVerificationAlgorithm_of_found h alg c external hc] at hnil
        simp [hca] at hnil
    · rw [Headers.ensureVerificationAlgorithm_of_invalid h alg external hinv] at hnil
      cases hnil
  · rintro (hc | ⟨hno, hext⟩)
    · rw [Headers.ensureVerificationAlgorithm_of_found h alg alg external hc]
      simp
    · rw [Headers.ensureVerificationAlgorithm_of_absent h alg external hno]
      have : external.length > 0 := List.length_pos.mpr hext
      simp [this]
  · intro hno hext
    rw [Headers.ensureVerificationAlgorithm_of_absent h alg external hno]
    simp [hext]

/-! ## Header encoding: claims -/

/-- Claim C13: an empty `ProtectedHeader` (nil or with zero entries) encodes,
without error, to a zero-length CBOR byte string, the single byte `0x40`, and
not to an encoded empty map; an empty `UnprotectedHeader` encodes to the empty
CBOR map, the single byte `0xa0`. -/
theorem empty_header_encoding :
    ProtectedHeader.MarshalCBOR none = .ok [0x40] ∧
    ProtectedHeader.MarshalCBOR (some []) = .ok [0x40] ∧
    byteString.UnmarshalCBOR [0x40] = .ok (some []) ∧
    decodeMap [0x40] = none ∧
    UnprotectedHeader.MarshalCBOR none = .ok [0xa0] ∧
    UnprotectedHeader.MarshalCBOR (some []) = .ok [0xa0] ∧
    decodeMap [0xa0] = some [] := by
  decide

theorem Headers.MarshalProtected_of_raw (h : Headers) (raw : List Nat)
    (hraw : h.RawProtected = some raw) (hlen : 0 < raw.length) :
    h.MarshalProtected = .ok raw := by
  unfold Headers.MarshalProtected
  rw [hraw]
  simp [hlen]

theorem Headers.MarshalProtected_of_nil (h : Headers) (hraw : h.RawProtected = none) :
    h.MarshalProtected = ProtectedHeader.MarshalCBOR h.Protected := by
  unfold Headers.MarshalProtected
  rw [hraw]

/-- Claim C14, evaluated at a failing input: with `RawProtected` set to a
non-nil slice of length zero, `MarshalProtected` does not return `RawProtected`:
the guard is `len(h.RawProtected) > 0`, so the call falls through to the default
encoding of `Protected` (`0x40` for a nil header, `43 a1 01 26` for a header
holding algorithm `-7`); likewise `MarshalUnprotected`. -/
theorem MarshalProtected_empty_raw_ignored :
    Headers.MarshalProtected ⟨some [], none, none, none⟩ = .ok [0x40] ∧
    Headers.MarshalProtected
        ⟨some [], some [(HeaderLabelAlgorithm, .algorithm (-7))], none, none⟩
      = .ok [0x43, 0xa1, 0x01, 0x26] ∧
    Headers.MarshalUnprotected ⟨none, none, some [], none⟩ = .ok [0xa0] := by
  decide

/-- Claim C16: for every header map that contains a label whose type is neither
an integer type nor `string`, `validateHeaderLabel` returns an error, and
encoding that header as a `ProtectedHeader` or as an `UnprotectedHeader`
fails. -/
theorem validateHeaderLabel_rejects_other_types (m : HeaderMap) (label value : Value)
    (hmem : (label, value) ∈ m)
    (hint : ∀ kind v, label ≠ .integer kind v) (hstr : ∀ s, label ≠ .string s) :
    (∃ e, validateHeaderLabel m = some e) ∧
    (∃ e, ProtectedHeader.MarshalCBOR (some m) = .error e) ∧
    (∃ e, UnprotectedHeader.MarshalCBOR (some m) = .error e) := by
  have hty : label.isLabel = false := by
    cases label with
    | integer kind v => exact absurd rfl (hint kind v)
    | string s => exact absurd rfl (hstr s)
    | algorithm a => rfl
    | bool b => rfl
    | bytes b => rfl
    | array items => rfl
    | bigInt v => rfl
    | null => rfl
    | float size bits => rfl
    | simple n => rfl
    | tag number content => rfl
    | map keys vals => rfl
  obtain ⟨e, he⟩ := validateHeaderLabel_error_of_not_label m label value hmem hty
  have hlen : m.length ≠ 0 := by
    intro h0
    have : m = [] := List.length_eq_zero.mp h0
    subst this
    cases hmem
  refine ⟨⟨e, he⟩, ⟨e, ?_⟩, ⟨e, ?_⟩⟩
  · simp [ProtectedHeader.MarshalCBOR, hlen, he]
  · simp [UnprotectedHeader.MarshalCBOR, hlen, he]

theorem validateHeaderLabel_rejects_other_types_witness :
    (∃ e, validateHeaderLabel
        [(.integer .int64 4, .string "kid"), (.bool true, .integer .int 0)] = some e) ∧
    (∃ e, ProtectedHeader.MarshalCBOR
        (some [(.integer .int64 4, .string "kid"), (.bool true, .integer .int 0)])
          = .error e) ∧
    (∃ e, UnprotectedHeader.MarshalCBOR
        (some [(.integer .int64 4, .string "kid"), (.bool true, .integer .int 0)])
          = .error e) :=
  validateHeaderLabel_rejects_other_types
    [(.integer .int64 4, .string "kid"), (.bool true, .integer .int 0)]
    (.bool true) (.integer .int 0) (by decide) (by intro k v h; cases h) (by intro s h; cases h)

/-- Claim C17: integer labels and string labels are checked for uniqueness in
separate domains. `validateHeaderLabel` accepts a header exactly when every
label is an integer or a string, the integer labels have pairwise distinct
`int64` values and the string labels are pairwise distinct, so it never
reports a duplicate between an integer label and a string label; a header whose
only labels are the integer 5 and the string "5" is accepted. -/
theorem validateHeaderLabel_separate_domains :
    (∀ m : HeaderMap, validateHeaderLabel m = none ↔
      ((∀ e ∈ m, e.1.isLabel = true) ∧ (intLabels m).Nodup ∧ (stringLabels m).Nodup)) ∧
    (∀ (kind : IntKind) (v1 v2 : Value),
      validateHeaderLabel [(.integer kind 5, v1), (.string "5", v2)] = none ∧
      validateHeaderLabel [(.string "5", v2), (.integer kind 5, v1)] = none) := by
  refine ⟨validateHeaderLabel_eq_none_iff, ?_⟩
  intro kind v1 v2
  constructor <;>
    simp [validateHeaderLabel_eq_none_iff, Value.isLabel, intLabels, stringLabels]

/-! ## Verifier: claims -/

/-- Claim C20: `ecdsaVerifier.Verify` has exactly two outcomes, nil or
`ErrVerification`: for every key, digest and signature whose length differs
from `2 * ceil(curveBits / 8)` it returns `ErrVerification`, and it returns nil
if and only if the length is `2n` and the curve verification accepts
`(r, s) = (OS2IP(sig[0:n]), OS2IP(sig[n:2n]))`. -/
theorem Verify_outcomes (verify : List Nat → Int → Int → Bool) (bitSize n : Nat)
    (hn : bitSize ≤ 8 * n ∧ 8 * n < bitSize + 8) (digest sig : List Nat) :
    (ecdsaVerifier.Verify verify bitSize digest sig = none ∨
      ecdsaVerifier.Verify verify bitSize digest sig = some .ErrVerification) ∧
    (sig.length ≠ 2 * n →
      ecdsaVerifier.Verify verify bitSize digest sig = some .ErrVerification) ∧
    (ecdsaVerifier.Verify verify bitSize digest sig = none ↔
      (sig.length = 2 * n ∧
        verify digest (OS2IP (sig.take n)) (OS2IP ((sig.drop n).take n)) = true)) := by
  have en : n = (bitSize + 7) / 8 := by omega
  subst en
  by_cases hl : sig.length = 2 * ((bitSize + 7) / 8)
  · have hd := decodeECDSASignature_of_length bitSize sig (by omega)
    have ht : (sig.drop ((bitSize + 7) / 8)).take ((bitSize + 7) / 8)
        = sig.drop ((bitSize + 7) / 8) :=
      List.take_of_length_le (by rw [List.length_drop]; omega)
    rw [ht]
    unfold ecdsaVerifier.Verify
    rw [hd]
    cases hv : verify digest (OS2IP (sig.take ((bitSize + 7) / 8)))
        (OS2IP (sig.drop ((bitSize + 7) / 8))) <;> simp [hl, hv]
  · have hne : sig.length ≠ (bitSize + 7) / 8 * 2 := by omega
    have hd : decodeECDSASignature bitSize sig = .error (.lengthError sig.length) := by
      simp [decodeECDSASignature, hne]
    unfold ecdsaVerifier.Verify
    rw [hd]
    simp [hl]

theorem Verify_outcomes_witness :
    (16 ≤ 8 * 2 ∧ 8 * 2 < 16 + 8) ∧
    (ecdsaVerifier.Verify (fun _ r s => decide (r = 258 ∧ s = 3)) 16 [7] [1, 2, 0, 3] = none ↔
      ([1, 2, 0, 3].length = 2 * 2 ∧
        (fun _ r s => decide (r = 258 ∧ s = 3)) [7] (OS2IP ([1, 2, 0, 3].take 2))
          (OS2IP (([1, 2, 0, 3].drop 2).take 2)) = true)) :=
  ⟨by decide,
    (Verify_outcomes (fun _ r s => decide (r = 258 ∧ s = 3)) 16 2 (by decide) [7]
      [1, 2, 0, 3]).2.2⟩

/-! ## Critical headers: lemmas and claims -/

theorem ensureCriticalLoop_of_hashable (h : ProtectedHeader) (labels : List Value)
    (hh : ∀ l ∈ labels, l.hashable = true) :
    (ensureCriticalLoop h labels = .ok () ↔ ∀ l ∈ labels, h.get l ≠ none) ∧
    ((∃ l ∈ labels, h.get l = none) → ∃ e, ensureCriticalLoop h labels = .error e) := by
  induction labels with
  | nil => simp [ensureCriticalLoop]
  | cons l rest ih =>
    have hl : l.hashable = true := hh l (List.mem_cons_self _ _)
    have ih1 := ih (fun x hx => hh x (List.mem_cons_of_mem _ hx))
    cases hg : h.get l with
    | none =>
      simp [ensureCriticalLoop, ProtectedHeader.index, hl, hg]
    | some v =>
      simp only [ensureCriticalLoop, ProtectedHeader.index, hl, hg, if_true, List.mem_cons,
        forall_eq_or_imp, exists_eq_or_imp]
      refine ⟨?_, ?_⟩
      · rw [ih1.1]
        simp
      · rintro (hc | hc)
        · cases hc
        · exact ih1.2 hc

/-- The check of `ensureCritical` on a header whose critical list holds only
values that can be map keys: an error when the list is empty or names a label
that is not a key of the header, nil when every label it names is a key. -/
theorem ensureCritical_of_hashable (m : HeaderMap) (labels : List Value)
    (hc : HeaderMap.get m HeaderLabelCritical = some (.array labels))
    (hh : ∀ l ∈ labels, l.hashable = true) :
    ((labels = [] ∨ ∃ l ∈ labels, HeaderMap.get m l = none) →
      (∃ e, ProtectedHeader.ensureCritical (some m) = .error e) ∧
      (∃ e, ProtectedHeader.MarshalCBOR (some m) = .error e)) ∧
    ((labels ≠ [] ∧ ∀ l ∈ labels, HeaderMap.get m l ≠ none) →
      ProtectedHeader.ensureCritical (some m) = .ok ()) := by
  have hcr : ProtectedHeader.get (some m) HeaderLabelCritical = some (.array labels) := hc
  have hlen : m.length ≠ 0 := by
    intro h0
    have : m = [] := List.length_eq_zero.mp h0
    subst this
    cases hc
  have key := ensureCriticalLoop_of_hashable (some m) labels hh
  have hE : (labels = [] ∨ ∃ l ∈ labels, HeaderMap.get m l = none) →
      ∃ e, ProtectedHeader.ensureCritical (some m) = .error e := by
    rintro (h0 | hmiss)
    · subst h0
      exact ⟨.new "empty crit header",
        by simp [ProtectedHeader.ensureCritical, ProtectedHeader.Critical, hcr]⟩
    · have hne : labels.length ≠ 0 := by
        intro h0
        have : labels = [] := List.length_eq_zero.mp h0
        subst this
        obtain ⟨l, hl, _⟩ := hmiss
        cases hl
      obtain ⟨e, he⟩ := key.2 hmiss
      exact ⟨e, by simp [ProtectedHeader.ensureCritical, ProtectedHeader.Critical, hcr, hne, he]⟩
  refine ⟨fun hbad => ⟨hE hbad, ?_⟩, ?_⟩
  · obtain ⟨e, he⟩ := hE hbad
    cases hv : validateHeaderLabel m with
    | some e1 => exact ⟨e1, by simp [ProtectedHeader.MarshalCBOR, hlen, hv]⟩
    | none => exact ⟨e, by simp [ProtectedHeader.MarshalCBOR, hlen, hv, he]⟩
  · rintro ⟨hne, hall⟩
    have hne2 : labels.length ≠ 0 := fun h0 => hne (List.length_eq_zero.mp h0)
    have := key.1.mpr hall
    simp [ProtectedHeader.ensureCritical, ProtectedHeader.Critical, hcr, hne2, this]

theorem ensureCritical_of_absent (h : ProtectedHeader)
    (hc : h.get HeaderLabelCritical = none) : h.ensureCritical = .ok () := by
  simp [ProtectedHeader.ensureCritical, ProtectedHeader.Critical, hc, ensureCriticalLoop]

/-- Claim C12, evaluated at a failing input: the protected header
`{2: [[], 99]}` has a critical list that names the label 99, which is not a key
of the header, so the claim expects encoding and decoding to fail with an error.
The loop of `ensureCritical` first meets the nested array and uses it as a map
key in `h[label]`: a run-time panic (hash of unhashable type), on encoding and,
for the bytes `46 a1 02 82 80 18 63`, on decoding. -/
theorem critical_list_unhashable_panics :
    ProtectedHeader.ensureCritical
        (some [(HeaderLabelCritical, .array [.array [], .integer .int64 99])]) = .panic ∧
    ProtectedHeader.MarshalCBOR
        (some [(HeaderLabelCritical, .array [.array [], .integer .int64 99])]) = .panic ∧
    ProtectedHeader.UnmarshalCBOR none [0x46, 0xa1, 0x02, 0x82, 0x80, 0x18, 0x63]
      = .panics := by
  decide

/-! ## Header decoding: lemmas and claims -/

theorem protected_UnmarshalCBOR_error_unchanged (p : ProtectedHeader) (data : List Nat)
    (p1 : ProtectedHeader) (e : Error)
    (h : ProtectedHeader.UnmarshalCBOR p data = .returns p1 (some e)) : p1 = p := by
  unfold ProtectedHeader.UnmarshalCBOR at h
  repeat' split at h
  all_goals first
    | (injection h with h1 h2; first | exact h1.symm | cases h2)
    | cases h

theorem unprotected_UnmarshalCBOR_error_unchanged (u : UnprotectedHeader)
    (data : Option (List Nat)) (u1 : UnprotectedHeader) (e : Error)
    (h : UnprotectedHeader.UnmarshalCBOR u data = .returns u1 (some e)) : u1 = u := by
  unfold UnprotectedHeader.UnmarshalCBOR at h
  repeat' split at h
  all_goals (injection h with h1 h2; first | exact h1.symm | cases h2)

/-- Claim C15 as stated fails: with a valid `RawProtected` (`0x40`, the empty
header) and a malformed `RawUnprotected` (`0xa1`, a truncated map),
`UnmarshalFromRaw` returns an error, yet `h.Protected`, which held the
algorithm `-7`, has been replaced by the decoded empty header. -/
theorem UnmarshalFromRaw_error_changes_protected :
    Headers.UnmarshalFromRaw
        ⟨some [0x40], some [(HeaderLabelAlgorithm, .algorithm (-7))], some [0xa1], none⟩
      = .returns ⟨some [0x40], some [], some [0xa1], none⟩
          (some (.wrapf "cbor: invalid unprotected header: %w" (.new "cbor: malformed data"))) ∧
    (some [] : ProtectedHeader) ≠ some [(HeaderLabelAlgorithm, .algorithm (-7))] := by
  decide

/-- Claim C15, amended: whenever `UnmarshalFromRaw` returns an error,
`h.Unprotected` and the raw fields are as before the call; `h.Protected` is as
before when the error is that of the protected header, and is the header decoded
from `RawProtected` when the error is that of the unprotected header. Whenever
`ProtectedHeader.UnmarshalCBOR` or `UnprotectedHeader.UnmarshalCBOR` returns an
error, the pointed-to header is unchanged. -/
theorem UnmarshalFromRaw_error_state :
    (∀ (h h1 : Headers) (e : Error), h.UnmarshalFromRaw = .returns h1 (some e) →
      h1.Unprotected = h.Unprotected ∧ h1.RawProtected = h.RawProtected ∧
      h1.RawUnprotected = h.RawUnprotected ∧
      (((∃ e0, e = .wrapf "cbor: invalid protected header: %w" e0) ∧
          h1.Protected = h.Protected) ∨
        ((∃ e0, e = .wrapf "cbor: invalid unprotected header: %w" e0) ∧
          ProtectedHeader.UnmarshalCBOR h.Protected (h.RawProtected.getD [])
            = .returns h1.Protected none))) ∧
    (∀ (p : ProtectedHeader) (data : List Nat) (p1 : ProtectedHeader) (e : Error),
      ProtectedHeader.UnmarshalCBOR p data = .returns p1 (some e) → p1 = p) ∧
    (∀ (u : UnprotectedHeader) (data : Option (List Nat)) (u1 : UnprotectedHeader)
      (e : Error), UnprotectedHeader.UnmarshalCBOR u data = .returns u1 (some e) → u1 = u) := by
  refine ⟨?_, protected_UnmarshalCBOR_error_unchanged,
    unprotected_UnmarshalCBOR_error_unchanged⟩
  intro h h1 e hret
  unfold Headers.UnmarshalFromRaw at hret
  split at hret
  · injection hret with hs he
    subst hs
    injection he with he
    exact ⟨rfl, rfl, rfl, Or.inl ⟨⟨_, he.symm⟩, rfl⟩⟩
  · cases hp : ProtectedHeader.UnmarshalCBOR h.Protected (h.RawProtected.getD []) with
    | panics => rw [hp] at hret; cases hret
    | returns p perr =>
      rw [hp] at hret
      cases perr with
      | some err =>
        have hpp := protected_UnmarshalCBOR_error_unchanged _ _ _ _ hp
        simp only [] at hret
        injection hret with hs he
        subst hs
        injection he with he
        exact ⟨rfl, rfl, rfl, Or.inl ⟨⟨_, he.symm⟩, hpp⟩⟩
      | none =>
        simp only [] at hret
        split at hret
        · injection hret with hs he
          subst hs
          injection he with he
          exact ⟨rfl, rfl, rfl, Or.inr ⟨⟨_, he.symm⟩, rfl⟩⟩
        · cases hu : UnprotectedHeader.UnmarshalCBOR h.Unprotected
              (some (h.RawUnprotected.getD [])) with
          | panics => rw [hu] at hret; cases hret
          | returns u uerr =>
            rw [hu] at hret
            cases uerr with
            | some err =>
              have huu := unprotected_UnmarshalCBOR_error_unchanged _ _ _ _ hu
              simp only [] at hret
              injection hret with hs he
              subst hs
              injection he with he
              exact ⟨huu, rfl, rfl, Or.inr ⟨⟨_, he.symm⟩, rfl⟩⟩
            | none =>
              simp only [] at hret
              injection hret with hs he
              cases he

/-! ## DER signatures: lemmas and claims -/

/-! ## Lemmas on big-endian byte strings -/

theorem natOfBytes_append (a b : List Nat) :
    natOfBytes (a ++ b) = natOfBytes a * 256 ^ b.length + natOfBytes b := by
  unfold natOfBytes
  induction b using List.reverseRecOn with
  | nil => simp
  | append_singleton l x ih =>
    rw [← List.append_assoc, foldl_bytes_append, ih, foldl_bytes_append]
    simp [pow_succ]
    ring

theorem natOfBytes_cons (b : Nat) (rest : List Nat) :
    natOfBytes (b :: rest) = b * 256 ^ rest.length + natOfBytes rest := by
  have := natOfBytes_append [b] rest
  simpa [natOfBytes] using this

theorem natOfBytes_lt (bs : List Nat) (h : ∀ b ∈ bs, b < 256) :
    natOfBytes bs < 256 ^ bs.length := by
  induction bs with
  | nil => simp [natOfBytes]
  | cons b rest ih =>
    have h1 := ih (fun x hx => h x (List.mem_cons_of_mem _ hx))
    have h2 := h b (List.mem_cons_self _ _)
    rw [natOfBytes_cons, List.length_cons, pow_succ]
    nlinarith

theorem SetBytes_eq_natOfBytes (bs : List Nat) : SetBytes bs = (natOfBytes bs : Int) := rfl

theorem natOfBytes_bytesBE (n x : Nat) : natOfBytes (bytesBE n x) = x % 256 ^ n :=
  foldl_bytesBE n x

theorem bytesBE_lt (n x : Nat) : ∀ b ∈ bytesBE n x, b < 256 := by
  induction n generalizing x with
  | zero => simp [bytesBE]
  | succ n ih =>
    intro b hb
    simp only [bytesBE, List.mem_append, List.mem_singleton] at hb
    rcases hb with hb | hb
    · exact ih _ b hb
    · subst hb
      exact Nat.mod_lt _ (by norm_num)

theorem bytesBE_natOfBytes (bs : List Nat) (h : ∀ b ∈ bs, b < 256) :
    bytesBE bs.length (natOfBytes bs) = bs := by
  induction bs using List.reverseRecOn with
  | nil => rfl
  | append_singleton l x ih =>
    have hl : ∀ b ∈ l, b < 256 := fun b hb => h b (List.mem_append_left _ hb)
    have hx : x < 256 := h x (List.mem_append_right _ (List.mem_singleton_self x))
    rw [List.length_append, List.length_singleton, bytesBE, natOfBytes_append]
    simp only [List.length_singleton, pow_one]
    have e1 : (natOfBytes l * 256 + natOfBytes [x]) / 256 = natOfBytes l := by
      simp [natOfBytes]
      omega
    have e2 : (natOfBytes l * 256 + natOfBytes [x]) % 256 = x := by
      simp [natOfBytes]
      omega
    rw [e1, e2, ih hl]

theorem natOfBytes_complement (bs : List Nat) (h : ∀ b ∈ bs, b < 256) :
    natOfBytes (bs.map (fun b => 255 - b)) + natOfBytes bs + 1 = 256 ^ bs.length := by
  induction bs with
  | nil => simp [natOfBytes]
  | cons b rest ih =>
    have h1 := ih (fun x hx => h x (List.mem_cons_of_mem _ hx))
    have h2 := h b (List.mem_cons_self _ _)
    rw [List.map_cons, natOfBytes_cons, natOfBytes_cons, List.length_map, List.length_cons,
      pow_succ]
    have h3 : (255 - b) * 256 ^ rest.length + b * 256 ^ rest.length
        = 255 * 256 ^ rest.length := by
      rw [← Nat.add_mul]
      congr 1
      omega
    nlinarith

/-! ## Lemmas on DER lengths -/

theorem octetCount_eq_digits (n : Nat) : octetCount n = (Nat.digits 256 n).length := by
  unfold octetCount
  rw [limbs_eq_digits 8 (by norm_num) n n (Nat.le_refl n)]
  norm_num

theorem lt_pow_octetCount (n : Nat) : n < 256 ^ octetCount n := by
  rw [octetCount_eq_digits]
  exact Nat.lt_base_pow_length_digits (by norm_num)

theorem pow_octetCount_le (n : Nat) (hn : n ≠ 0) : 256 ^ octetCount n ≤ 256 * n := by
  rw [octetCount_eq_digits]
  exact Nat.base_pow_length_digits_le 256 n (by norm_num) hn

theorem octetCount_eq (n k : Nat) (hk : 0 < k) (hlo : 256 ^ (k - 1) ≤ n) (hhi : n < 256 ^ k) :
    octetCount n = k := by
  have hn : n ≠ 0 := by
    intro h0
    subst h0
    have : 0 < 256 ^ (k - 1) := by positivity
    omega
  have h1 := lt_pow_octetCount n
  have h2 := pow_octetCount_le n hn
  have hc : 0 < octetCount n := by
    rcases Nat.eq_zero_or_pos (octetCount n) with h0 | h0
    · rw [h0] at h1
      simp at h1
      exact absurd h1 hn
    · exact h0
  -- 256 ^ (k - 1) < 256 ^ c and 256 ^ (c - 1) < 256 ^ k
  have a1 : 256 ^ (k - 1) < 256 ^ octetCount n := lt_of_le_of_lt hlo h1
  have a2 : 256 ^ (octetCount n - 1) < 256 ^ k := by
    have e : 256 ^ octetCount n = 256 * 256 ^ (octetCount n - 1) := by
      rw [← pow_succ']
      congr 1
      omega
    rw [e] at h2
    have : 256 ^ (octetCount n - 1) ≤ n := by omega
    exact lt_of_le_of_lt this hhi
  have b1 := (Nat.pow_lt_pow_iff_right (by norm_num : 1 < 256)).mp a1
  have b2 := (Nat.pow_lt_pow_iff_right (by norm_num : 1 < 256)).mp a2
  omega

theorem octetCount_le_four (n : Nat) (hn : n < 2 ^ 32) : octetCount n ≤ 4 := by
  rcases Nat.eq_zero_or_pos n with h0 | h0
  · subst h0; decide
  · have h2 := pow_octetCount_le n (by omega)
    by_contra hc
    have h5 : 5 ≤ octetCount n := by omega
    have : (256 : Nat) ^ 5 ≤ 256 ^ octetCount n := Nat.pow_le_pow_right (by norm_num) h5
    norm_num at this hn
    omega

theorem octetCount_pos (n : Nat) (hn : 0 < n) : 0 < octetCount n := by
  have h1 := lt_pow_octetCount n
  rcases Nat.eq_zero_or_pos (octetCount n) with h0 | h0
  · rw [h0] at h1
    simp at h1
    omega
  · exact h0

theorem pow_pred_octetCount_le (n : Nat) (hn : 0 < n) : 256 ^ (octetCount n - 1) ≤ n := by
  have h2 := pow_octetCount_le n (by omega)
  have hc := octetCount_pos n hn
  have e : 256 ^ octetCount n = 256 * 256 ^ (octetCount n - 1) := by
    rw [← pow_succ']
    congr 1
    omega
  rw [e] at h2
  omega

theorem derLength_length_le (n : Nat) (hn : n < 2 ^ 32) : (derLength n).length ≤ 5 := by
  unfold derLength
  split
  · simp
  · have := octetCount_le_four n hn
    simp [bytesBE_length]
    omega

/-- Reading back a DER element shorter than `2^32` bytes. -/
theorem readAnyASN1_derElement (tag : Nat) (content rest : List Nat)
    (htag : tag % 32 ≠ 31) (hlen : (derElement tag content).length < 2 ^ 32) :
    readAnyASN1 (derElement tag content ++ rest) = some (tag, content, rest) := by
  unfold derElement derLength at *
  by_cases hs : content.length < 128
  · simp only [hs, if_true, List.cons_append, List.singleton_append, List.nil_append,
      readAnyASN1, htag, if_false]
    simp
  · have hn0 : 0 < content.length := by omega
    have hk1 := octetCount_pos _ hn0
    have hlo := pow_pred_octetCount_le _ hn0
    have hhi := lt_pow_octetCount content.length
    simp only [hs, if_false, List.length_cons, List.length_append, bytesBE_length] at hlen
    have hk4 := octetCount_le_four content.length (by omega)
    have hmod : (128 + octetCount content.length) % 128 = octetCount content.length := by omega
    have hnot : ¬ (128 + octetCount content.length < 128) := by omega
    have htake : List.take (octetCount content.length)
        (bytesBE (octetCount content.length) content.length ++ (content ++ rest))
        = bytesBE (octetCount content.length) content.length := by
      rw [List.take_left' (bytesBE_length _ _)]
    have hdrop : List.drop (octetCount content.length)
        (bytesBE (octetCount content.length) content.length ++ (content ++ rest))
        = content ++ rest := by
      rw [List.drop_left' (bytesBE_length _ _)]
    have hval : natOfBytes (bytesBE (octetCount content.length) content.length)
        = content.length := by
      rw [natOfBytes_bytesBE, Nat.mod_eq_of_lt hhi]
    have hdiv : ¬ (content.length / 256 ^ (octetCount content.length - 1) = 0) := by
      have : 0 < content.length / 256 ^ (octetCount content.length - 1) :=
        Nat.div_pos hlo (by positivity)
      omega
    simp only [hs, if_false, List.cons_append, List.append_assoc, readAnyASN1, htag, hnot,
      hmod, htake, hdrop, hval, hdiv]
    have c1 : ¬ (octetCount content.length = 0 ∨ octetCount content.length > 4 ∨
        (bytesBE (octetCount content.length) content.length ++ (content ++ rest)).length
          < octetCount content.length) := by
      simp [bytesBE_length]
      omega
    have c2 : ¬ (2 ^ 32 ≤ 2 + octetCount content.length + content.length) := by omega
    simp only [c1, c2, if_false, hs]
    simp

/-- What `ReadAnyASN1` accepts is a DER element shorter than `2^32` bytes. -/
theorem readAnyASN1_sound (s : List Nat) (hb : ∀ b ∈ s, b < 256) (tag : Nat)
    (content rest : List Nat) (h : readAnyASN1 s = some (tag, content, rest)) :
    s = derElement tag content ++ rest ∧ tag % 32 ≠ 31 ∧
      (derElement tag content).length < 2 ^ 32 := by
  match s, hb, h with
  | [], _, h => simp [readAnyASN1] at h
  | [_], _, h => simp [readAnyASN1] at h
  | t :: lenByte :: tl, hb, h =>
    have hlb : lenByte < 256 := hb lenByte (by simp)
    have htl : ∀ b ∈ tl, b < 256 := fun b hx => hb b (by simp [hx])
    simp only [readAnyASN1] at h
    split_ifs at h with h1 h2 h3 h4 h5 h6 h7 h8
    · -- short form
      simp only [Option.some.injEq, Prod.mk.injEq] at h
      obtain ⟨ht, hc, hr⟩ := h
      subst ht hc hr
      have hlen : (List.take lenByte tl).length = lenByte := by
        rw [List.length_take]; omega
      refine ⟨?_, h1, ?_⟩
      · simp [derElement, derLength, hlen, h2]
      · simp [derElement, derLength, hlen, h2]
        omega
    · -- long form
      simp only [Option.some.injEq, Prod.mk.injEq] at h
      obtain ⟨ht, hc, hr⟩ := h
      subst ht hc hr
      have hkb : lenByte % 128 ≠ 0 ∧ lenByte % 128 ≤ 4 ∧ lenByte % 128 ≤ tl.length := by
        omega
      have hLlen : (List.take (lenByte % 128) tl).length = lenByte % 128 := by
        rw [List.length_take]; omega
      have hLb : ∀ b ∈ List.take (lenByte % 128) tl, b < 256 :=
        fun b hx => htl b (List.mem_of_mem_take hx)
      have hlt := natOfBytes_lt _ hLb
      rw [hLlen] at hlt
      have hlo : 256 ^ (lenByte % 128 - 1) ≤ natOfBytes (List.take (lenByte % 128) tl) := by
        by_contra hc
        exact h6 (Nat.div_eq_of_lt (by omega))
      have hoc := octetCount_eq _ (lenByte % 128) (by omega) hlo hlt
      have hclen : (List.take (natOfBytes (List.take (lenByte % 128) tl))
          (List.drop (lenByte % 128) tl)).length
            = natOfBytes (List.take (lenByte % 128) tl) := by
        rw [List.length_take]; omega
      have hbe := bytesBE_natOfBytes _ hLb
      rw [hLlen] at hbe
      have hlb2 : lenByte = 128 + lenByte % 128 := by omega
      refine ⟨?_, h1, ?_⟩
      · simp only [derElement, derLength, hclen, h5, if_false, hoc, hbe]
        rw [← hlb2]
        simp
      · simp only [derElement, derLength, hclen, h5, if_false, hoc, hbe, List.length_cons,
          List.length_append, hLlen]
        omega

/-! ## Lemmas on DER integers and signatures -/

theorem checkASN1Integer_iff (bytes : List Nat) :
    checkASN1Integer bytes = true ↔
      bytes ≠ [] ∧ ∀ b0 b1 rest, bytes = b0 :: b1 :: rest →
        ¬ (b0 = 0 ∧ b1 < 128) ∧ ¬ (b0 = 255 ∧ 128 ≤ b1) := by
  match bytes with
  | [] => simp [checkASN1Integer]
  | [_] => simp [checkASN1Integer]
  | b0 :: b1 :: rest =>
    simp only [checkASN1Integer]
    constructor
    · intro h
      refine ⟨by simp, ?_⟩
      intro c0 c1 r he
      simp only [List.cons.injEq] at he
      obtain ⟨e0, e1, _⟩ := he
      subst e0 e1
      split_ifs at h with hc
      exact ⟨fun hx => hc (Or.inl hx), fun hx => hc (Or.inr hx)⟩
    · rintro ⟨_, h⟩
      obtain ⟨h1, h2⟩ := h b0 b1 rest rfl
      have : ¬ ((b0 = 0 ∧ b1 < 128) ∨ (b0 = 255 ∧ 128 ≤ b1)) := by
        rintro (hx | hx)
        · exact h1 hx
        · exact h2 hx
      simp [this]

theorem derInteger_value (bytes : List Nat) (hb : ∀ b ∈ bytes, b < 256) :
    (if 128 ≤ bytes.headD 0 then -(SetBytes (bytes.map (fun b => 255 - b)) + 1)
      else SetBytes bytes)
      = (natOfBytes bytes : Int)
        - (if 128 ≤ bytes.headD 0 then (256 : Int) ^ bytes.length else 0) := by
  split
  · have h := natOfBytes_complement bytes hb
    rw [SetBytes_eq_natOfBytes]
    have h2 : ((natOfBytes (bytes.map (fun b => 255 - b)) + natOfBytes bytes + 1 : Nat) : Int)
        = ((256 ^ bytes.length : Nat) : Int) := by rw [h]
    push_cast at h2
    linarith
  · rw [SetBytes_eq_natOfBytes]
    simp

theorem mem_of_mem_derElement_content (tag : Nat) (content rest : List Nat) (b : Nat)
    (h : b ∈ content) : b ∈ derElement tag content ++ rest := by
  simp [derElement, h]

theorem derElement_length_ge (tag : Nat) (content : List Nat) :
    content.length ≤ (derElement tag content).length := by
  simp [derElement]
  omega

theorem readASN1Integer_iff (s : List Nat) (hb : ∀ b ∈ s, b < 256) (v : Int)
    (rest : List Nat) :
    readASN1Integer s = some (v, rest) ↔
      ∃ content, IsDERInteger content v ∧ s = derElement 2 content ++ rest ∧
        (derElement 2 content).length < 2 ^ 32 := by
  constructor
  · intro h
    unfold readASN1Integer readASN1 at h
    cases hr : readAnyASN1 s with
    | none => simp [hr] at h
    | some x =>
      obtain ⟨t, bytes, rest1⟩ := x
      rw [hr] at h
      by_cases ht : t = 2
      · subst ht
        obtain ⟨hs, _, hlen⟩ := readAnyASN1_sound s hb 2 bytes rest1 hr
        have hbb : ∀ b ∈ bytes, b < 256 := by
          intro b hx
          apply hb
          rw [hs]
          exact mem_of_mem_derElement_content 2 bytes rest1 b hx
        simp only [ne_eq, not_true_eq_false, if_false] at h
        by_cases hc : checkASN1Integer bytes = false
        · simp [hc] at h
        · have hc2 : checkASN1Integer bytes = true := by simpa using hc
          have hval := derInteger_value bytes hbb
          obtain ⟨hne, hmin⟩ := (checkASN1Integer_iff bytes).mp hc2
          simp only [hc2, Bool.true_eq_false, if_false] at h
          by_cases hneg : 128 ≤ bytes.headD 0
          · simp only [hneg, if_true] at h hval
            injection h with h
            injection h with hv hr2
            subst hr2
            refine ⟨bytes, ⟨hne, hbb, hmin, ?_⟩, hs, hlen⟩
            simp only [hneg, if_true]
            rw [← hv, hval]
          · simp only [hneg, if_false] at h hval
            injection h with h
            injection h with hv hr2
            subst hr2
            refine ⟨bytes, ⟨hne, hbb, hmin, ?_⟩, hs, hlen⟩
            simp only [hneg, if_false]
            rw [← hv, hval]
      · simp [ht] at h
  · rintro ⟨content, ⟨hne, hbb, hmin, hv⟩, hs, hlen⟩
    have hr := readAnyASN1_derElement 2 content rest (by norm_num) hlen
    rw [← hs] at hr
    have hc : checkASN1Integer content = true := (checkASN1Integer_iff content).mpr ⟨hne, hmin⟩
    have hval := derInteger_value content hbb
    unfold readASN1Integer readASN1
    rw [hr]
    simp only [ne_eq, not_true_eq_false, if_false, hc, Bool.true_eq_false]
    rw [hv, ← hval]
    split <;> rfl

theorem derLength_lt (n : Nat) (hn : n < 2 ^ 32) : ∀ b ∈ derLength n, b < 256 := by
  unfold derLength
  split
  · intro b hb
    simp at hb
    omega
  · intro b hb
    have := octetCount_le_four n hn
    simp only [List.mem_cons] at hb
    rcases hb with hb | hb
    · omega
    · exact bytesBE_lt _ _ b hb

/-- The characterisation of the inputs that `decodeECDSASignatureASN1`
accepts. -/
theorem decodeECDSASignatureASN1_ok_iff (sig : List Nat) (hb : ∀ b ∈ sig, b < 256)
    (r s : Int) :
    decodeECDSASignatureASN1 sig = .ok (r, s) ↔
      (IsDERSignature sig r s ∧ sig.length < 2 ^ 32) := by
  constructor
  · intro h
    unfold decodeECDSASignatureASN1 readASN1 at h
    cases hr : readAnyASN1 sig with
    | none => simp [hr] at h
    | some x =>
      obtain ⟨t, inner, input⟩ := x
      rw [hr] at h
      by_cases ht : t = 0x30
      · subst ht
        simp only [ne_eq, not_true_eq_false, if_false] at h
        by_cases hin : input = []
        · subst hin
          simp only [ne_eq, not_true_eq_false, if_false] at h
          obtain ⟨hs, _, hlen⟩ := readAnyASN1_sound sig hb _ inner [] hr
          rw [List.append_nil] at hs
          have hbi : ∀ b ∈ inner, b < 256 := by
            intro b hx
            apply hb
            rw [hs]
            have := mem_of_mem_derElement_content 0x30 inner [] b hx
            simpa using this
          cases h1 : readASN1Integer inner with
          | none => simp [h1] at h
          | some y =>
            obtain ⟨r1, inner1⟩ := y
            rw [h1] at h
            simp only [] at h
            obtain ⟨rb, hrb, hi, _⟩ := (readASN1Integer_iff inner hbi r1 inner1).mp h1
            have hbi1 : ∀ b ∈ inner1, b < 256 := by
              intro b hx
              apply hbi
              rw [hi]
              exact List.mem_append_right _ hx
            cases h2 : readASN1Integer inner1 with
            | none => simp [h2] at h
            | some z =>
              obtain ⟨s1, inner2⟩ := z
              rw [h2] at h
              simp only [] at h
              by_cases hin2 : inner2 = []
              · subst hin2
                simp only [ne_eq, not_true_eq_false, if_false] at h
                injection h with h
                injection h with hr1 hs1
                subst hr1 hs1
                obtain ⟨sb, hsb, hi1, _⟩ := (readASN1Integer_iff inner1 hbi1 s1 []).mp h2
                rw [List.append_nil] at hi1
                refine ⟨⟨rb, sb, hrb, hsb, ?_⟩, ?_⟩
                · rw [hs, hi, hi1]
                · rw [hs]; exact hlen
              · simp [hin2] at h
        · simp [hin] at h
      · simp [ht] at h
  · rintro ⟨⟨rb, sb, hrb, hsb, hs⟩, hlen⟩
    have hlen0 : (derElement 0x30 (derElement 2 rb ++ derElement 2 sb)).length < 2 ^ 32 := by
      rw [← hs]; exact hlen
    have hge := derElement_length_ge 0x30 (derElement 2 rb ++ derElement 2 sb)
    rw [List.length_append] at hge
    have hr0 := readAnyASN1_derElement 0x30 (derElement 2 rb ++ derElement 2 sb) []
      (by norm_num) hlen0
    rw [List.append_nil, ← hs] at hr0
    have hbr : ∀ b ∈ derElement 2 rb ++ derElement 2 sb, b < 256 := by
      intro b hx
      apply hb
      rw [hs]
      have := mem_of_mem_derElement_content 0x30 _ [] b hx
      simpa using this
    have h1 : readASN1Integer (derElement 2 rb ++ derElement 2 sb)
        = some (r, derElement 2 sb) :=
      (readASN1Integer_iff _ hbr r _).mpr ⟨rb, hrb, rfl, by omega⟩
    have hbs : ∀ b ∈ derElement 2 sb, b < 256 :=
      fun b hx => hbr b (List.mem_append_right _ hx)
    have h2 : readASN1Integer (derElement 2 sb) = some (s, []) :=
      (readASN1Integer_iff _ hbs s []).mpr ⟨sb, hsb, by simp, by omega⟩
    unfold decodeECDSASignatureASN1 readASN1
    rw [hr0]
    simp [h1, h2]

theorem decodeECDSASignatureASN1_error_or_ok (sig : List Nat) :
    decodeECDSASignatureASN1 sig
        = .error (.new "ecdsa: invalid signature: invalid ASN.1 encoding") ∨
      ∃ r s, decodeECDSASignatureASN1 sig = .ok (r, s) := by
  unfold decodeECDSASignatureASN1
  repeat' split
  all_goals first
    | exact Or.inl rfl
    | exact Or.inr ⟨_, _, rfl⟩

theorem decodeECDSASignatureASN1_long (rb sb : List Nat) (hr : rb.length = 2 ^ 32)
    (hs : sb.length = 1) :
    decodeECDSASignatureASN1 (derElement 0x30 (derElement 2 rb ++ derElement 2 sb))
      = .error (.new "ecdsa: invalid signature: invalid ASN.1 encoding") := by
  have e1 : derLength (2 ^ 32) = [133, 1, 0, 0, 0, 0] := by decide
  have e2 : derLength 1 = [1] := by decide
  have e3 : derLength (2 ^ 32 + 10) = [133, 1, 0, 0, 0, 10] := by decide
  have hlen : (derElement 2 rb ++ derElement 2 sb).length = 2 ^ 32 + 10 := by
    simp only [derElement, List.length_append, List.length_cons, hr, hs, e1, e2,
      List.length_singleton, List.length_nil]
    norm_num
  have hsig : derElement 0x30 (derElement 2 rb ++ derElement 2 sb)
      = 0x30 :: 133 :: ([1, 0, 0, 0, 10] ++ (derElement 2 rb ++ derElement 2 sb)) := by
    generalize derElement 2 rb ++ derElement 2 sb = body at hlen
    rw [derElement, hlen, e3]
    rfl
  rw [hsig]
  generalize [1, 0, 0, 0, 10] ++ (derElement 2 rb ++ derElement 2 sb) = tl
  have h1 : ¬ (0x30 % 32 = 31) := by decide
  have h2 : ¬ (133 < 128) := by decide
  have h3 : (133 % 128 = 0 ∨ 133 % 128 > 4 ∨ tl.length < 133 % 128) :=
    Or.inr (Or.inl (by decide))
  simp only [decodeECDSASignatureASN1, readASN1, readAnyASN1, h1, h2, h3, if_true, if_false]

theorem isDERInteger_replicate_one (n : Nat) (hn : 0 < n) :
    IsDERInteger (List.replicate n 1) (natOfBytes (List.replicate n 1) : Int) := by
  generalize hl : List.replicate n 1 = l
  have hlen : l.length = n := by rw [← hl, List.length_replicate]
  have hmem : ∀ b ∈ l, b = 1 := by
    intro b hb
    rw [← hl] at hb
    exact List.eq_of_mem_replicate hb
  refine ⟨?_, ?_, ?_, ?_⟩
  · intro h
    rw [h] at hlen
    simp at hlen
    omega
  · intro b hbm
    have := hmem b hbm
    omega
  · intro b0 b1 rest he
    have h0 : b0 = 1 := hmem b0 (by rw [he]; simp)
    subst h0
    constructor
    · rintro ⟨h, _⟩; cases h
    · rintro ⟨h, _⟩; cases h
  · have hh : l.headD 0 = 1 := by
      cases l with
      | nil => simp at hlen; omega
      | cons a t => exact hmem a (by simp)
    have hh2 : ¬ (128 ≤ l.headD 0) := by rw [hh]; decide
    rw [if_neg hh2]
    simp

theorem isDERInteger_one : IsDERInteger [1] 1 := by
  refine ⟨by simp, by simp, ?_, by simp [natOfBytes]⟩
  intro b0 b1 rest he
  cases he

/-- Claim C19 as stated fails on a long input: `hugeSignature` is a well-formed
DER `SEQUENCE { INTEGER r, INTEGER s }` of more than `2^32` bytes; its length
takes five octets, `ReadASN1` reads at most four, and the call returns the
error. -/
theorem decodeECDSASignatureASN1_rejects_huge :
    IsDERSignature hugeSignature (natOfBytes (List.replicate (2 ^ 32) 1) : Int) 1 ∧
    decodeECDSASignatureASN1 hugeSignature
      = .error (.new "ecdsa: invalid signature: invalid ASN.1 encoding") :=
  ⟨⟨List.replicate (2 ^ 32) 1, [1], isDERInteger_replicate_one _ (Nat.pos_pow_of_pos _ (by decide)),
      isDERInteger_one, rfl⟩,
    decodeECDSASignatureASN1_long _ _ (List.length_replicate _ _) rfl⟩

/-- Claim C19, amended: for every byte string `sig`, `decodeECDSASignatureASN1`
returns `(r, s)` exactly when `sig` is the DER encoding of
`SEQUENCE { INTEGER r, INTEGER s }` and is shorter than `2^32` bytes; on every
other input it returns the invalid-encoding error: in particular on a sequence
of three integers, on a valid two-integer sequence followed by a trailing byte,
on input whose leading tag is not SEQUENCE, and on input of `2^32` bytes or
more. -/
theorem decodeECDSASignatureASN1_spec (sig : List Nat) (hb : ∀ b ∈ sig, b < 256) :
    (∀ r s, decodeECDSASignatureASN1 sig = .ok (r, s) ↔
      (IsDERSignature sig r s ∧ sig.length < 2 ^ 32)) ∧
    ((∀ r s, ¬ IsDERSignature sig r s) →
      decodeECDSASignatureASN1 sig
        = .error (.new "ecdsa: invalid signature: invalid ASN.1 encoding")) ∧
    (2 ^ 32 ≤ sig.length →
      decodeECDSASignatureASN1 sig
        = .error (.new "ecdsa: invalid signature: invalid ASN.1 encoding")) ∧
    decodeECDSASignatureASN1 [0x30, 9, 2, 1, 1, 2, 1, 2, 2, 1, 3]
      = .error (.new "ecdsa: invalid signature: invalid ASN.1 encoding") ∧
    decodeECDSASignatureASN1 [0x30, 6, 2, 1, 1, 2, 1, 2, 0]
      = .error (.new "ecdsa: invalid signature: invalid ASN.1 encoding") ∧
    decodeECDSASignatureASN1 [0x31, 6, 2, 1, 1, 2, 1, 2]
      = .error (.new "ecdsa: invalid signature: invalid ASN.1 encoding") := by
  have key := decodeECDSASignatureASN1_ok_iff sig hb
  refine ⟨key, ?_, ?_, by decide, by decide, by decide⟩
  · intro hno
    rcases decodeECDSASignatureASN1_error_or_ok sig with h | ⟨r, s, h⟩
    · exact h
    · exact absurd ((key r s).mp h).1 (hno r s)
  · intro hlen
    rcases decodeECDSASignatureASN1_error_or_ok sig with h | ⟨r, s, h⟩
    · exact h
    · have := ((key r s).mp h).2
      omega

theorem decodeECDSASignatureASN1_spec_witness :
    (∀ b ∈ [0x30, 6, 2, 1, 1, 2, 1, 2], b < 256) ∧
    decodeECDSASignatureASN1 [0x30, 6, 2, 1, 1, 2, 1, 2] = .ok (1, 2) ∧
    IsDERSignature [0x30, 6, 2, 1, 1, 2, 1, 2] 1 2 :=
  ⟨by decide, by decide,
    (((decodeECDSASignatureASN1_spec [0x30, 6, 2, 1, 1, 2, 1, 2] (by decide)).1 1 2).mp
      (by decide)).1⟩

/-! ## Lemmas on CBOR heads and text -/

theorem decodeHead_wide (b k n major : Nat) (rest : List Nat)
    (hmaj : b / 32 = major) (hn : n < 256 ^ k) :
    (if (bytesBE k n ++ rest).length < k then none
      else some (b / 32, natOfBytes ((bytesBE k n ++ rest).take k),
        (bytesBE k n ++ rest).drop k)) = some (major, n, rest) := by
  have h1 : ¬ (bytesBE k n ++ rest).length < k := by
    simp [bytesBE_length]
  rw [if_neg h1, List.take_left' (bytesBE_length _ _), List.drop_left' (bytesBE_length _ _),
    natOfBytes_bytesBE, Nat.mod_eq_of_lt hn, hmaj]

theorem decodeHead_cborHead (major n : Nat) (rest : List Nat) (hmaj : major < 7)
    (hn : n < 2 ^ 64) :
    decodeHead (cborHead major n ++ rest) = some (major, n, rest) := by
  unfold cborHead
  by_cases h1 : n < 24
  · have hb : ¬ 256 ≤ major * 32 + n := by omega
    have hm : (major * 32 + n) % 32 = n := by omega
    have hd : (major * 32 + n) / 32 = major := by omega
    simp only [h1, if_true, List.singleton_append, decodeHead, hb, if_false, hm, hd]
  · by_cases h2 : n < 2 ^ 8
    · have hb : ¬ 256 ≤ major * 32 + 24 := by omega
      have hm : (major * 32 + 24) % 32 = 24 := by omega
      have hd : (major * 32 + 24) / 32 = major := by omega
      have h7 : ¬ major = 7 := by omega
      simp only [h1, h2, if_true, if_false, List.cons_append, List.nil_append, decodeHead, hb,
        hm]
      simp [natOfBytes, hd, h7]
    · by_cases h3 : n < 2 ^ 16
      · have hb : major * 32 + 25 < 256 := by omega
        have hb' : ¬ 256 ≤ major * 32 + 25 := by omega
        have hm : (major * 32 + 25) % 32 = 25 := by omega
        have hd : (major * 32 + 25) / 32 = major := by omega
        simp only [h1, h2, h3, if_true, if_false, List.cons_append, decodeHead, hb', hm]
        simp only [show ¬ (25 < 24) by decide, show ¬ (25 = 24) by decide, if_false, if_true]
        exact decodeHead_wide _ 2 n major rest hd (by norm_num; omega)
      · by_cases h4 : n < 2 ^ 32
        · have hb : major * 32 + 26 < 256 := by omega
          have hb' : ¬ 256 ≤ major * 32 + 26 := by omega
          have hm : (major * 32 + 26) % 32 = 26 := by omega
          have hd : (major * 32 + 26) / 32 = major := by omega
          simp only [h1, h2, h3, h4, if_true, if_false, List.cons_append, decodeHead, hb', hm]
          simp only [show ¬ (26 < 24) by decide, show ¬ (26 = 24) by decide,
            show ¬ (26 = 25) by decide, if_false, if_true]
          exact decodeHead_wide _ 4 n major rest hd (by norm_num; omega)
        · have hb : major * 32 + 27 < 256 := by omega
          have hb' : ¬ 256 ≤ major * 32 + 27 := by omega
          have hm : (major * 32 + 27) % 32 = 27 := by omega
          have hd : (major * 32 + 27) / 32 = major := by omega
          simp only [h1, h2, h3, h4, if_true, if_false, List.cons_append, decodeHead, hb', hm]
          simp only [show ¬ (27 < 24) by decide, show ¬ (27 = 24) by decide,
            show ¬ (27 = 25) by decide, show ¬ (27 = 26) by decide, if_false, if_true]
          exact decodeHead_wide _ 8 n major rest hd (by norm_num; omega)

theorem cborHead_length_pos (major n : Nat) : 0 < (cborHead major n).length := by
  unfold cborHead
  split_ifs <;> simp

theorem cborHead_headD (major n : Nat) (hmaj : major < 8) :
    (cborHead major n).headD 0 / 32 = major ∧ (cborHead major n).headD 0 < 256 := by
  unfold cborHead
  split_ifs <;> simp <;> omega


theorem char_toNat_valid (c : Char) :
    c.toNat < 0xD800 ∨ (0xDFFF < c.toNat ∧ c.toNat < 0x110000) := by
  have h := c.valid
  unfold UInt32.isValidChar Nat.isValidChar at h
  exact h

theorem utf8DecodeChar_encodeChar (c : Char) (rest : List Nat) :
    utf8DecodeChar (utf8EncodeChar c ++ rest) = some (c, rest) := by
  have hv := char_toNat_valid c
  have hc : Char.ofNat c.toNat = c := Char.ofNat_toNat c
  unfold utf8EncodeChar
  by_cases h1 : c.toNat < 0x80
  · simp only [h1, if_true, List.singleton_append, utf8DecodeChar, hc]
  · by_cases h2 : c.toNat < 0x800
    · simp only [h1, h2, if_true, if_false, List.cons_append, List.nil_append, utf8DecodeChar]
      have a1 : ¬ (0xC0 + c.toNat / 64 < 0x80) := by omega
      have a2 : ¬ (0xC0 + c.toNat / 64 < 0xC2) := by omega
      have a3 : 0xC0 + c.toNat / 64 < 0xE0 := by omega
      have a4 : utf8Cont (0x80 + c.toNat % 64) = true := by
        simp [utf8Cont]; omega
      have a5 : (0xC0 + c.toNat / 64 - 0xC0) * 64 + (0x80 + c.toNat % 64 - 0x80) = c.toNat := by
        omega
      simp only [a1, a2, a3, a4, a5, if_true, if_false, hc]
    · by_cases h3 : c.toNat < 0x10000
      · simp only [h1, h2, h3, if_true, if_false, List.cons_append, List.nil_append,
          utf8DecodeChar]
        have a1 : ¬ (0xE0 + c.toNat / 4096 < 0x80) := by omega
        have a2 : ¬ (0xE0 + c.toNat / 4096 < 0xC2) := by omega
        have a3 : ¬ (0xE0 + c.toNat / 4096 < 0xE0) := by omega
        have a3' : 0xE0 + c.toNat / 4096 < 0xF0 := by omega
        have a4 : utf8Cont (0x80 + c.toNat / 64 % 64) = true := by
          simp [utf8Cont]; omega
        have a4' : utf8Cont (0x80 + c.toNat % 64) = true := by
          simp [utf8Cont]; omega
        have a5 : (0xE0 + c.toNat / 4096 - 0xE0) * 4096 + (0x80 + c.toNat / 64 % 64 - 0x80) * 64
            + (0x80 + c.toNat % 64 - 0x80) = c.toNat := by omega
        have a6 : 0x800 ≤ c.toNat := by omega
        have a7 : ¬ (0xD800 ≤ c.toNat ∧ c.toNat < 0xE000) := by omega
        simp only [a1, a2, a3, a3', a4, a4', a5, if_true, if_false, hc]
        simp [a6, a7, hc]
      · simp only [h1, h2, h3, if_true, if_false, List.cons_append, List.nil_append,
          utf8DecodeChar]
        have a1 : ¬ (0xF0 + c.toNat / 262144 < 0x80) := by omega
        have a2 : ¬ (0xF0 + c.toNat / 262144 < 0xC2) := by omega
        have a3 : ¬ (0xF0 + c.toNat / 262144 < 0xE0) := by omega
        have a3' : ¬ (0xF0 + c.toNat / 262144 < 0xF0) := by omega
        have a3'' : 0xF0 + c.toNat / 262144 < 0xF5 := by omega
        have a4 : utf8Cont (0x80 + c.toNat / 4096 % 64) = true := by
          simp [utf8Cont]; omega
        have a4' : utf8Cont (0x80 + c.toNat / 64 % 64) = true := by
          simp [utf8Cont]; omega
        have a4'' : utf8Cont (0x80 + c.toNat % 64) = true := by
          simp [utf8Cont]; omega
        have a5 : (0xF0 + c.toNat / 262144 - 0xF0) * 262144
            + (0x80 + c.toNat / 4096 % 64 - 0x80) * 4096
            + (0x80 + c.toNat / 64 % 64 - 0x80) * 64
            + (0x80 + c.toNat % 64 - 0x80) = c.toNat := by omega
        have a6 : 0x10000 ≤ c.toNat := by omega
        have a7 : c.toNat < 0x110000 := by omega
        simp only [a1, a2, a3, a3', a3'', a4, a4', a4'', a5, if_true, if_false]
        simp [a6, a7, hc]

theorem utf8EncodeChar_length_pos (c : Char) : 0 < (utf8EncodeChar c).length := by
  unfold utf8EncodeChar
  split_ifs <;> simp

theorem utf8EncodeChar_ne_nil (c : Char) (rest : List Nat) :
    ∃ b bs, utf8EncodeChar c ++ rest = b :: bs := by
  unfold utf8EncodeChar
  split_ifs <;> simp

theorem utf8EncodeChars_length_ge (cs : List Char) : cs.length ≤ (utf8EncodeChars cs).length := by
  induction cs with
  | nil => simp [utf8EncodeChars]
  | cons c cs ih =>
    have := utf8EncodeChar_length_pos c
    simp only [utf8EncodeChars, List.length_cons, List.length_append]
    omega

theorem utf8DecodeLoop_encodeChars (cs : List Char) :
    ∀ fuel, cs.length ≤ fuel → utf8DecodeLoop fuel (utf8EncodeChars cs) = some cs := by
  induction cs with
  | nil => intro fuel _; cases fuel <;> simp [utf8EncodeChars, utf8DecodeLoop]
  | cons c cs ih =>
    intro fuel hf
    cases fuel with
    | zero => simp at hf
    | succ fuel =>
      obtain ⟨b, bs, hb⟩ := utf8EncodeChar_ne_nil c (utf8EncodeChars cs)
      have hd := utf8DecodeChar_encodeChar c (utf8EncodeChars cs)
      simp only [utf8EncodeChars]
      rw [hb] at hd ⊢
      rw [utf8DecodeLoop, hd]
      simp only [ih fuel (by simpa using hf)]

theorem utf8DecodeChars_encodeChars (cs : List Char) :
    utf8DecodeChars (utf8EncodeChars cs) = some cs :=
  utf8DecodeLoop_encodeChars cs _ (utf8EncodeChars_length_ge cs)

theorem utf8DecodeChars_utf8Encode (s : String) :
    (utf8DecodeChars (utf8Encode s)).map String.mk = some s := by
  simp [utf8Encode, utf8DecodeChars_encodeChars]

/-! ## Lemmas on the encoding and decoding of values -/

theorem decodeValues_zero (fuel : Nat) (bs : List Nat) :
    decodeValues fuel 0 bs = some ([], bs) := by
  cases fuel <;> rfl

theorem decodeValues_succ (fuel n : Nat) (bs : List Nat) :
    decodeValues (fuel + 1) (n + 1) bs =
      match decodeValue fuel bs with
      | none => none
      | some (v, rest) =>
        match decodeValues fuel n rest with
        | none => none
        | some (vs, rest1) => some (v :: vs, rest1) := rfl

theorem skipItems_zero (fuel depth : Nat) (bs : List Nat) :
    skipItems fuel depth 0 bs = some bs := by
  cases fuel <;> rfl

theorem skipItems_succ (fuel depth n : Nat) (bs : List Nat) :
    skipItems (fuel + 1) depth (n + 1) bs =
      match skipItem fuel depth bs with
      | none => none
      | some rest => skipItems fuel depth n rest := rfl

theorem skipItem_succ (fuel depth : Nat) (bs : List Nat) :
    skipItem (fuel + 1) depth bs =
      match decodeHead bs with
      | none => none
      | some (major, n, rest) =>
        if major = 0 ∨ major = 1 ∨ major = 7 then some rest
        else if major = 2 ∨ major = 3 then
          if rest.length < n then none else some (rest.drop n)
        else if major = 4 then
          if maxNestedLevels < depth + 1 then none
          else if maxArrayElements < n then none
          else skipItems fuel (depth + 1) n rest
        else if major = 5 then
          if maxNestedLevels < depth + 1 then none
          else if maxMapPairs < n then none
          else skipItems fuel (depth + 1) (2 * n) rest
        else if major = 6 then skipTagged fuel depth rest
        else none := rfl

theorem decodeValue_cborInt (v : Int) (hlo : -(2 ^ 63) ≤ v) (hhi : v < 2 ^ 63)
    (fuel : Nat) (rest : List Nat) :
    decodeValue (fuel + 1) (cborInt v ++ rest) = some (.integer .int64 v, rest) := by
  unfold cborInt
  by_cases h0 : 0 ≤ v
  · have hn : v.toNat < 2 ^ 63 := by omega
    have hv : ((v.toNat : Nat) : Int) = v := Int.toNat_of_nonneg h0
    rw [if_pos h0, decodeValue, decodeHead_cborHead 0 _ rest (by decide) (by omega)]
    simp only [if_true, hn, hv]
  · have hn : (-1 - v).toNat < 2 ^ 63 := by omega
    have hv : -1 - (((-1 - v).toNat : Nat) : Int) = v := by omega
    rw [if_neg h0, decodeValue, decodeHead_cborHead 1 _ rest (by decide) (by omega)]
    simp only [show ¬ (1 = 0) by decide, if_false, if_true, hn, hv]

theorem cborInt_length_pos (v : Int) : 0 < (cborInt v).length := by
  unfold cborInt
  split_ifs <;> exact cborHead_length_pos _ _

theorem decodeValue_string (s : String) (hl : (utf8Encode s).length < 2 ^ 64)
    (fuel : Nat) (rest : List Nat) :
    decodeValue (fuel + 1) (cborHead 3 (utf8Encode s).length ++ utf8Encode s ++ rest)
      = some (.string s, rest) := by
  rw [List.append_assoc, decodeValue, decodeHead_cborHead 3 _ _ (by decide) hl]
  have h1 : ¬ (utf8Encode s ++ rest).length < (utf8Encode s).length := by simp
  simp only [show ¬ (3 = 0) by decide, show ¬ (3 = 1) by decide, show ¬ (3 = 2) by decide,
    if_false, if_true, h1, List.take_left' rfl, List.drop_left' rfl]
  simp [utf8Encode, utf8DecodeChars_encodeChars]

theorem encodeMapValues_ok_inv (v : Value) (vs : List Value) (bs : List Nat)
    (h : encodeMapValues (v :: vs) = .ok bs) :
    ∃ b1 b2, encodeMapValue v = .ok b1 ∧ encodeMapValues vs = .ok b2 ∧ bs = b1 ++ b2 := by
  rw [encodeMapValues] at h
  cases h1 : encodeMapValue v with
  | error e => rw [h1] at h; cases h
  | ok b1 =>
    cases h2 : encodeMapValues vs with
    | error e => rw [h1, h2] at h; cases h
    | ok b2 =>
      rw [h1, h2] at h
      injection h with h
      exact ⟨b1, b2, rfl, rfl, h.symm⟩

theorem encodeMapValue_array_inv (items : List Value) (bs : List Nat)
    (h : encodeMapValue (.array items) = .ok bs) :
    ∃ b1, encodeMapValues items = .ok b1 ∧ bs = cborHead 4 items.length ++ b1 := by
  rw [encodeMapValue] at h
  cases h1 : encodeMapValues items with
  | error e => rw [h1] at h; cases h
  | ok b1 =>
    rw [h1] at h
    injection h with h
    exact ⟨b1, rfl, h.symm⟩

mutual
theorem encodeMapValue_length_pos : ∀ (v : Value) (bs : List Nat),
    encodeMapValue v = .ok bs → 0 < bs.length
  | .integer k n, bs, h => by
    simp only [encodeMapValue, Except.ok.injEq] at h
    subst h; exact cborInt_length_pos n
  | .algorithm a, bs, h => by
    simp only [encodeMapValue, Except.ok.injEq] at h
    subst h; exact cborInt_length_pos a
  | .string s, bs, h => by
    simp only [encodeMapValue, Except.ok.injEq] at h
    subst h
    have := cborHead_length_pos 3 (utf8Encode s).length
    simp only [List.length_append]; omega
  | .bool b, bs, h => by simp [encodeMapValue] at h
  | .bytes b, bs, h => by simp [encodeMapValue] at h
  | .bigInt b, bs, h => by simp [encodeMapValue] at h
  | .null, bs, h => by simp [encodeMapValue] at h
  | .float _ _, bs, h => by simp [encodeMapValue] at h
  | .simple _, bs, h => by simp [encodeMapValue] at h
  | .tag _ _, bs, h => by simp [encodeMapValue] at h
  | .map _ _, bs, h => by simp [encodeMapValue] at h
  | .array items, bs, h => by
    obtain ⟨b1, _, rfl⟩ := encodeMapValue_array_inv items bs h
    have := cborHead_length_pos 4 items.length
    simp only [List.length_append]; omega
theorem encodeMapValues_length_ge : ∀ (vs : List Value) (bs : List Nat),
    encodeMapValues vs = .ok bs → vs.length ≤ bs.length
  | [], bs, h => by simp
  | v :: vs, bs, h => by
    obtain ⟨b1, b2, h1, h2, rfl⟩ := encodeMapValues_ok_inv v vs bs h
    have := encodeMapValue_length_pos v b1 h1
    have := encodeMapValues_length_ge vs b2 h2
    simp only [List.length_append, List.length_cons]; omega
end

mutual
theorem decodeValue_encodeMapValue : ∀ (v : Value) (bs : List Nat),
    encodeMapValue v = .ok bs → v.inInt64 = true → bs.length < 2 ^ 64 →
    ∀ (fuel : Nat) (rest : List Nat), 2 * bs.length ≤ fuel + 1 →
      decodeValue fuel (bs ++ rest) = some (v.decoded, rest)
  | .integer k n, bs, h, hr, hl, fuel, rest, hf => by
    simp only [encodeMapValue, Except.ok.injEq] at h
    subst h
    have := cborInt_length_pos n
    obtain ⟨f, rfl⟩ : ∃ f, fuel = f + 1 := ⟨fuel - 1, by omega⟩
    simp only [Value.inInt64, Bool.and_eq_true, decide_eq_true_eq] at hr
    exact decodeValue_cborInt n hr.1 hr.2 f rest
  | .algorithm a, bs, h, hr, hl, fuel, rest, hf => by
    simp only [encodeMapValue, Except.ok.injEq] at h
    subst h
    have := cborInt_length_pos a
    obtain ⟨f, rfl⟩ : ∃ f, fuel = f + 1 := ⟨fuel - 1, by omega⟩
    simp only [Value.inInt64, Bool.and_eq_true, decide_eq_true_eq] at hr
    exact decodeValue_cborInt a hr.1 hr.2 f rest
  | .string s, bs, h, hr, hl, fuel, rest, hf => by
    simp only [encodeMapValue, Except.ok.injEq] at h
    subst h
    have := cborHead_length_pos 3 (utf8Encode s).length
    simp only [List.length_append] at hl hf
    obtain ⟨f, rfl⟩ : ∃ f, fuel = f + 1 := ⟨fuel - 1, by omega⟩
    exact decodeValue_string s (by omega) f rest
  | .bool b, bs, h, hr, hl, fuel, rest, hf => by simp [encodeMapValue] at h
  | .bytes b, bs, h, hr, hl, fuel, rest, hf => by simp [encodeMapValue] at h
  | .bigInt b, bs, h, hr, hl, fuel, rest, hf => by simp [encodeMapValue] at h
  | .null, bs, h, hr, hl, fuel, rest, hf => by simp [encodeMapValue] at h
  | .float _ _, bs, h, hr, hl, fuel, rest, hf => by simp [encodeMapValue] at h
  | .simple _, bs, h, hr, hl, fuel, rest, hf => by simp [encodeMapValue] at h
  | .tag _ _, bs, h, hr, hl, fuel, rest, hf => by simp [encodeMapValue] at h
  | .map _ _, bs, h, hr, hl, fuel, rest, hf => by simp [encodeMapValue] at h
  | .array items, bs, h, hr, hl, fuel, rest, hf => by
    obtain ⟨b1, h1, rfl⟩ := encodeMapValue_array_inv items _ h
    have hp := cborHead_length_pos 4 items.length
    simp only [List.length_append] at hl hf
    obtain ⟨f, rfl⟩ : ∃ f, fuel = f + 1 := ⟨fuel - 1, by omega⟩
    have hlen := encodeMapValues_length_ge items b1 h1
    have ih := decodeValues_encodeMapValues items b1 h1 (by simpa [Value.inInt64] using hr)
      (by omega) f rest (by omega)
    rw [List.append_assoc, decodeValue, decodeHead_cborHead 4 _ _ (by decide) (by omega)]
    simp only [show ¬ (4 = 0) by decide, show ¬ (4 = 1) by decide, show ¬ (4 = 2) by decide,
      show ¬ (4 = 3) by decide, if_false, if_true, ih, Value.decoded]
theorem decodeValues_encodeMapValues : ∀ (vs : List Value) (bs : List Nat),
    encodeMapValues vs = .ok bs → Value.allInInt64 vs = true → bs.length < 2 ^ 64 →
    ∀ (fuel : Nat) (rest : List Nat), 2 * bs.length ≤ fuel →
      decodeValues fuel vs.length (bs ++ rest) = some (Value.decodedList vs, rest)
  | [], bs, h, hr, hl, fuel, rest, hf => by
    simp only [encodeMapValues, Except.ok.injEq] at h
    subst h
    simp [decodeValues_zero, Value.decodedList]
  | v :: vs, bs, h, hr, hl, fuel, rest, hf => by
    obtain ⟨b1, b2, h1, h2, rfl⟩ := encodeMapValues_ok_inv v vs bs h
    have hp := encodeMapValue_length_pos v b1 h1
    simp only [List.length_append] at hl hf
    obtain ⟨f, rfl⟩ : ∃ f, fuel = f + 1 := ⟨fuel - 1, by omega⟩
    simp only [Value.allInInt64, Bool.and_eq_true] at hr
    have e1 := decodeValue_encodeMapValue v b1 h1 hr.1 (by omega) f (b2 ++ rest) (by omega)
    have e2 := decodeValues_encodeMapValues vs b2 h2 hr.2 (by omega) f rest (by omega)
    rw [List.append_assoc, List.length_cons, decodeValues_succ, e1]
    simp only [e2, Value.decodedList]
end

mutual
theorem encodeMapValue_decoded : ∀ (v : Value) (bs : List Nat),
    encodeMapValue v = .ok bs → encodeMapValue v.decoded = .ok bs
  | .integer k n, bs, h => by simpa [encodeMapValue, Value.decoded] using h
  | .algorithm a, bs, h => by simpa [encodeMapValue, Value.decoded] using h
  | .string s, bs, h => by simpa [encodeMapValue, Value.decoded] using h
  | .bool b, bs, h => by simp [encodeMapValue] at h
  | .bytes b, bs, h => by simp [encodeMapValue] at h
  | .bigInt b, bs, h => by simp [encodeMapValue] at h
  | .null, bs, h => by simp [encodeMapValue] at h
  | .float _ _, bs, h => by simp [encodeMapValue] at h
  | .simple _, bs, h => by simp [encodeMapValue] at h
  | .tag _ _, bs, h => by simp [encodeMapValue] at h
  | .map _ _, bs, h => by simp [encodeMapValue] at h
  | .array items, bs, h => by
    obtain ⟨b1, h1, rfl⟩ := encodeMapValue_array_inv items _ h
    have ih := encodeMapValues_decodedList items b1 h1
    simp only [Value.decoded, encodeMapValue, ih.1, ih.2]
theorem encodeMapValues_decodedList : ∀ (vs : List Value) (bs : List Nat),
    encodeMapValues vs = .ok bs →
      encodeMapValues (Value.decodedList vs) = .ok bs ∧
      (Value.decodedList vs).length = vs.length
  | [], bs, h => by simpa [Value.decodedList] using h
  | v :: vs, bs, h => by
    obtain ⟨b1, b2, h1, h2, rfl⟩ := encodeMapValues_ok_inv v vs bs h
    have e1 := encodeMapValue_decoded v b1 h1
    have e2 := encodeMapValues_decodedList vs b2 h2
    simp only [Value.decodedList, encodeMapValues, e1, e2.1, e2.2, List.length_cons, and_self]
end

theorem skipItem_cborInt (v : Int) (hlo : -(2 ^ 63) ≤ v) (hhi : v < 2 ^ 63)
    (fuel depth : Nat) (rest : List Nat) :
    skipItem (fuel + 1) depth (cborInt v ++ rest) = some rest := by
  unfold cborInt
  by_cases h0 : 0 ≤ v
  · rw [if_pos h0, skipItem_succ, decodeHead_cborHead 0 _ rest (by decide) (by omega)]
    simp
  · rw [if_neg h0, skipItem_succ, decodeHead_cborHead 1 _ rest (by decide) (by omega)]
    simp

theorem skipItem_string (s : String) (hl : (utf8Encode s).length < 2 ^ 64)
    (fuel depth : Nat) (rest : List Nat) :
    skipItem (fuel + 1) depth (cborHead 3 (utf8Encode s).length ++ utf8Encode s ++ rest)
      = some rest := by
  rw [List.append_assoc, skipItem_succ, decodeHead_cborHead 3 _ _ (by decide) hl]
  simp

mutual
theorem skipItem_encodeMapValue : ∀ (v : Value) (bs : List Nat),
    encodeMapValue v = .ok bs → v.inInt64 = true → bs.length < 2 ^ 64 →
    ∀ (depth fuel : Nat) (rest : List Nat), v.withinLimits depth = true →
      2 * bs.length ≤ fuel + 1 → skipItem fuel depth (bs ++ rest) = some rest
  | .integer k n, bs, h, hr, hl, depth, fuel, rest, hw, hf => by
    simp only [encodeMapValue, Except.ok.injEq] at h
    subst h
    have := cborInt_length_pos n
    obtain ⟨f, rfl⟩ : ∃ f, fuel = f + 1 := ⟨fuel - 1, by omega⟩
    simp only [Value.inInt64, Bool.and_eq_true, decide_eq_true_eq] at hr
    exact skipItem_cborInt n hr.1 hr.2 f depth rest
  | .algorithm a, bs, h, hr, hl, depth, fuel, rest, hw, hf => by
    simp only [encodeMapValue, Except.ok.injEq] at h
    subst h
    have := cborInt_length_pos a
    obtain ⟨f, rfl⟩ : ∃ f, fuel = f + 1 := ⟨fuel - 1, by omega⟩
    simp only [Value.inInt64, Bool.and_eq_true, decide_eq_true_eq] at hr
    exact skipItem_cborInt a hr.1 hr.2 f depth rest
  | .string s, bs, h, hr, hl, depth, fuel, rest, hw, hf => by
    simp only [encodeMapValue, Except.ok.injEq] at h
    subst h
    have := cborHead_length_pos 3 (utf8Encode s).length
    simp only [List.length_append] at hl hf
    obtain ⟨f, rfl⟩ : ∃ f, fuel = f + 1 := ⟨fuel - 1, by omega⟩
    exact skipItem_string s (by omega) f depth rest
  | .bool b, bs, h, hr, hl, depth, fuel, rest, hw, hf => by simp [encodeMapValue] at h
  | .bytes b, bs, h, hr, hl, depth, fuel, rest, hw, hf => by simp [encodeMapValue] at h
  | .bigInt b, bs, h, hr, hl, depth, fuel, rest, hw, hf => by simp [encodeMapValue] at h
  | .null, bs, h, hr, hl, depth, fuel, rest, hw, hf => by simp [encodeMapValue] at h
  | .float _ _, bs, h, hr, hl, depth, fuel, rest, hw, hf => by simp [encodeMapValue] at h
  | .simple _, bs, h, hr, hl, depth, fuel, rest, hw, hf => by simp [encodeMapValue] at h
  | .tag _ _, bs, h, hr, hl, depth, fuel, rest, hw, hf => by simp [encodeMapValue] at h
  | .map _ _, bs, h, hr, hl, depth, fuel, rest, hw, hf => by simp [encodeMapValue] at h
  | .array items, bs, h, hr, hl, depth, fuel, rest, hw, hf => by
    obtain ⟨b1, h1, rfl⟩ := encodeMapValue_array_inv items _ h
    have hp := cborHead_length_pos 4 items.length
    simp only [List.length_append] at hl hf
    obtain ⟨f, rfl⟩ : ∃ f, fuel = f + 1 := ⟨fuel - 1, by omega⟩
    have hlen := encodeMapValues_length_ge items b1 h1
    simp only [Value.withinLimits, Bool.and_eq_true, decide_eq_true_eq] at hw
    have ih := skipItems_encodeMapValues items b1 h1 (by simpa [Value.inInt64] using hr)
      (by omega) (depth + 1) f rest hw.2 (by omega)
    have hd : ¬ maxNestedLevels < depth + 1 := Nat.not_lt.mpr hw.1.1
    have hn : ¬ maxArrayElements < items.length := Nat.not_lt.mpr hw.1.2
    rw [List.append_assoc, skipItem_succ, decodeHead_cborHead 4 _ _ (by decide) (by omega)]
    simp only [show ¬ (4 = 0 ∨ 4 = 1 ∨ 4 = 7) by decide, show ¬ (4 = 2 ∨ 4 = 3) by decide,
      if_false, if_true, hd, hn, ih]
theorem skipItems_encodeMapValues : ∀ (vs : List Value) (bs : List Nat),
    encodeMapValues vs = .ok bs → Value.allInInt64 vs = true → bs.length < 2 ^ 64 →
    ∀ (depth fuel : Nat) (rest : List Nat), Value.allWithinLimits depth vs = true →
      2 * bs.length ≤ fuel → skipItems fuel depth vs.length (bs ++ rest) = some rest
  | [], bs, h, hr, hl, depth, fuel, rest, hw, hf => by
    simp only [encodeMapValues, Except.ok.injEq] at h
    subst h
    simp [skipItems_zero]
  | v :: vs, bs, h, hr, hl, depth, fuel, rest, hw, hf => by
    obtain ⟨b1, b2, h1, h2, rfl⟩ := encodeMapValues_ok_inv v vs bs h
    have hp := encodeMapValue_length_pos v b1 h1
    simp only [List.length_append] at hl hf
    obtain ⟨f, rfl⟩ : ∃ f, fuel = f + 1 := ⟨fuel - 1, by omega⟩
    simp only [Value.allInInt64, Bool.and_eq_true] at hr
    simp only [Value.allWithinLimits, Bool.and_eq_true] at hw
    have e1 := skipItem_encodeMapValue v b1 h1 hr.1 (by omega) depth f (b2 ++ rest) hw.1
      (by omega)
    have e2 := skipItems_encodeMapValues vs b2 h2 hr.2 (by omega) depth f rest hw.2 (by omega)
    rw [List.append_assoc, List.length_cons, skipItems_succ, e1]
    exact e2
end

/-! ## Lemmas on the encoding and decoding of header labels -/

theorem toInt64_of_inInt64 (v : Int) (hlo : -(2 ^ 63) ≤ v) (hhi : v < 2 ^ 63) :
    toInt64 v = v := by
  unfold toInt64
  omega

theorem cborInt_headD (v : Int) :
    (cborInt v).headD 0 / 32 = 0 ∨ (cborInt v).headD 0 / 32 = 1 := by
  unfold cborInt
  split_ifs
  · exact Or.inl (cborHead_headD 0 _ (by decide)).1
  · exact Or.inr (cborHead_headD 1 _ (by decide)).1

theorem headD_append_of_pos (a rest : List Nat) (h : 0 < a.length) :
    ∃ b bs, a ++ rest = b :: bs ∧ a.headD 0 = b := by
  cases a with
  | nil => simp at h
  | cons b bs => exact ⟨b, bs ++ rest, rfl, rfl⟩

/-- The key of an entry that passes the label check and encodes: the encoder
yields `(encodeEntry e).1` for the key and for its decoded form, the decoder reads
the decoded form back, and so does the label validator. -/
theorem label_roundtrip (k : Value) (hk : k.isLabel = true) (hr : k.inInt64 = true) :
    ∃ kb, encodeBasicType k = some kb ∧ encodeBasicType k.decoded = some kb ∧
      0 < kb.length ∧
      k.decoded.isLabel = true ∧ k.decoded.hashable = true ∧ k.decoded.inInt64 = true ∧
      k.decoded.decoded = k.decoded ∧
      (kb.length < 2 ^ 64 → ∀ (fuel : Nat) (rest : List Nat),
        decodeValue (fuel + 1) (kb ++ rest) = some (k.decoded, rest) ∧
        headerLabelValidator.UnmarshalCBOR (kb ++ rest) = .ok (k.decoded, rest)) := by
  cases k with
  | integer kind v =>
    simp only [Value.inInt64, Bool.and_eq_true, decide_eq_true_eq] at hr
    refine ⟨cborInt v, rfl, rfl, cborInt_length_pos v, rfl, rfl, ?_, rfl, ?_⟩
    · simp only [Value.decoded, Value.inInt64, Bool.and_eq_true, decide_eq_true_eq]
      exact hr
    · intro _ fuel rest
      have hd := decodeValue_cborInt v hr.1 hr.2
      refine ⟨hd fuel rest, ?_⟩
      obtain ⟨b, bs, hb, hb2⟩ := headD_append_of_pos (cborInt v) rest (cborInt_length_pos v)
      have h01 := cborInt_headD v
      rw [hb2] at h01
      have hd0 := hd 0 rest
      rw [hb] at hd0 ⊢
      have hc : b / 32 = 0 ∨ b / 32 = 1 ∨ b / 32 = 3 := by
        rcases h01 with h | h
        · exact Or.inl h
        · exact Or.inr (Or.inl h)
      simp only [headerLabelValidator.UnmarshalCBOR, hc, if_true, hd0, Value.decoded]
  | string s =>
    have hp := cborHead_length_pos 3 (utf8Encode s).length
    refine ⟨cborHead 3 (utf8Encode s).length ++ utf8Encode s, rfl, rfl, ?_, rfl, rfl, rfl, rfl,
      ?_⟩
    · simp only [List.length_append]; omega
    · intro hl fuel rest
      simp only [List.length_append] at hl
      have hd := decodeValue_string s (by omega)
      refine ⟨hd fuel rest, ?_⟩
      obtain ⟨b, bs, hb, hb2⟩ := headD_append_of_pos (cborHead 3 (utf8Encode s).length)
        (utf8Encode s ++ rest) hp
      have h3 := (cborHead_headD 3 (utf8Encode s).length (by decide)).1
      rw [hb2] at h3
      have hd0 := hd 0 rest
      rw [List.append_assoc] at hd0 ⊢
      rw [hb] at hd0 ⊢
      have hc : b / 32 = 0 ∨ b / 32 = 1 ∨ b / 32 = 3 := Or.inr (Or.inr h3)
      simp only [headerLabelValidator.UnmarshalCBOR, hc, if_true, hd0, Value.decoded]
  | algorithm a => simp [Value.isLabel] at hk
  | bool b => simp [Value.isLabel] at hk
  | bytes b => simp [Value.isLabel] at hk
  | array items => simp [Value.isLabel] at hk
  | bigInt v => simp [Value.isLabel] at hk
  | null => simp [Value.isLabel] at hk
  | float size bits => simp [Value.isLabel] at hk
  | simple n => simp [Value.isLabel] at hk
  | tag number content => simp [Value.isLabel] at hk
  | map keys vals => simp [Value.isLabel] at hk

theorem mem_decodedKeys_integer (m : HeaderMap)
    (hm : ∀ e ∈ m, e.1.isLabel = true ∧ e.1.inInt64 = true) (v : Int) :
    Value.integer .int64 v ∈ m.map (fun e => e.1.decoded) ↔ v ∈ intLabels m := by
  induction m with
  | nil => simp [intLabels]
  | cons e rest ih =>
    obtain ⟨k, x⟩ := e
    have hk := hm (k, x) (List.mem_cons_self _ _)
    have ih1 := ih (fun e he => hm e (List.mem_cons_of_mem _ he))
    cases k with
    | integer kind w =>
      have hr := hk.2
      simp only [Value.inInt64, Bool.and_eq_true, decide_eq_true_eq] at hr
      simp only [List.map_cons, List.mem_cons, intLabels, Value.decoded, Value.integer.injEq,
        true_and, ih1, toInt64_of_inInt64 w hr.1 hr.2]
    | string s =>
      simp only [List.map_cons, List.mem_cons, intLabels, Value.decoded, ih1, reduceCtorEq,
        false_or]
    | algorithm a => simp [Value.isLabel] at hk
    | bool b => simp [Value.isLabel] at hk
    | bytes b => simp [Value.isLabel] at hk
    | array items => simp [Value.isLabel] at hk
    | bigInt v => simp [Value.isLabel] at hk
    | null => simp [Value.isLabel] at hk
    | float size bits => simp [Value.isLabel] at hk
    | simple n => simp [Value.isLabel] at hk
    | tag number content => simp [Value.isLabel] at hk
    | map keys vals => simp [Value.isLabel] at hk

theorem mem_decodedKeys_string (m : HeaderMap)
    (hm : ∀ e ∈ m, e.1.isLabel = true) (s : String) :
    Value.string s ∈ m.map (fun e => e.1.decoded) ↔ s ∈ stringLabels m := by
  induction m with
  | nil => simp [stringLabels]
  | cons e rest ih =>
    obtain ⟨k, x⟩ := e
    have hk := hm (k, x) (List.mem_cons_self _ _)
    have ih1 := ih (fun e he => hm e (List.mem_cons_of_mem _ he))
    cases k with
    | integer kind w =>
      simp only [List.map_cons, List.mem_cons, stringLabels, Value.decoded, ih1, reduceCtorEq,
        false_or]
    | string t =>
      simp only [List.map_cons, List.mem_cons, stringLabels, Value.decoded, Value.string.injEq,
        ih1]
    | algorithm a => simp [Value.isLabel] at hk
    | bool b => simp [Value.isLabel] at hk
    | bytes b => simp [Value.isLabel] at hk
    | array items => simp [Value.isLabel] at hk
    | bigInt v => simp [Value.isLabel] at hk
    | null => simp [Value.isLabel] at hk
    | float size bits => simp [Value.isLabel] at hk
    | simple n => simp [Value.isLabel] at hk
    | tag number content => simp [Value.isLabel] at hk
    | map keys vals => simp [Value.isLabel] at hk

/-- For labels in the `int64` range, the labels that `validateHeaderLabel`
compares are distinct exactly when the decoded keys are. -/
theorem nodup_decodedKeys_iff (m : HeaderMap)
    (hm : ∀ e ∈ m, e.1.isLabel = true ∧ e.1.inInt64 = true) :
    (m.map (fun e => e.1.decoded)).Nodup ↔ (intLabels m).Nodup ∧ (stringLabels m).Nodup := by
  induction m with
  | nil => simp [intLabels, stringLabels]
  | cons e rest ih =>
    obtain ⟨k, x⟩ := e
    have hk := hm (k, x) (List.mem_cons_self _ _)
    have hrest : ∀ e ∈ rest, e.1.isLabel = true ∧ e.1.inInt64 = true :=
      fun e he => hm e (List.mem_cons_of_mem _ he)
    have ih1 := ih hrest
    cases k with
    | integer kind w =>
      have hr := hk.2
      simp only [Value.inInt64, Bool.and_eq_true, decide_eq_true_eq] at hr
      simp only [List.map_cons, List.nodup_cons, intLabels, stringLabels, Value.decoded, ih1,
        mem_decodedKeys_integer rest hrest, toInt64_of_inInt64 w hr.1 hr.2]
      tauto
    | string t =>
      simp only [List.map_cons, List.nodup_cons, intLabels, stringLabels, Value.decoded, ih1,
        mem_decodedKeys_string rest (fun e he => (hrest e he).1)]
      tauto
    | algorithm a => simp [Value.isLabel] at hk
    | bool b => simp [Value.isLabel] at hk
    | bytes b => simp [Value.isLabel] at hk
    | array items => simp [Value.isLabel] at hk
    | bigInt v => simp [Value.isLabel] at hk
    | null => simp [Value.isLabel] at hk
    | float size bits => simp [Value.isLabel] at hk
    | simple n => simp [Value.isLabel] at hk
    | tag number content => simp [Value.isLabel] at hk
    | map keys vals => simp [Value.isLabel] at hk

theorem validateHeaderLabelLoop_congr_keys (m1 : HeaderMap) :
    ∀ (m2 : HeaderMap) (ei : List Int) (es : List String),
      m1.map Prod.fst = m2.map Prod.fst →
      validateHeaderLabelLoop ei es m1 = validateHeaderLabelLoop ei es m2 := by
  induction m1 with
  | nil =>
    intro m2 ei es h
    cases m2 with
    | nil => rfl
    | cons e r => simp at h
  | cons e1 r1 ih =>
    intro m2 ei es h
    cases m2 with
    | nil => simp at h
    | cons e2 r2 =>
      obtain ⟨k1, x1⟩ := e1
      obtain ⟨k2, x2⟩ := e2
      simp only [List.map_cons, List.cons.injEq] at h
      obtain ⟨hk, hr⟩ := h
      subst hk
      cases k1 with
      | integer kind w =>
        simp only [validateHeaderLabelLoop]
        split_ifs
        · rfl
        · exact ih r2 _ _ hr
      | string t =>
        simp only [validateHeaderLabelLoop]
        split_ifs
        · rfl
        · exact ih r2 _ _ hr
      | algorithm a => simp [validateHeaderLabelLoop]
      | bool b => simp [validateHeaderLabelLoop]
      | bytes b => simp [validateHeaderLabelLoop]
      | array items => simp [validateHeaderLabelLoop]
      | bigInt v => simp [validateHeaderLabelLoop]
      | null => simp [validateHeaderLabelLoop]
      | float size bits => simp [validateHeaderLabelLoop]
      | simple n => simp [validateHeaderLabelLoop]
      | tag number content => simp [validateHeaderLabelLoop]
      | map keys vals => simp [validateHeaderLabelLoop]


/-! ## Lemmas on the encoding and decoding of maps -/

theorem decodeMapEntries_entries (fuel : Nat) :
    ∀ (ents : HeaderMap) (seen : List Value) (rest : List Nat),
      (∀ e ∈ ents, ∀ r, decodeValue fuel ((encodeEntry e).1 ++ r) = some (e.1.decoded, r)) →
      (∀ e ∈ ents, ∀ r, decodeValue fuel ((encodeEntry e).2 ++ r) = some (e.2.decoded, r)) →
      (∀ e ∈ ents, e.1.decoded.hashable = true) →
      (ents.map (fun e => e.1.decoded)).Nodup →
      (∀ e ∈ ents, e.1.decoded ∉ seen) →
      decodeMapEntries fuel ents.length seen
        (((ents.map encodeEntry).map (fun kv => kv.1 ++ kv.2)).flatten ++ rest)
        = some (ents.map decodedEntry, rest) := by
  intro ents
  induction ents with
  | nil => intro seen rest _ _ _ _ _; simp [decodeMapEntries]
  | cons e ents ih =>
    intro seen rest hk hv hh hn hs
    have hk0 := hk e (List.mem_cons_self _ _)
    have hv0 := hv e (List.mem_cons_self _ _)
    have hh0 := hh e (List.mem_cons_self _ _)
    have hs0 := hs e (List.mem_cons_self _ _)
    rw [List.map_cons, List.nodup_cons] at hn
    have ih1 := ih (e.1.decoded :: seen) rest
      (fun x hx => hk x (List.mem_cons_of_mem _ hx))
      (fun x hx => hv x (List.mem_cons_of_mem _ hx))
      (fun x hx => hh x (List.mem_cons_of_mem _ hx)) hn.2
      (by
        intro x hx hmem
        rcases List.mem_cons.mp hmem with h | h
        · exact hn.1 (h ▸ List.mem_map_of_mem (fun e => e.1.decoded) hx)
        · exact hs x (List.mem_cons_of_mem _ hx) h)
    simp only [List.map_cons, List.flatten_cons, List.length_cons, List.append_assoc]
    rw [decodeMapEntries, hk0]
    simp only [hh0, Bool.not_true, Bool.false_eq_true, if_false, hs0, hv0, ih1, decodedEntry]

theorem validateLabelEntries_entries (fuel : Nat) :
    ∀ (ents : HeaderMap) (seen : List Value) (rest : List Nat),
      (∀ e ∈ ents, ∀ r,
        headerLabelValidator.UnmarshalCBOR ((encodeEntry e).1 ++ r) = .ok (e.1.decoded, r)) →
      (∀ e ∈ ents, ∀ r, skipItem fuel 1 ((encodeEntry e).2 ++ r) = some r) →
      (ents.map (fun e => e.1.decoded)).Nodup →
      (∀ e ∈ ents, e.1.decoded ∉ seen) →
      validateLabelEntries fuel ents.length seen
        (((ents.map encodeEntry).map (fun kv => kv.1 ++ kv.2)).flatten ++ rest)
        = .ok rest := by
  intro ents
  induction ents with
  | nil => intro seen rest _ _ _ _; simp [validateLabelEntries]
  | cons e ents ih =>
    intro seen rest hk hv hn hs
    have hk0 := hk e (List.mem_cons_self _ _)
    have hv0 := hv e (List.mem_cons_self _ _)
    have hs0 := hs e (List.mem_cons_self _ _)
    rw [List.map_cons, List.nodup_cons] at hn
    have ih1 := ih (e.1.decoded :: seen) rest
      (fun x hx => hk x (List.mem_cons_of_mem _ hx))
      (fun x hx => hv x (List.mem_cons_of_mem _ hx)) hn.2
      (by
        intro x hx hmem
        rcases List.mem_cons.mp hmem with h | h
        · exact hn.1 (h ▸ List.mem_map_of_mem (fun e => e.1.decoded) hx)
        · exact hs x (List.mem_cons_of_mem _ hx) h)
    simp only [List.map_cons, List.flatten_cons, List.length_cons, List.append_assoc]
    rw [validateLabelEntries, hk0]
    simp only [hs0, if_false, hv0, ih1]

theorem encodeMapItems_ok_iff (m : HeaderMap) (items : List (List Nat × List Nat)) :
    encodeMapItems m = .ok items ↔
      items = m.map encodeEntry ∧
      ∀ e ∈ m, encodeBasicType e.1 = some (encodeEntry e).1 ∧
        encodeMapValue e.2 = .ok (encodeEntry e).2 := by
  induction m generalizing items with
  | nil => simp [encodeMapItems, eq_comm]
  | cons e rest ih =>
    obtain ⟨k, v⟩ := e
    cases hk : encodeBasicType k with
    | none => simp [encodeMapItems, hk, encodeEntry]
    | some kb =>
      cases hv : encodeMapValue v with
      | error err => simp [encodeMapItems, hk, hv, encodeEntry]
      | ok vb =>
        cases hr : encodeMapItems rest with
        | error err =>
          have := ih (rest.map encodeEntry)
          rw [hr] at this
          simp only [reduceCtorEq, true_and, false_iff] at this
          simp only [encodeMapItems, hk, hv, hr, reduceCtorEq, List.map_cons, List.mem_cons,
            forall_eq_or_imp, false_iff, not_and]
          intro _ _
          exact this
        | ok its =>
          have h1 := (ih its).mp hr
          simp only [encodeMapItems, hk, hv, hr, Except.ok.injEq, List.map_cons, List.mem_cons,
            forall_eq_or_imp, encodeEntry, Option.getD_some, true_and]
          constructor
          · intro h
            subst h
            refine ⟨?_, h1.2⟩
            rw [h1.1]
          · rintro ⟨h, _⟩
            rw [h, h1.1]

theorem bytesLE_total : ∀ (a b : List Nat), bytesLE a b = true ∨ bytesLE b a = true
  | [], _ => Or.inl (by simp [bytesLE])
  | _ :: _, [] => Or.inr (by simp [bytesLE])
  | x :: xs, y :: ys => by
    have ih := bytesLE_total xs ys
    simp only [bytesLE, Bool.or_eq_true, decide_eq_true_eq, Bool.and_eq_true, beq_iff_eq]
    rcases Nat.lt_trichotomy x y with h | h | h
    · exact Or.inl (Or.inl h)
    · subst h
      rcases ih with h1 | h1
      · exact Or.inl (Or.inr ⟨rfl, h1⟩)
      · exact Or.inr (Or.inr ⟨rfl, h1⟩)
    · exact Or.inr (Or.inl h)

theorem bytesLE_trans : ∀ (a b c : List Nat),
    bytesLE a b = true → bytesLE b c = true → bytesLE a c = true
  | [], _, _, _, _ => by simp [bytesLE]
  | _ :: _, [], _, h, _ => by simp [bytesLE] at h
  | _ :: _, _ :: _, [], _, h => by simp [bytesLE] at h
  | x :: xs, y :: ys, z :: zs, h1, h2 => by
    have ih := bytesLE_trans xs ys zs
    simp only [bytesLE, Bool.or_eq_true, decide_eq_true_eq, Bool.and_eq_true, beq_iff_eq]
      at h1 h2 ⊢
    rcases h1 with h1 | ⟨h1, h1'⟩
    · rcases h2 with h2 | ⟨h2, _⟩
      · exact Or.inl (by omega)
      · exact Or.inl (by omega)
    · rcases h2 with h2 | ⟨h2, h2'⟩
      · exact Or.inl (by omega)
      · exact Or.inr ⟨by omega, ih h1' h2'⟩

theorem canonicalOrder_perm (m : HeaderMap) : (canonicalOrder m).Perm m :=
  List.perm_insertionSort _ m

theorem mem_canonicalOrder (m : HeaderMap) (e : Value × Value) :
    e ∈ canonicalOrder m ↔ e ∈ m :=
  (canonicalOrder_perm m).mem_iff

theorem canonicalOrder_length (m : HeaderMap) : (canonicalOrder m).length = m.length :=
  (canonicalOrder_perm m).length_eq

/-- Sorting the encoded items of a header lays them out as the encoded items of
its entries in canonical order, and that list is a fixed point of the sort. -/
theorem insertionSort_encodeEntry (m : HeaderMap) :
    (m.map encodeEntry).insertionSort (fun a b => bytesLE a.1 b.1 = true)
      = (canonicalOrder m).map encodeEntry ∧
    ((canonicalOrder m).map encodeEntry).insertionSort (fun a b => bytesLE a.1 b.1 = true)
      = (canonicalOrder m).map encodeEntry := by
  have h1 : (canonicalOrder m).map encodeEntry
      = (m.map encodeEntry).insertionSort (fun a b => bytesLE a.1 b.1 = true) :=
    List.map_insertionSort (fun a b => bytesLE (encodeEntry a).1 (encodeEntry b).1 = true)
      (fun a b : List Nat × List Nat => bytesLE a.1 b.1 = true) encodeEntry m
      (fun a _ b _ => Iff.rfl)
  refine ⟨h1.symm, ?_⟩
  apply List.Sorted.insertionSort_eq
  rw [h1]
  exact @List.sorted_insertionSort _ (fun a b : List Nat × List Nat => bytesLE a.1 b.1 = true) _
    ⟨fun a b => bytesLE_total a.1 b.1⟩ ⟨fun a b c => bytesLE_trans a.1 b.1 c.1⟩ _

/-- What `encodeMap` returns when it succeeds: every entry encodes, and the
result is the head of the map followed by the entries in canonical order. -/
theorem encodeMap_ok_iff (m : HeaderMap) (inner : List Nat) :
    encodeMap m = .ok inner ↔
      (∀ e ∈ m, encodeBasicType e.1 = some (encodeEntry e).1 ∧
        encodeMapValue e.2 = .ok (encodeEntry e).2) ∧
      inner = cborHead 5 m.length ++
        (((canonicalOrder m).map encodeEntry).map (fun kv => kv.1 ++ kv.2)).flatten := by
  unfold encodeMap
  cases h : encodeMapItems m with
  | error err =>
    have := (encodeMapItems_ok_iff m (m.map encodeEntry))
    rw [h] at this
    simp only [reduceCtorEq, true_and, false_iff] at this
    simp only [reduceCtorEq, false_iff, not_and]
    intro hall
    exact absurd hall this
  | ok items =>
    have h1 := (encodeMapItems_ok_iff m items).mp h
    simp only [Except.ok.injEq]
    rw [h1.1, (insertionSort_encodeEntry m).1]
    constructor
    · intro h2
      exact ⟨h1.2, h2.symm⟩
    · intro h2
      exact h2.2.symm

/-- A header whose encoded items are those of `m` in canonical order encodes to
the same bytes as `m`. -/
theorem encodeMap_of_items_eq (m h : HeaderMap) (inner : List Nat)
    (hm : encodeMap m = .ok inner)
    (hall : ∀ e ∈ h, encodeBasicType e.1 = some (encodeEntry e).1 ∧
      encodeMapValue e.2 = .ok (encodeEntry e).2)
    (hitems : h.map encodeEntry = (canonicalOrder m).map encodeEntry) :
    encodeMap h = .ok inner := by
  have h1 := ((encodeMap_ok_iff m inner).mp hm).2
  have hlen : h.length = m.length := by
    have := congrArg List.length hitems
    simpa [canonicalOrder_length] using this
  have hi := (encodeMapItems_ok_iff h (h.map encodeEntry)).mpr ⟨rfl, hall⟩
  unfold encodeMap
  rw [hi]
  simp only [Except.ok.injEq]
  rw [hitems, (insertionSort_encodeEntry m).2, hlen, h1]

/-! ## Lemmas on map reads and the critical headers -/

theorem HeaderMap.mem_of_get (m : HeaderMap) (k v : Value) (h : m.get k = some v) :
    (k, v) ∈ m := by
  induction m with
  | nil => simp [HeaderMap.get] at h
  | cons e rest ih =>
    obtain ⟨k1, v1⟩ := e
    by_cases hk : k1 = k
    · subst hk
      simp only [HeaderMap.get, if_true, Option.some.injEq] at h
      subst h
      exact List.mem_cons_self _ _
    · simp only [HeaderMap.get, hk, if_false] at h
      exact List.mem_cons_of_mem _ (ih h)

theorem HeaderMap.get_ne_none_of_mem (m : HeaderMap) (k v : Value) (h : (k, v) ∈ m) :
    m.get k ≠ none := by
  induction m with
  | nil => simp at h
  | cons e rest ih =>
    obtain ⟨k1, v1⟩ := e
    by_cases hk : k1 = k
    · simp [HeaderMap.get, hk]
    · simp only [HeaderMap.get, hk, if_false]
      rcases List.mem_cons.mp h with h1 | h1
      · exact absurd (congrArg Prod.fst h1).symm hk
      · exact ih h1

theorem HeaderMap.get_of_mem (m : HeaderMap) (k v : Value) (hn : (m.map Prod.fst).Nodup)
    (h : (k, v) ∈ m) : m.get k = some v := by
  induction m with
  | nil => simp at h
  | cons e rest ih =>
    obtain ⟨k1, v1⟩ := e
    rw [List.map_cons, List.nodup_cons] at hn
    rcases List.mem_cons.mp h with h1 | h1
    · cases h1
      simp [HeaderMap.get]
    · have hk : k1 ≠ k := by
        intro hk
        subst hk
        have hmem : (k1, v).1 ∈ rest.map Prod.fst := List.mem_map_of_mem Prod.fst h1
        exact hn.1 hmem
      simp only [HeaderMap.get, hk, if_false]
      exact ih hn.2 h1

theorem HeaderMap.mem_set (m : HeaderMap) (k v : Value) (e : Value × Value)
    (h : e ∈ m.set k v) : e ∈ m ∨ e = (k, v) := by
  induction m with
  | nil =>
    simp only [HeaderMap.set, List.mem_singleton] at h
    exact Or.inr h
  | cons e1 rest ih =>
    obtain ⟨k1, v1⟩ := e1
    by_cases hk : k1 = k
    · simp only [HeaderMap.set, hk, if_true, List.mem_cons] at h
      rcases h with h | h
      · exact Or.inr h
      · exact Or.inl (List.mem_cons_of_mem _ h)
    · simp only [HeaderMap.set, hk, if_false, List.mem_cons] at h
      rcases h with h | h
      · exact Or.inl (h ▸ List.mem_cons_self _ _)
      · rcases ih h with h2 | h2
        · exact Or.inl (List.mem_cons_of_mem _ h2)
        · exact Or.inr h2

theorem HeaderMap.map_set_eq {β : Type} (f : Value × Value → β) (m : HeaderMap)
    (k v v0 : Value) (hg : m.get k = some v0) (hf : f (k, v) = f (k, v0)) :
    (m.set k v).map f = m.map f := by
  induction m with
  | nil => simp [HeaderMap.get] at hg
  | cons e rest ih =>
    obtain ⟨k1, v1⟩ := e
    by_cases hk : k1 = k
    · subst hk
      simp only [HeaderMap.get, if_true, Option.some.injEq] at hg
      subst hg
      simp [HeaderMap.set, hf]
    · simp only [HeaderMap.get, hk, if_false] at hg
      simp [HeaderMap.set, hk, ih hg]

theorem Value.decodedList_eq_map (vs : List Value) :
    Value.decodedList vs = vs.map Value.decoded := by
  induction vs with
  | nil => rfl
  | cons v vs ih => simp [Value.decodedList, ih]

theorem Value.hashable_decoded (v : Value) (h : v.hashable = true) :
    v.decoded.hashable = true := by
  cases v <;> simp_all [Value.hashable, Value.decoded]

theorem ensureCriticalLoop_ok_iff (h : ProtectedHeader) (labels : List Value) :
    ensureCriticalLoop h labels = .ok () ↔
      ∀ l ∈ labels, l.hashable = true ∧ h.get l ≠ none := by
  induction labels with
  | nil => simp [ensureCriticalLoop]
  | cons l rest ih =>
    by_cases hl : l.hashable = true
    · cases hg : h.get l with
      | none => simp [ensureCriticalLoop, ProtectedHeader.index, hl, hg]
      | some v => simp [ensureCriticalLoop, ProtectedHeader.index, hl, hg, ih]
    · simp [ensureCriticalLoop, ProtectedHeader.index, hl]

/-- When `ensureCritical` returns nil: no entry under the critical label, or a
non-empty list of labels, each of which can be a map key and is a key of the
header. -/
theorem ensureCritical_ok_iff (m : HeaderMap) :
    ProtectedHeader.ensureCritical (some m) = .ok () ↔
      HeaderMap.get m HeaderLabelCritical = none ∨
      ∃ labels, HeaderMap.get m HeaderLabelCritical = some (.array labels) ∧ labels ≠ [] ∧
        ∀ l ∈ labels, l.hashable = true ∧ HeaderMap.get m l ≠ none := by
  unfold ProtectedHeader.ensureCritical ProtectedHeader.Critical
  simp only [ProtectedHeader.get]
  cases hg : HeaderMap.get m HeaderLabelCritical with
  | none => simp [ensureCriticalLoop]
  | some x =>
    cases x with
    | array labels =>
      by_cases h0 : labels.length = 0
      · have : labels = [] := List.length_eq_zero.mp h0
        simp [h0, this]
      · have hne : labels ≠ [] := fun e => h0 (by simp [e])
        simp only [h0, if_false, ensureCriticalLoop_ok_iff, ProtectedHeader.get, reduceCtorEq,
          Option.some.injEq, Value.array.injEq, false_or]
        constructor
        · intro h
          exact ⟨labels, rfl, hne, h⟩
        · rintro ⟨l2, rfl, _, h⟩
          exact h
    | integer kind v => simp
    | algorithm a => simp
    | string s => simp
    | bool b => simp
    | bytes b => simp
    | bigInt v => simp
    | null => simp
    | float size bits => simp
    | simple n => simp
    | tag number content => simp
    | map keys vals => simp

theorem ensureCritical_set_algorithm (m : HeaderMap) (v : Value)
    (h : ProtectedHeader.ensureCritical (some m) = .ok ()) :
    ProtectedHeader.ensureCritical (some (m.set HeaderLabelAlgorithm v)) = .ok () := by
  rw [ensureCritical_ok_iff] at h ⊢
  have hne : HeaderLabelCritical ≠ HeaderLabelAlgorithm := by decide
  rw [HeaderMap.get_set_other m _ v _ hne]
  rcases h with h | ⟨labels, h1, h2, h3⟩
  · exact Or.inl h
  · refine Or.inr ⟨labels, h1, h2, ?_⟩
    intro l hl
    refine ⟨(h3 l hl).1, ?_⟩
    by_cases hk : l = HeaderLabelAlgorithm
    · subst hk
      rw [HeaderMap.get_set_same]
      simp
    · rw [HeaderMap.get_set_other m _ v _ hk]
      exact (h3 l hl).2

/-- The check of `ensureCritical` passes on the decoded form of a header on
which it passes, when no label of value 2 has another type than `int64`. -/
theorem ensureCritical_decoded (m header : HeaderMap)
    (hm : ∀ e ∈ m, e.1.isLabel = true ∧ e.1.inInt64 = true)
    (hcrit : ∀ kind value, (Value.integer kind 2, value) ∈ m → kind = .int64)
    (hmem : ∀ e, e ∈ header ↔ ∃ e0 ∈ m, e = decodedEntry e0)
    (hnh : (header.map Prod.fst).Nodup)
    (hc : ProtectedHeader.ensureCritical (some m) = .ok ()) :
    ProtectedHeader.ensureCritical (some header) = .ok () := by
  rw [ensureCritical_ok_iff] at hc ⊢
  rcases hc with hc | ⟨labels, h1, h2, h3⟩
  · left
    cases hg : HeaderMap.get header HeaderLabelCritical with
    | none => rfl
    | some x =>
      exfalso
      obtain ⟨e0, he0, heq⟩ := (hmem _).mp (HeaderMap.mem_of_get _ _ _ hg)
      obtain ⟨k, y⟩ := e0
      have hk := (hm _ he0).1
      simp only [decodedEntry, Prod.mk.injEq] at heq
      cases k with
      | integer kind v =>
        simp only [HeaderLabelCritical, Value.decoded, Value.integer.injEq, true_and] at heq
        have hv : v = 2 := heq.1.symm
        subst hv
        have := hcrit kind y he0
        subst this
        exact HeaderMap.get_ne_none_of_mem m _ _ he0 hc
      | string s => simp [HeaderLabelCritical, Value.decoded] at heq
      | algorithm a => simp [Value.isLabel] at hk
      | bool b => simp [Value.isLabel] at hk
      | bytes b => simp [Value.isLabel] at hk
      | array items => simp [Value.isLabel] at hk
      | bigInt v => simp [Value.isLabel] at hk
      | null => simp [Value.isLabel] at hk
      | float size bits => simp [Value.isLabel] at hk
      | simple n => simp [Value.isLabel] at hk
      | tag number content => simp [Value.isLabel] at hk
      | map keys vals => simp [Value.isLabel] at hk
  · right
    refine ⟨Value.decodedList labels, ?_, ?_, ?_⟩
    · apply HeaderMap.get_of_mem _ _ _ hnh
      rw [hmem]
      exact ⟨_, HeaderMap.mem_of_get _ _ _ h1, by simp [decodedEntry, HeaderLabelCritical,
        Value.decoded]⟩
    · rw [Value.decodedList_eq_map]
      simpa using h2
    · intro l hl
      rw [Value.decodedList_eq_map, List.mem_map] at hl
      obtain ⟨l0, hl0, rfl⟩ := hl
      refine ⟨Value.hashable_decoded _ (h3 l0 hl0).1, ?_⟩
      cases hg : HeaderMap.get m l0 with
      | none => exact absurd hg (h3 l0 hl0).2
      | some y =>
        apply HeaderMap.get_ne_none_of_mem header _ y.decoded
        rw [hmem]
        exact ⟨_, HeaderMap.mem_of_get _ _ _ hg, rfl⟩

/-! ## Round trip of the protected header: lemmas -/

theorem entry_length_le_flatten (ents : HeaderMap) (e : Value × Value) (he : e ∈ ents) :
    (encodeEntry e).1.length + (encodeEntry e).2.length ≤
      (((ents.map encodeEntry).map (fun kv => kv.1 ++ kv.2)).flatten).length := by
  induction ents with
  | nil => simp at he
  | cons x rest ih =>
    simp only [List.map_cons, List.flatten_cons, List.length_append]
    rcases List.mem_cons.mp he with h | h
    · subst h; omega
    · have := ih h; omega

theorem length_le_flatten (ents : HeaderMap)
    (hpos : ∀ e ∈ ents, 0 < (encodeEntry e).1.length) :
    ents.length ≤ (((ents.map encodeEntry).map (fun kv => kv.1 ++ kv.2)).flatten).length := by
  induction ents with
  | nil => simp
  | cons x rest ih =>
    have h1 := hpos x (List.mem_cons_self _ _)
    have h2 := ih (fun e he => hpos e (List.mem_cons_of_mem _ he))
    simp only [List.map_cons, List.flatten_cons, List.length_append, List.length_cons]
    omega

/-- An entry with a valid label, integers in the `int64` range and an encoding:
what the decoder, the label validator and the well-formedness walk do on its
encoding, and how its decoded form encodes. -/
theorem entry_roundtrip (e : Value × Value)
    (hk : e.1.isLabel = true) (hkr : e.1.inInt64 = true) (hvr : e.2.inInt64 = true)
    (hvw : e.2.withinLimits 1 = true)
    (hke : encodeBasicType e.1 = some (encodeEntry e).1)
    (hve : encodeMapValue e.2 = .ok (encodeEntry e).2)
    (fuel : Nat)
    (hlen : (encodeEntry e).1.length + (encodeEntry e).2.length < 2 ^ 64)
    (hfuel : 2 * ((encodeEntry e).1.length + (encodeEntry e).2.length) ≤ fuel) :
    0 < (encodeEntry e).1.length ∧
    (∀ r, headerLabelValidator.UnmarshalCBOR ((encodeEntry e).1 ++ r) = .ok (e.1.decoded, r)) ∧
    (∀ r, decodeValue fuel ((encodeEntry e).1 ++ r) = some (e.1.decoded, r)) ∧
    (∀ r, decodeValue fuel ((encodeEntry e).2 ++ r) = some (e.2.decoded, r)) ∧
    (∀ g r, 2 * (encodeEntry e).2.length ≤ g + 1 →
      skipItem g 1 ((encodeEntry e).2 ++ r) = some r) ∧
    e.1.decoded.hashable = true ∧ e.1.decoded.isLabel = true ∧
    e.1.decoded.inInt64 = true ∧ e.1.decoded.decoded = e.1.decoded ∧
    encodeEntry (decodedEntry e) = encodeEntry e ∧
    encodeBasicType (decodedEntry e).1 = some (encodeEntry (decodedEntry e)).1 ∧
    encodeMapValue (decodedEntry e).2 = .ok (encodeEntry (decodedEntry e)).2 := by
  obtain ⟨kb, h1, h2, hpos, hl, hh, hr, hdd, hdec⟩ := label_roundtrip e.1 hk hkr
  have hkb : (encodeEntry e).1 = kb := by
    rw [h1] at hke
    exact (Option.some.inj hke).symm
  have hv2 := encodeMapValue_decoded e.2 _ hve
  have hee : encodeEntry (decodedEntry e) = encodeEntry e := by
    have a1 : (encodeEntry (decodedEntry e)).1 = (encodeEntry e).1 := by
      rw [hkb]
      simp [encodeEntry, decodedEntry, h2]
    have a2 : (encodeEntry (decodedEntry e)).2 = (encodeEntry e).2 := by
      cases hx : encodeMapValue e.2 with
      | error err => rw [hx] at hve; cases hve
      | ok vb =>
        have hvb := encodeMapValue_decoded e.2 vb hx
        simp [encodeEntry, decodedEntry, hx, hvb]
    exact Prod.ext a1 a2
  have hpos2 := encodeMapValue_length_pos e.2 _ hve
  obtain ⟨f, rfl⟩ : ∃ f, fuel = f + 1 := ⟨fuel - 1, by omega⟩
  rw [hkb] at hlen hfuel ⊢
  have hd := hdec (by omega)
  refine ⟨hpos, fun r => (hd f r).2, fun r => (hd f r).1, ?_, ?_, hh, hl, hr, hdd, ?_, ?_, ?_⟩
  · intro r
    exact decodeValue_encodeMapValue e.2 _ hve hvr (by omega) _ r (by omega)
  · intro g r hg
    exact skipItem_encodeMapValue e.2 _ hve hvr (by omega) 1 g r hvw hg
  · exact hee
  · rw [hee, hkb]
    exact h2
  · rw [hee]
    exact hv2

/-- The well-formedness walk over the encoded key of an entry with a valid
label. -/
theorem entry_key_skip (e : Value × Value)
    (hk : e.1.isLabel = true) (hkr : e.1.inInt64 = true)
    (hke : encodeBasicType e.1 = some (encodeEntry e).1)
    (hve : encodeMapValue e.2 = .ok (encodeEntry e).2)
    (hlen : (encodeEntry e).1.length < 2 ^ 64) :
    0 < (encodeEntry e).2.length ∧
    ∀ g r, 2 * (encodeEntry e).1.length ≤ g + 1 →
      skipItem g 1 ((encodeEntry e).1 ++ r) = some r := by
  refine ⟨encodeMapValue_length_pos e.2 _ hve, ?_⟩
  intro g r hg
  obtain ⟨k, v⟩ := e
  cases k with
  | integer kind n =>
    have h1 : encodeMapValue (.integer kind n) = .ok (encodeEntry (.integer kind n, v)).1 := by
      simp [encodeMapValue, encodeEntry, encodeBasicType]
    exact skipItem_encodeMapValue _ _ h1 hkr hlen 1 g r rfl hg
  | string s =>
    have h1 : encodeMapValue (.string s) = .ok (encodeEntry (.string s, v)).1 := by
      simp [encodeMapValue, encodeEntry, encodeBasicType]
    exact skipItem_encodeMapValue _ _ h1 hkr hlen 1 g r rfl hg
  | algorithm a => simp [Value.isLabel] at hk
  | bool b => simp [Value.isLabel] at hk
  | bytes b => simp [Value.isLabel] at hk
  | array items => simp [Value.isLabel] at hk
  | bigInt v => simp [Value.isLabel] at hk
  | null => simp [Value.isLabel] at hk
  | float size bits => simp [Value.isLabel] at hk
  | simple n => simp [Value.isLabel] at hk
  | tag number content => simp [Value.isLabel] at hk
  | map keys vals => simp [Value.isLabel] at hk

/-- The well-formedness walk over the encoded entries of a map. -/
theorem skipItems_entries (depth : Nat) :
    ∀ (ents : HeaderMap) (fuel : Nat) (rest : List Nat),
      (∀ e ∈ ents, 0 < (encodeEntry e).1.length ∧ 0 < (encodeEntry e).2.length ∧
        (∀ g r, 2 * (encodeEntry e).1.length ≤ g + 1 →
          skipItem g depth ((encodeEntry e).1 ++ r) = some r) ∧
        (∀ g r, 2 * (encodeEntry e).2.length ≤ g + 1 →
          skipItem g depth ((encodeEntry e).2 ++ r) = some r)) →
      2 * (((ents.map encodeEntry).map (fun kv => kv.1 ++ kv.2)).flatten).length ≤ fuel →
      skipItems fuel depth (2 * ents.length)
        (((ents.map encodeEntry).map (fun kv => kv.1 ++ kv.2)).flatten ++ rest)
        = some rest := by
  intro ents
  induction ents with
  | nil => intro fuel rest _ _; simp [skipItems_zero]
  | cons e ents ih =>
    intro fuel rest hents hfuel
    obtain ⟨hkp, hvp, hks, hvs⟩ := hents e (List.mem_cons_self _ _)
    simp only [List.map_cons, List.flatten_cons, List.length_append, List.length_cons,
      List.append_assoc] at hfuel ⊢
    obtain ⟨f, rfl⟩ : ∃ f, fuel = f + 1 + 1 := ⟨fuel - 2, by omega⟩
    have hn : 2 * (ents.length + 1) = 2 * ents.length + 1 + 1 := by omega
    rw [hn, skipItems_succ, hks (f + 1) _ (by omega)]
    simp only []
    rw [skipItems_succ, hvs f _ (by omega)]
    simp only []
    exact ih f rest (fun x hx => hents x (List.mem_cons_of_mem _ hx)) (by omega)

theorem byteString_UnmarshalCBOR_bstr (inner : List Nat) (hlen : inner.length < 2 ^ 64) :
    byteString.UnmarshalCBOR (cborHead 2 inner.length ++ inner) = .ok (some inner) := by
  unfold byteString.UnmarshalCBOR
  have hne : cborHead 2 inner.length ++ inner ≠ [0xf6] := by
    obtain ⟨b, bs, hb, hb2⟩ := headD_append_of_pos (cborHead 2 inner.length) inner
      (cborHead_length_pos _ _)
    have h2 := (cborHead_headD 2 inner.length (by decide)).1
    rw [hb2] at h2
    rw [hb]
    intro h
    injection h with h1 _
    subst h1
    simp at h2
  rw [if_neg hne, decodeHead_cborHead 2 _ _ (by decide) hlen]
  simp

/-- The step of `UnmarshalCBOR` that casts the algorithm entry: the header it
stores has the keys and the encoded items of the decoded header. -/
theorem setAlgorithm_step (header : HeaderMap) (alg : Algorithm)
    (halg : ProtectedHeader.Algorithm (some header) = (alg, none))
    (hall : ∀ e ∈ header, encodeBasicType e.1 = some (encodeEntry e).1 ∧
      encodeMapValue e.2 = .ok (encodeEntry e).2)
    (hc : ProtectedHeader.ensureCritical (some header) = .ok ()) :
    (ProtectedHeader.SetAlgorithm header alg).map Prod.fst = header.map Prod.fst ∧
    (ProtectedHeader.SetAlgorithm header alg).map encodeEntry = header.map encodeEntry ∧
    (∀ e ∈ ProtectedHeader.SetAlgorithm header alg,
      encodeBasicType e.1 = some (encodeEntry e).1 ∧
      encodeMapValue e.2 = .ok (encodeEntry e).2) ∧
    ProtectedHeader.ensureCritical (some (ProtectedHeader.SetAlgorithm header alg)) = .ok () := by
  obtain ⟨v0, hg, hv0⟩ := (algorithm_found_iff (some header) alg).mp halg
  have hg2 : HeaderMap.get header HeaderLabelAlgorithm = some v0 := hg
  unfold ProtectedHeader.SetAlgorithm
  refine ⟨HeaderMap.map_set_eq Prod.fst header _ _ v0 hg2 rfl,
    HeaderMap.map_set_eq encodeEntry header _ _ v0 hg2 ?_, ?_,
    ensureCritical_set_algorithm header _ hc⟩
  · rcases hv0 with h | h | h | h | h | h <;> subst h <;> simp [encodeEntry, encodeMapValue]
  · intro e he
    rcases HeaderMap.mem_set header _ _ e he with h | h
    · exact hall e h
    · subst h
      simp [encodeEntry, encodeMapValue, encodeBasicType, HeaderLabelAlgorithm]

/-- Decoding of the encoding of a list of entries laid out in their order. -/
theorem UnmarshalCBOR_of_entries (ents : HeaderMap) (t : ProtectedHeader)
    (hlab : ∀ e ∈ ents, e.1.isLabel = true)
    (hrange : ∀ e ∈ ents, e.1.inInt64 = true ∧ e.2.inInt64 = true)
    (hlim : ∀ e ∈ ents, e.2.withinLimits 1 = true)
    (hpairs : ents.length ≤ maxMapPairs)
    (hall : ∀ e ∈ ents, encodeBasicType e.1 = some (encodeEntry e).1 ∧
      encodeMapValue e.2 = .ok (encodeEntry e).2)
    (hnodup : (ents.map (fun e => e.1.decoded)).Nodup)
    (hc : ProtectedHeader.ensureCritical (some (ents.map decodedEntry)) = .ok ())
    (inner : List Nat)
    (hinner : inner = cborHead 5 ents.length ++
      (((ents.map encodeEntry).map (fun kv => kv.1 ++ kv.2)).flatten))
    (hlen : inner.length < 2 ^ 64) :
    ∃ h2, ProtectedHeader.UnmarshalCBOR t (cborHead 2 inner.length ++ inner)
        = .returns (some h2) none ∧
      h2.map Prod.fst = ents.map (fun e => e.1.decoded) ∧
      h2.map encodeEntry = ents.map encodeEntry ∧
      (∀ e ∈ h2, encodeBasicType e.1 = some (encodeEntry e).1 ∧
        encodeMapValue e.2 = .ok (encodeEntry e).2) ∧
      ProtectedHeader.ensureCritical (some h2) = .ok () := by
  have hp5 := cborHead_length_pos 5 ents.length
  have hil : inner.length = (cborHead 5 ents.length).length +
      (((ents.map encodeEntry).map (fun kv => kv.1 ++ kv.2)).flatten).length := by
    rw [hinner, List.length_append]
  have hfacts := fun (e : Value × Value) (he : e ∈ ents) =>
    entry_roundtrip e (hlab e he) (hrange e he).1 (hrange e he).2 (hlim e he) (hall e he).1
      (hall e he).2 (2 * inner.length)
      (by have := entry_length_le_flatten ents e he; omega)
      (by have := entry_length_le_flatten ents e he; omega)
  have hmlen := length_le_flatten ents (fun e he => (hfacts e he).1)
  have hhead : decodeHead inner = some (5, ents.length,
      (((ents.map encodeEntry).map (fun kv => kv.1 ++ kv.2)).flatten)) := by
    rw [hinner]
    exact decodeHead_cborHead 5 _ _ (by decide) (by omega)
  have hwf : wellformed inner = true := by
    unfold wellformed
    rw [decide_eq_true_eq]
    obtain ⟨f, hf⟩ : ∃ f, 2 * inner.length = f + 1 := ⟨2 * inner.length - 1, by omega⟩
    have hd : ¬ maxNestedLevels < 0 + 1 := by decide
    have hn : ¬ maxMapPairs < ents.length := Nat.not_lt.mpr hpairs
    have h1 := skipItems_entries 1 ents f []
      (fun e he =>
        have hk := entry_key_skip e (hlab e he) (hrange e he).1 (hall e he).1 (hall e he).2
          (by have := entry_length_le_flatten ents e he; omega)
        ⟨(hfacts e he).1, hk.1, hk.2, (hfacts e he).2.2.2.2.1⟩)
      (by omega)
    rw [List.append_nil] at h1
    rw [hf, skipItem_succ, hhead]
    simp only [show ¬ (5 = 0 ∨ 5 = 1 ∨ 5 = 7) by decide, show ¬ (5 = 2 ∨ 5 = 3) by decide,
      show ¬ (5 = 4) by decide, if_false, if_true, hd, hn, h1]
  have hwf2 : ¬ wellformed inner = false := by simp [hwf]
  have hval : validateHeaderLabelCBOR inner = none := by
    unfold validateHeaderLabelCBOR
    rw [if_neg hwf2, hhead]
    have h1 := validateLabelEntries_entries (2 * inner.length) ents [] []
      (fun e he => (hfacts e he).2.1)
      (fun e he r => (hfacts e he).2.2.2.2.1 _ r
        (by have := entry_length_le_flatten ents e he; omega)) hnodup (by simp)
    rw [List.append_nil] at h1
    simp only [if_true, h1]
  have hdec : decodeMap inner = some (ents.map decodedEntry) := by
    unfold decodeMap
    rw [if_neg hwf2, hhead]
    have h1 := decodeMapEntries_entries (2 * inner.length) ents [] []
      (fun e he => (hfacts e he).2.2.1) (fun e he => (hfacts e he).2.2.2.1)
      (fun e he => (hfacts e he).2.2.2.2.2.1) hnodup (by simp)
    rw [List.append_nil] at h1
    simp only [if_true, h1]
  have hlen0 : ¬ inner.length = 0 := by omega
  have hhd : ¬ inner.headD 0 / 32 ≠ 5 := by
    obtain ⟨b, bs, hb, hb2⟩ := headD_append_of_pos (cborHead 5 ents.length)
      (((ents.map encodeEntry).map (fun kv => kv.1 ++ kv.2)).flatten) hp5
    have h5 := (cborHead_headD 5 ents.length (by decide)).1
    rw [hb2] at h5
    rw [hinner, hb]
    simpa using h5
  have hkeys : (ents.map decodedEntry).map Prod.fst = ents.map (fun e => e.1.decoded) := by
    rw [List.map_map]
    rfl
  have hitems : (ents.map decodedEntry).map encodeEntry = ents.map encodeEntry := by
    rw [List.map_map]
    apply List.map_congr_left
    intro e he
    exact (hfacts e he).2.2.2.2.2.2.2.2.2.1
  have hallD : ∀ e ∈ ents.map decodedEntry, encodeBasicType e.1 = some (encodeEntry e).1 ∧
      encodeMapValue e.2 = .ok (encodeEntry e).2 := by
    intro e he
    obtain ⟨e0, he0, rfl⟩ := List.mem_map.mp he
    exact ⟨(hfacts e0 he0).2.2.2.2.2.2.2.2.2.2.1, (hfacts e0 he0).2.2.2.2.2.2.2.2.2.2.2⟩
  unfold ProtectedHeader.UnmarshalCBOR
  rw [byteString_UnmarshalCBOR_bstr inner hlen]
  simp only [hlen0, hhd, if_false, hval, hdec, hc]
  rcases halg : ProtectedHeader.Algorithm (some (ents.map decodedEntry)) with ⟨alg, oe⟩
  cases oe with
  | none =>
    obtain ⟨s1, s2, s3, s4⟩ := setAlgorithm_step _ alg halg hallD hc
    exact ⟨_, rfl, s1.trans hkeys, s2.trans hitems, s3, s4⟩
  | some err =>
    exact ⟨_, rfl, hkeys, hitems, hallD, hc⟩

/-- When `MarshalCBOR` returns bytes for a non-empty header. -/
theorem MarshalCBOR_ok_iff (m : HeaderMap) (hne : m ≠ []) (b : List Nat) :
    ProtectedHeader.MarshalCBOR (some m) = .ok b ↔
      validateHeaderLabel m = none ∧ ProtectedHeader.ensureCritical (some m) = .ok () ∧
      ∃ inner, encodeMap m = .ok inner ∧ b = cborHead 2 inner.length ++ inner := by
  have hlen : ¬ m.length = 0 := fun h => hne (List.length_eq_zero.mp h)
  unfold ProtectedHeader.MarshalCBOR
  simp only [hlen, if_false]
  cases hv : validateHeaderLabel m with
  | some err => simp
  | none =>
    cases hc : ProtectedHeader.ensureCritical (some m) with
    | error err => simp
    | panic => simp
    | ok u =>
      cases he : encodeMap m with
      | error err => simp
      | ok inner => simp [eq_comm]

/-- Round trip of a non-empty protected header whose integers are in the `int64`
range, which is within the limits of the decoder and which has no label of
value 2 of another type than `int64`. -/
theorem UnmarshalCBOR_MarshalCBOR (m : HeaderMap) (t : ProtectedHeader) (b : List Nat)
    (hne : m ≠ [])
    (hrange : ∀ e ∈ m, e.1.inInt64 = true ∧ e.2.inInt64 = true)
    (hpairs : m.length ≤ maxMapPairs)
    (hlim : ∀ e ∈ m, e.2.withinLimits 1 = true)
    (hcrit : ∀ kind value, (Value.integer kind 2, value) ∈ m → kind = .int64)
    (hlen : b.length < 2 ^ 64)
    (henc : ProtectedHeader.MarshalCBOR (some m) = .ok b) :
    ∃ h2, ProtectedHeader.UnmarshalCBOR t b = .returns (some h2) none ∧ h2 ≠ [] ∧
      ProtectedHeader.MarshalCBOR (some h2) = .ok b := by
  obtain ⟨hv, hc, inner, he, rfl⟩ := (MarshalCBOR_ok_iff m hne b).mp henc
  obtain ⟨hall, hinner⟩ := (encodeMap_ok_iff m inner).mp he
  obtain ⟨hlab, hni, hns⟩ := (validateHeaderLabel_eq_none_iff m).mp hv
  have hm : ∀ e ∈ m, e.1.isLabel = true ∧ e.1.inInt64 = true :=
    fun e he => ⟨hlab e he, (hrange e he).1⟩
  have hmemE := mem_canonicalOrder m
  have hnodupM : (m.map (fun e => e.1.decoded)).Nodup :=
    (nodup_decodedKeys_iff m hm).mpr ⟨hni, hns⟩
  have hnodupE : ((canonicalOrder m).map (fun e => e.1.decoded)).Nodup :=
    ((canonicalOrder_perm m).map _).nodup_iff.mpr hnodupM
  have hkeys : ((canonicalOrder m).map decodedEntry).map Prod.fst
      = (canonicalOrder m).map (fun e => e.1.decoded) := by
    rw [List.map_map]
    rfl
  have hcD : ProtectedHeader.ensureCritical (some ((canonicalOrder m).map decodedEntry))
      = .ok () := by
    apply ensureCritical_decoded m _ hm hcrit _ (by rw [hkeys]; exact hnodupE) hc
    intro e
    rw [List.mem_map]
    constructor
    · rintro ⟨e0, he0, rfl⟩
      exact ⟨e0, (hmemE e0).mp he0, rfl⟩
    · rintro ⟨e0, he0, rfl⟩
      exact ⟨e0, (hmemE e0).mpr he0, rfl⟩
  have hil : inner.length < 2 ^ 64 := by
    simp only [List.length_append] at hlen
    omega
  rw [← canonicalOrder_length m] at hinner
  obtain ⟨h2, hu, hk2, hi2, ha2, hc2⟩ := UnmarshalCBOR_of_entries (canonicalOrder m) t
    (fun e he => hlab e ((hmemE e).mp he)) (fun e he => hrange e ((hmemE e).mp he))
    (fun e he => hlim e ((hmemE e).mp he)) (by rw [canonicalOrder_length]; exact hpairs)
    (fun e he => hall e ((hmemE e).mp he)) hnodupE hcD inner hinner hil
  have hne2 : h2 ≠ [] := by
    intro h0
    subst h0
    have hl := congrArg List.length hk2
    simp only [List.map_nil, List.length_nil, List.length_map, canonicalOrder_length] at hl
    exact hne (List.length_eq_zero.mp hl.symm)
  have hv2 : validateHeaderLabel h2 = none := by
    have hkk : h2.map Prod.fst = ((canonicalOrder m).map decodedEntry).map Prod.fst := by
      rw [hkeys, hk2]
    unfold validateHeaderLabel
    rw [validateHeaderLabelLoop_congr_keys h2 _ [] [] hkk]
    have hfacts := fun (e : Value × Value) (he : e ∈ canonicalOrder m) =>
      label_roundtrip e.1 (hlab e ((hmemE e).mp he)) (hrange e ((hmemE e).mp he)).1
    have hmD : ∀ e ∈ (canonicalOrder m).map decodedEntry,
        e.1.isLabel = true ∧ e.1.inInt64 = true := by
      intro e he
      obtain ⟨e0, he0, rfl⟩ := List.mem_map.mp he
      obtain ⟨kb, _, _, _, hl, _, hr, _, _⟩ := hfacts e0 he0
      exact ⟨hl, hr⟩
    have hnD : (((canonicalOrder m).map decodedEntry).map (fun e => e.1.decoded)).Nodup := by
      have : ((canonicalOrder m).map decodedEntry).map (fun e => e.1.decoded)
          = (canonicalOrder m).map (fun e => e.1.decoded) := by
        rw [List.map_map]
        apply List.map_congr_left
        intro e he
        obtain ⟨kb, _, _, _, _, _, _, hdd, _⟩ := hfacts e he
        exact hdd
      rw [this]
      exact hnodupE
    have h3 := (nodup_decodedKeys_iff _ hmD).mp hnD
    exact (validateHeaderLabel_eq_none_iff _).mpr ⟨fun e he => (hmD e he).1, h3.1, h3.2⟩
  refine ⟨h2, hu, hne2, ?_⟩
  rw [MarshalCBOR_ok_iff h2 hne2]
  exact ⟨hv2, hc2, inner, encodeMap_of_items_eq m h2 inner he ha2 hi2, rfl⟩

/-! ## Round trip of the protected header: claims -/

/-- What makes the second condition of the round trip necessary: the header
`{int(2): []}` has no entry under the `int64` key 2, so `ensureCritical` passes
and the header encodes to `43 a1 02 80`; the decoder yields the key as an
`int64`, the critical list is found, and decoding fails on its being empty. -/
theorem UnmarshalCBOR_critical_of_other_type :
    ProtectedHeader.MarshalCBOR (some [(.integer .int 2, .array [])])
      = .ok [0x43, 0xa1, 0x02, 0x80] ∧
    ProtectedHeader.UnmarshalCBOR none [0x43, 0xa1, 0x02, 0x80]
      = .returns none (some (.new "empty crit header")) := by
  decide

/-- What makes the limit on nesting necessary: the header `{4: v}` with `v` the
empty array inside 30 further arrays encodes and decodes to itself; with one
more array around `v` it still encodes, to the 36 bytes
`58 22 a1 04 81 ... 81 80`, but the decoder, which counts the map as the first
of at most 32 nesting levels, rejects these bytes. -/
theorem UnmarshalCBOR_nesting_limit :
    ProtectedHeader.MarshalCBOR (some [(.integer .int64 4, nestedArray 30)])
      = .ok ([0x58, 0x21, 0xa1, 0x04] ++ List.replicate 30 0x81 ++ [0x80]) ∧
    ProtectedHeader.UnmarshalCBOR none
        ([0x58, 0x21, 0xa1, 0x04] ++ List.replicate 30 0x81 ++ [0x80])
      = .returns (some [(.integer .int64 4, nestedArray 30)]) none ∧
    ProtectedHeader.MarshalCBOR (some [(.integer .int64 4, nestedArray 31)])
      = .ok ([0x58, 0x22, 0xa1, 0x04] ++ List.replicate 31 0x81 ++ [0x80]) ∧
    ProtectedHeader.UnmarshalCBOR none
        ([0x58, 0x22, 0xa1, 0x04] ++ List.replicate 31 0x81 ++ [0x80])
      = .returns none (some (.new "cbor: malformed data")) := by
  decide

/-- Claim C18, evaluated at a failing input: the protected header
`{uint64(1 << 63): 0}` encodes successfully, to the twelve bytes
`4b a1 1b 80 00 00 00 00 00 00 00 00`, and decoding these bytes returns an
error: the label does not fit an `int64`, and the decoder behind the label
validator rejects it. The header pointed to is left as it was. -/
theorem UnmarshalCBOR_rejects_encoded_uint64_label :
    ProtectedHeader.MarshalCBOR (some [(.integer .uint64 (2 ^ 63), .integer .int 0)])
      = .ok [0x4b, 0xa1, 0x1b, 0x80, 0, 0, 0, 0, 0, 0, 0, 0] ∧
    ∃ e, ProtectedHeader.UnmarshalCBOR none [0x4b, 0xa1, 0x1b, 0x80, 0, 0, 0, 0, 0, 0, 0, 0]
      = .returns none (some e) :=
  ⟨by decide, .new "cbor: cannot unmarshal the header label", by decide⟩

/-- Claim C18, amended: round trip of the protected header. An empty header
(nil, or a map without entries) encodes, and decoding the result yields an
empty header with no error. A non-empty header `m` that encodes to `b` decodes
to a non-empty header with no error, and that header encodes to exactly `b`,
provided that every integer held in `m` (labels, values, elements of arrays at
any depth) is in the range of `int64`, that `m` is within the limits of the
decoder (at most 131072 entries, no array of more than 131072 elements, and
arrays nested at most 31 deep in a value, the map being the first of the 32
levels allowed), that no label of `m` has the value 2 in an integer type other
than `int64`, and that `b` is shorter than `2^64` bytes (as every byte slice
is). -/
theorem protected_header_roundtrip :
    (∀ (h t : ProtectedHeader), h.getD [] = [] →
      ∃ b, ProtectedHeader.MarshalCBOR h = .ok b ∧
        ProtectedHeader.UnmarshalCBOR t b = .returns (some []) none) ∧
    (∀ (m : HeaderMap) (t : ProtectedHeader) (b : List Nat), m ≠ [] →
      (∀ e ∈ m, e.1.inInt64 = true ∧ e.2.inInt64 = true) →
      m.length ≤ maxMapPairs →
      (∀ e ∈ m, e.2.withinLimits 1 = true) →
      (∀ kind value, (Value.integer kind 2, value) ∈ m → kind = .int64) →
      b.length < 2 ^ 64 →
      ProtectedHeader.MarshalCBOR (some m) = .ok b →
      ∃ h2, ProtectedHeader.UnmarshalCBOR t b = .returns (some h2) none ∧ h2 ≠ [] ∧
        ProtectedHeader.MarshalCBOR (some h2) = .ok b) := by
  refine ⟨?_, ?_⟩
  · intro h t he
    refine ⟨[0x40], ?_, rfl⟩
    cases h with
    | none => rfl
    | some m =>
      have : m = [] := he
      subst this
      rfl
  · intro m t b hne hrange hpairs hlim hcrit hlen henc
    exact UnmarshalCBOR_MarshalCBOR m t b hne hrange hpairs hlim hcrit hlen henc

/-- Instance of `protected_header_roundtrip`: the header
`{1: Algorithm(-7), 2: ["kid", int(4)], "kid": 7, int(4): [uint8(1), ["x"]]}`
encodes to 22 bytes with its keys in canonical order; they decode to a header
of four entries, the algorithm held as an `Algorithm`, which encodes to the
same bytes. -/
theorem protected_header_roundtrip_witness :
    ProtectedHeader.MarshalCBOR (some [
        (.string "kid", .integer .int 7),
        (.integer .int64 2, .array [.string "kid", .integer .int 4]),
        (.integer .int 4, .array [.integer .uint8 1, .array [.string "x"]]),
        (.integer .int64 1, .algorithm (-7))])
      = .ok [0x55, 0xa4, 0x01, 0x26, 0x02, 0x82, 0x63, 0x6b, 0x69, 0x64, 0x04, 0x04, 0x82,
          0x01, 0x81, 0x61, 0x78, 0x63, 0x6b, 0x69, 0x64, 0x07] ∧
    ∃ h2, ProtectedHeader.UnmarshalCBOR none
          [0x55, 0xa4, 0x01, 0x26, 0x02, 0x82, 0x63, 0x6b, 0x69, 0x64, 0x04, 0x04, 0x82,
            0x01, 0x81, 0x61, 0x78, 0x63, 0x6b, 0x69, 0x64, 0x07]
        = .returns (some h2) none ∧ h2 ≠ [] ∧
      ProtectedHeader.MarshalCBOR (some h2)
        = .ok [0x55, 0xa4, 0x01, 0x26, 0x02, 0x82, 0x63, 0x6b, 0x69, 0x64, 0x04, 0x04, 0x82,
            0x01, 0x81, 0x61, 0x78, 0x63, 0x6b, 0x69, 0x64, 0x07] :=
  ⟨by decide,
    protected_header_roundtrip.2
      [(.string "kid", .integer .int 7),
        (.integer .int64 2, .array [.string "kid", .integer .int 4]),
        (.integer .int 4, .array [.integer .uint8 1, .array [.string "x"]]),
        (.integer .int64 1, .algorithm (-7))]
      none _ (by decide) (by decide) (by decide) (by decide)
      (by
        intro kind value h
        simp only [List.mem_cons, Prod.mk.injEq, Value.integer.injEq, reduceCtorEq, false_and,
          false_or, List.mem_nil_iff, or_false] at h
        rcases h with h | h | h
        · exact h.1.1
        · omega
        · omega)
      (by decide) (by decide)⟩


/-! ## Octet strings to integers: lemmas and claims -/

theorem OS2IP_eq_natOfBytes (x : List Nat) : OS2IP x = (natOfBytes x : Int) := rfl

theorem natOfBytes_eq_sum (x : List Nat) :
    natOfBytes x = ∑ i : Fin x.length, x.get i * 256 ^ (x.length - 1 - i.val) := by
  induction x with
  | nil => simp [natOfBytes]
  | cons b rest ih =>
    rw [natOfBytes_cons, ih]
    simp only [List.length_cons]
    rw [Fin.sum_univ_succ]
    simp only [List.get_cons_zero, Fin.val_zero, List.get_cons_succ, Fin.val_succ,
      Nat.add_sub_cancel, Nat.sub_zero]
    congr 1
    apply Finset.sum_congr rfl
    intro i _
    have : rest.length - (i.val + 1) = rest.length - 1 - i.val := by omega
    rw [this]
    rfl

theorem natOfBytes_replicate_zero (k : Nat) : natOfBytes (List.replicate k 0) = 0 := by
  induction k with
  | zero => rfl
  | succ k ih => rw [List.replicate_succ, natOfBytes_cons, ih]; simp

/-- Claim C21: `OS2IP` is a total function of the byte string (there is no
failing outcome) whose result is the nonnegative integer
`sum over i of b[i] * 256^(len(b)-1-i)`; leading zero bytes do not change the
result, and the empty string gives 0. -/
theorem OS2IP_big_endian_value :
    (∀ b : List Nat,
      OS2IP b = ∑ i : Fin b.length, (b.get i : Int) * 256 ^ (b.length - 1 - i.val) ∧
      0 ≤ OS2IP b) ∧
    (∀ (k : Nat) (b : List Nat), OS2IP (List.replicate k 0 ++ b) = OS2IP b) ∧
    OS2IP [] = 0 := by
  refine ⟨fun b => ⟨?_, ?_⟩, ?_, rfl⟩
  · rw [OS2IP_eq_natOfBytes, natOfBytes_eq_sum]
    push_cast
    rfl
  · rw [OS2IP_eq_natOfBytes]
    exact Int.natCast_nonneg _
  · intro k b
    rw [OS2IP_eq_natOfBytes, OS2IP_eq_natOfBytes, natOfBytes_append, natOfBytes_replicate_zero]
    simp

/-! ## Totality of the critical-header check: lemmas and claims -/

theorem ensureCriticalLoop_ne_panic (h : ProtectedHeader) (labels : List Value)
    (hh : ∀ l ∈ labels, l.hashable = true) : ensureCriticalLoop h labels ≠ .panic := by
  induction labels with
  | nil => simp [ensureCriticalLoop]
  | cons l rest ih =>
    have hl : l.hashable = true := hh l (List.mem_cons_self _ _)
    have ih1 := ih (fun x hx => hh x (List.mem_cons_of_mem _ hx))
    cases hg : h.get l with
    | none => simp [ensureCriticalLoop, ProtectedHeader.index, hl, hg]
    | some v => simpa [ensureCriticalLoop, ProtectedHeader.index, hl, hg] using ih1

/-- The check of `ensureCritical` returns nil or an error on every header whose
critical list, if it has one, holds only values that can be map keys. -/
theorem ensureCritical_ne_panic_of_hashable (m : HeaderMap)
    (hh : ∀ labels, HeaderMap.get m HeaderLabelCritical = some (.array labels) →
      ∀ l ∈ labels, l.hashable = true) :
    ProtectedHeader.ensureCritical (some m) ≠ .panic := by
  unfold ProtectedHeader.ensureCritical ProtectedHeader.Critical
  simp only [ProtectedHeader.get]
  cases hg : HeaderMap.get m HeaderLabelCritical with
  | none => simp [ensureCriticalLoop]
  | some x =>
    cases x with
    | array labels =>
      by_cases h0 : labels.length = 0
      · simp [h0]
      · simp only [h0, if_false]
        exact ensureCriticalLoop_ne_panic _ labels (hh labels hg)
    | integer kind v => simp
    | algorithm a => simp
    | string s => simp
    | bool b => simp
    | bytes b => simp
    | bigInt v => simp
    | null => simp
    | float size bits => simp
    | simple n => simp
    | tag number content => simp
    | map keys vals => simp

/-- Claim C22, evaluated at a failing input: the critical list of the protected
header `{2: [[]]}` holds a nested array, which is neither an integer nor a text
string, so the claim expects an error. `ensureCritical` uses the nested array as
a map key in `h[label]`: a run-time panic (hash of unhashable type), in
`ensureCritical` itself, in `MarshalCBOR`, and in `UnmarshalCBOR` on the bytes
`44 a1 02 81 80`. -/
theorem ensureCritical_aborts_on_nested_array :
    ProtectedHeader.ensureCritical (some [(HeaderLabelCritical, .array [.array []])])
      = .panic ∧
    ProtectedHeader.MarshalCBOR (some [(HeaderLabelCritical, .array [.array []])])
      = .panic ∧
    ProtectedHeader.UnmarshalCBOR none [0x44, 0xa1, 0x02, 0x81, 0x80] = .panics := by
  decide

/-! ## Label validity after the algorithm is set: lemmas and claims -/

theorem HeaderMap.set_of_absent (m : HeaderMap) (k v : Value) (h : m.get k = none) :
    m.set k v = m ++ [(k, v)] := by
  induction m with
  | nil => rfl
  | cons e rest ih =>
    obtain ⟨k1, v1⟩ := e
    by_cases hk : k1 = k
    · simp [HeaderMap.get, hk] at h
    · simp only [HeaderMap.get, hk, if_false] at h
      simp [HeaderMap.set, hk, ih h]

theorem intLabels_append_integer (m : HeaderMap) (kind : IntKind) (v : Int) (x : Value) :
    intLabels (m ++ [(.integer kind v, x)]) = intLabels m ++ [toInt64 v] ∧
    stringLabels (m ++ [(.integer kind v, x)]) = stringLabels m := by
  induction m with
  | nil => simp [intLabels, stringLabels]
  | cons e rest ih =>
    obtain ⟨k1, v1⟩ := e
    cases k1 <;> simp [intLabels, stringLabels, ih.1, ih.2]

/-- Label validity of a header to which an entry is added under a new integer
key: the header was valid and no integer label has the `int64` value of the new
key. -/
theorem validateHeaderLabel_append_integer (m : HeaderMap) (kind : IntKind) (v : Int)
    (x : Value) :
    validateHeaderLabel (m ++ [(.integer kind v, x)]) = none ↔
      validateHeaderLabel m = none ∧ toInt64 v ∉ intLabels m := by
  rw [validateHeaderLabel_eq_none_iff, validateHeaderLabel_eq_none_iff,
    (intLabels_append_integer m kind v x).1, (intLabels_append_integer m kind v x).2]
  simp only [List.mem_append, List.mem_singleton, List.nodup_append, List.nodup_cons,
    List.not_mem_nil, not_false_eq_true, List.nodup_nil, and_self, true_and,
    List.disjoint_singleton]
  constructor
  · rintro ⟨h1, ⟨h2, h3⟩, h4⟩
    exact ⟨⟨fun e he => h1 e (Or.inl he), h2, h4⟩, h3⟩
  · rintro ⟨⟨h1, h2, h4⟩, h3⟩
    refine ⟨?_, ⟨h2, h3⟩, h4⟩
    intro e he
    rcases he with he | he
    · exact h1 e he
    · subst he
      rfl

/-- The call of `ensureSigningAlgorithm` that adds the algorithm: no entry under
the algorithm label, no external data and a nil `RawProtected`. -/
theorem Headers.ensureSigningAlgorithm_inserts (rawu : Option (List Nat))
    (prot : ProtectedHeader) (unprot : UnprotectedHeader) (alg : Algorithm)
    (hno : prot.get HeaderLabelAlgorithm = none) :
    Headers.ensureSigningAlgorithm ⟨none, prot, rawu, unprot⟩ alg []
      = (⟨none, some (prot.getD [] ++ [(HeaderLabelAlgorithm, .algorithm alg)]), rawu, unprot⟩,
          none) := by
  rw [Headers.ensureSigningAlgorithm_of_absent _ alg [] hno]
  cases prot with
  | none => simp [ProtectedHeader.SetAlgorithm, HeaderMap.set]
  | some m =>
    have hget : HeaderMap.get m HeaderLabelAlgorithm = none := hno
    simp [ProtectedHeader.SetAlgorithm, HeaderMap.set_of_absent _ _ _ hget]

/-- Label validity after a call of `ensureSigningAlgorithm` that returns nil on
a valid header: it is lost exactly when the call adds the algorithm to a header
with an integer label of `int64` value 1. -/
theorem ensureSigningAlgorithm_validity_iff (h : Headers) (alg : Algorithm)
    (external : List Nat)
    (hvalid : validateHeaderLabel (h.Protected.getD []) = none)
    (hnil : (h.ensureSigningAlgorithm alg external).2 = none) :
    validateHeaderLabel ((h.ensureSigningAlgorithm alg external).1.Protected.getD []) = none ↔
      ¬ (h.Protected.get HeaderLabelAlgorithm = none ∧ external = [] ∧
        (1 : Int) ∈ intLabels (h.Protected.getD [])) := by
  rcases algorithm_cases h.Protected with ⟨hno, _⟩ | ⟨hsome, c, hc⟩ | ⟨hsome, hinv⟩
  · rw [Headers.ensureSigningAlgorithm_of_absent h alg external hno] at hnil ⊢
    by_cases hext : external = []
    · subst hext
      by_cases hraw : h.RawProtected = none
      · have h1 : toInt64 1 = 1 := by decide
        obtain ⟨raw, prot, rawu, unprot⟩ := h
        have hraw2 : raw = none := hraw
        subst hraw2
        have hno2 : prot.get HeaderLabelAlgorithm = none := hno
        have hv : validateHeaderLabel (prot.getD []) = none := hvalid
        rw [← Headers.ensureSigningAlgorithm_of_absent _ alg [] hno,
          Headers.ensureSigningAlgorithm_inserts rawu prot unprot alg hno2]
        simp only [Option.getD_some]
        unfold HeaderLabelAlgorithm
        rw [validateHeaderLabel_append_integer]
        have hno3 : prot.get (.integer .int64 1) = none := hno2
        simp [hv, h1, hno3]
      · simp [hraw] at hnil
    · have hlen : external.length > 0 := List.length_pos.mpr hext
      simp [hlen, hvalid, hext]
  · rw [Headers.ensureSigningAlgorithm_of_found h alg c external hc] at hnil ⊢
    by_cases hca : c = alg
    · simp [hca, hvalid, hsome]
    · simp [hca] at hnil
  · rw [Headers.ensureSigningAlgorithm_of_invalid h alg external hinv] at hnil
    simp at hnil

theorem mem_intLabels (m : HeaderMap) (k : Int) (hk : k ∈ intLabels m) :
    ∃ kind v x, (Value.integer kind v, x) ∈ m ∧ toInt64 v = k := by
  induction m with
  | nil => simp [intLabels] at hk
  | cons e rest ih =>
    obtain ⟨k1, v1⟩ := e
    cases k1 with
    | integer kind v =>
      simp only [intLabels, List.mem_cons] at hk
      rcases hk with h1 | h1
      · exact ⟨kind, v, v1, List.mem_cons_self _ _, h1.symm⟩
      · obtain ⟨k2, v2, x2, hm2, ht2⟩ := ih h1
        exact ⟨k2, v2, x2, List.mem_cons_of_mem _ hm2, ht2⟩
    | string s =>
      obtain ⟨k2, v2, x2, hm2, ht2⟩ := ih (by simpa [intLabels] using hk)
      exact ⟨k2, v2, x2, List.mem_cons_of_mem _ hm2, ht2⟩
    | algorithm a =>
      obtain ⟨k2, v2, x2, hm2, ht2⟩ := ih (by simpa [intLabels] using hk)
      exact ⟨k2, v2, x2, List.mem_cons_of_mem _ hm2, ht2⟩
    | bool b =>
      obtain ⟨k2, v2, x2, hm2, ht2⟩ := ih (by simpa [intLabels] using hk)
      exact ⟨k2, v2, x2, List.mem_cons_of_mem _ hm2, ht2⟩
    | bytes b =>
      obtain ⟨k2, v2, x2, hm2, ht2⟩ := ih (by simpa [intLabels] using hk)
      exact ⟨k2, v2, x2, List.mem_cons_of_mem _ hm2, ht2⟩
    | array items =>
      obtain ⟨k2, v2, x2, hm2, ht2⟩ := ih (by simpa [intLabels] using hk)
      exact ⟨k2, v2, x2, List.mem_cons_of_mem _ hm2, ht2⟩
    | bigInt w =>
      obtain ⟨k2, v2, x2, hm2, ht2⟩ := ih (by simpa [intLabels] using hk)
      exact ⟨k2, v2, x2, List.mem_cons_of_mem _ hm2, ht2⟩
    | null =>
      obtain ⟨k2, v2, x2, hm2, ht2⟩ := ih (by simpa [intLabels] using hk)
      exact ⟨k2, v2, x2, List.mem_cons_of_mem _ hm2, ht2⟩
    | float size bits =>
      obtain ⟨k2, v2, x2, hm2, ht2⟩ := ih (by simpa [intLabels] using hk)
      exact ⟨k2, v2, x2, List.mem_cons_of_mem _ hm2, ht2⟩
    | simple n =>
      obtain ⟨k2, v2, x2, hm2, ht2⟩ := ih (by simpa [intLabels] using hk)
      exact ⟨k2, v2, x2, List.mem_cons_of_mem _ hm2, ht2⟩
    | tag number content =>
      obtain ⟨k2, v2, x2, hm2, ht2⟩ := ih (by simpa [intLabels] using hk)
      exact ⟨k2, v2, x2, List.mem_cons_of_mem _ hm2, ht2⟩
    | map keys vals =>
      obtain ⟨k2, v2, x2, hm2, ht2⟩ := ih (by simpa [intLabels] using hk)
      exact ⟨k2, v2, x2, List.mem_cons_of_mem _ hm2, ht2⟩

/-- Claim C23 as stated fails: the protected header `{int(1): "x"}` passes
`validateHeaderLabel` and has no entry under the `int64` key 1, so
`ensureSigningAlgorithm(-7, nil)` returns nil after it has added the entry
`int64(1): Algorithm(-7)`; the header then holds the label 1 twice and
`validateHeaderLabel` returns the duplicated-label error. -/
theorem ensureSigningAlgorithm_duplicates_label :
    validateHeaderLabel [(.integer .int 1, .string "x")] = none ∧
    Headers.ensureSigningAlgorithm ⟨none, some [(.integer .int 1, .string "x")], none, none⟩
        (-7) []
      = (⟨none, some [(.integer .int 1, .string "x"), (HeaderLabelAlgorithm, .algorithm (-7))],
          none, none⟩, none) ∧
    validateHeaderLabel [(.integer .int 1, .string "x"), (HeaderLabelAlgorithm, .algorithm (-7))]
      = some (.labelf "cbor: header label: duplicated label: %v" HeaderLabelAlgorithm) := by
  decide

/-- Claim C23, amended: for every `Headers` whose protected header passes
`validateHeaderLabel` and has no entry stored under the label 1 held as another
integer type than `int64` (every integer label of `int64` value 1 is the key
`int64(1)`), if `ensureSigningAlgorithm(alg, external)` returns nil, then the
protected header passes `validateHeaderLabel` afterwards. -/
theorem ensureSigningAlgorithm_label_validity (h : Headers) (alg : Algorithm)
    (external : List Nat)
    (hvalid : validateHeaderLabel (h.Protected.getD []) = none)
    (hno : ∀ kind v x, (Value.integer kind v, x) ∈ h.Protected.getD [] → toInt64 v = 1 →
      Value.integer kind v = HeaderLabelAlgorithm)
    (hnil : (h.ensureSigningAlgorithm alg external).2 = none) :
    validateHeaderLabel ((h.ensureSigningAlgorithm alg external).1.Protected.getD [])
      = none := by
  rw [ensureSigningAlgorithm_validity_iff h alg external hvalid hnil]
  rintro ⟨hget, _, hmem⟩
  obtain ⟨kind, v, x, hm, ht⟩ := mem_intLabels _ 1 hmem
  have hk := hno kind v x hm ht
  rw [hk] at hm
  have hp : h.Protected = some (h.Protected.getD []) := by
    cases hp : h.Protected with
    | none => rw [hp] at hm; simp at hm
    | some m => rfl
  rw [hp] at hget
  exact HeaderMap.get_ne_none_of_mem _ _ _ hm hget

/-- Instance of `ensureSigningAlgorithm_label_validity`: the protected header
`{int(4): "kid"}` is valid and has no label of value 1,
`ensureSigningAlgorithm(-7, nil)` returns nil, and the header it leaves,
`{int(4): "kid", int64(1): Algorithm(-7)}`, is valid. -/
theorem ensureSigningAlgorithm_label_validity_witness :
    validateHeaderLabel
      ((Headers.ensureSigningAlgorithm ⟨none, some [(.integer .int 4, .string "kid")], none, none⟩
        (-7) []).1.Protected.getD []) = none :=
  ensureSigningAlgorithm_label_validity
    ⟨none, some [(.integer .int 4, .string "kid")], none, none⟩ (-7) []
    (by decide)
    (by
      intro kind v x hm ht
      simp only [Option.getD_some, List.mem_singleton, Prod.mk.injEq, Value.integer.injEq] at hm
      obtain ⟨⟨_, hv⟩, _⟩ := hm
      subst hv
      exact absurd ht (by decide))
    (by decide)

/-! ## Duplicated integer labels: lemmas and claims -/

/-- On a header whose integer labels are in the `int64` range,
`validateHeaderLabel` returns nil exactly when every label is an integer or a
string and no two labels have the same value (the integer types apart). -/
theorem validateHeaderLabel_eq_none_iff_distinct (m : HeaderMap)
    (hr : ∀ e ∈ m, e.1.inInt64 = true) :
    validateHeaderLabel m = none ↔
      (∀ e ∈ m, e.1.isLabel = true) ∧ (m.map (fun e => e.1.decoded)).Nodup := by
  rw [validateHeaderLabel_eq_none_iff]
  constructor
  · rintro ⟨h1, h2, h3⟩
    exact ⟨h1, (nodup_decodedKeys_iff m (fun e he => ⟨h1 e he, hr e he⟩)).mpr ⟨h2, h3⟩⟩
  · rintro ⟨h1, h2⟩
    have := (nodup_decodedKeys_iff m (fun e he => ⟨h1 e he, hr e he⟩)).mp h2
    exact ⟨h1, this.1, this.2⟩

/-- Claim C24, evaluated at a failing input: the header
`{uint64(1<<64 - 1): 0, int64(-1): 0}` has two integer labels of different
values, so the claim expects `validateHeaderLabel` to accept it. The conversion
`int64(v)` of the `uint64` label wraps to `-1`, and the function returns the
duplicated-label error; it does so in either order of the two entries. -/
theorem validateHeaderLabel_rejects_wrapped_uint64 :
    ((2 : Int) ^ 64 - 1 ≠ -1) ∧
    validateHeaderLabel
        [(.integer .uint64 (2 ^ 64 - 1), .integer .int 0), (.integer .int64 (-1), .integer .int 0)]
      = some (.labelf "cbor: header label: duplicated label: %v" (.integer .int64 (-1))) ∧
    validateHeaderLabel
        [(.integer .int64 (-1), .integer .int 0), (.integer .uint64 (2 ^ 64 - 1), .integer .int 0)]
      = some (.labelf "cbor: header label: duplicated label: %v"
          (.integer .uint64 (2 ^ 64 - 1))) := by
  decide

/-! ## Agreement of signing and verification: claims -/

/-- Claim C25: for every `Headers`, algorithm and external data, if
`ensureSigningAlgorithm(alg, external)` returns nil, then
`ensureVerificationAlgorithm(alg, external)` on the `Headers` it leaves returns
nil too. -/
theorem ensureVerificationAlgorithm_after_signing (h : Headers) (alg : Algorithm)
    (external : List Nat)
    (hnil : (h.ensureSigningAlgorithm alg external).2 = none) :
    ((h.ensureSigningAlgorithm alg external).1.ensureVerificationAlgorithm alg external).2
      = none := by
  rcases algorithm_cases h.Protected with ⟨hno, _⟩ | ⟨_, c, hc⟩ | ⟨_, hinv⟩
  · rw [Headers.ensureSigningAlgorithm_of_absent h alg external hno] at hnil ⊢
    by_cases hext : external.length > 0
    · simp only [hext, if_true]
      rw [Headers.ensureVerificationAlgorithm_of_absent h alg external hno]
      simp [hext]
    · by_cases hraw : h.RawProtected ≠ none
      · simp [hext, hraw] at hnil
      · simp only [hext, hraw, if_false]
        rw [Headers.ensureVerificationAlgorithm_of_found _ alg alg external
          (algorithm_setAlgorithm _ alg)]
        simp
  · rw [Headers.ensureSigningAlgorithm_of_found h alg c external hc] at hnil ⊢
    by_cases hca : c = alg
    · simp only [hca, ne_eq, not_true_eq_false, if_false]
      rw [Headers.ensureVerificationAlgorithm_of_found h alg c external hc]
      simp [hca]
    · simp [hca] at hnil
  · rw [Headers.ensureSigningAlgorithm_of_invalid h alg external hinv] at hnil
    simp at hnil

/-- Instance of `ensureVerificationAlgorithm_after_signing`: signing with the
algorithm `-7` on a `Headers` without protected header and without external data
adds the algorithm, and verification with `-7` then returns nil. -/
theorem ensureVerificationAlgorithm_after_signing_witness :
    (Headers.ensureSigningAlgorithm ⟨none, none, none, none⟩ (-7) []).2 = none ∧
    ((Headers.ensureSigningAlgorithm ⟨none, none, none, none⟩ (-7)
      []).1.ensureVerificationAlgorithm (-7) []).2 = none :=
  ⟨by decide, ensureVerificationAlgorithm_after_signing ⟨none, none, none, none⟩ (-7) []
    (by decide)⟩


end Cose
